import Mathlib

/-!
Verification of the bf-runner core of the packet-storm repository.

The development shallowly embeds the program builder (build.rs, num.rs)
and the tape-machine interpreter (lib.rs):
machine integers become Nat with explicit reduction modulo 256, the
growable byte tape becomes a List Nat, the two HashMaps (bracket pairs,
markers) become association lists with the same lookup and insert
behaviour, and every fatal panic or propagated error of the Rust code
becomes an explicit error value.

The source snapshot mixes two revisions: num.rs constructs Item variants
AddMarker, RemoveMarker, AssertRelativePosition and AssertPosition, and
the interpreter in lib.rs dispatches the corresponding InterpreterAction
variants, while the Buildable impl in build.rs predates those variants
(it still has the Custom escape hatch instead).  We embed the union data
model used by num.rs and lib.rs; the four lowering arms that are not in
build.rs are each a single pass-through action, modelled from the spec
(section 4.1: such items are passed through as a single action each).
The opaque Custom closures are not modelled; nothing in the verified
claims builds one.
-/

set_option maxHeartbeats 1000000

/-- Instruction: the eight-way tagged primitive of the tape machine
(lib.rs). -/
inductive Instruction where
  | Left
  | Right
  | Inc
  | Dec
  | Input
  | Output
  | Start
  | End
deriving DecidableEq, Repr

/-- Canonical single-character rendering of a primitive (lib.rs
as_char). -/
def Instruction.as_char : Instruction → Char
  | .Left => '<'
  | .Right => '>'
  | .Inc => '+'
  | .Dec => '-'
  | .Input => ','
  | .Output => '.'
  | .Start => '['
  | .End => ']'

/-- Modelled from the spec: Instruction::from_byte is called by
Item::parse in build.rs but its definition is missing from the snapshot
of lib.rs.  Per spec sections 3 and 6 it is the reverse mapping from a
byte to the variant with that canonical character, every byte outside
the eight-character alphabet being invalid. -/
def Instruction.from_byte (b : Nat) : Option Instruction :=
  if b = '<'.toNat then some .Left
  else if b = '>'.toNat then some .Right
  else if b = '+'.toNat then some .Inc
  else if b = '-'.toNat then some .Dec
  else if b = ','.toNat then some .Input
  else if b = '.'.toNat then some .Output
  else if b = '['.toNat then some .Start
  else if b = ']'.toNat then some .End
  else none

/-- InterpreterAction: a lowered program element (build.rs enum, merged
with the marker and assertion variants the interpreter in lib.rs
dispatches on).  The u8 comment level and the usize positions are Nat;
the isize assertion offset is Int. -/
inductive InterpreterAction where
  | Instruction (i : Instruction)
  | Comment (text : String) (level : Nat)
  | EndComment
  | Indent (inc : Bool)
  | AssertPosition (desired : Nat) (why : String)
  | PlaceMarker (name : String)
  | RemoveMarker (name : String)
  | AssertRelative (name : String) (offset : Int) (comment : String)
  | PrintTape
deriving DecidableEq, Repr

/-- Alias for Instruction, usable where the bare name would resolve to
the Instruction constructor of another type. -/
abbrev Instr := Instruction

/-- InterpreterAction::as_instruction from build.rs. -/
def InterpreterAction.as_instruction : InterpreterAction → Option Instr
  | .Instruction i => some i
  | _ => none

/-- Item: the IR tree (build.rs, with the marker and assertion variants
used by num.rs; Loop is inlined as a body list plus the change_indent
flag of the Loop struct). -/
inductive Item where
  | Sequence (items : List Item)
  | Direct (i : Instruction)
  | Loop (body : List Item) (change_indent : Bool)
  | Repeat (item : Item) (n : Nat)
  | Comment (text : String) (level : Nat)
  | EndComment
  | AddMarker (name : String)
  | RemoveMarker (name : String)
  | AssertRelativePosition (name : String) (offset : Int) (comment : String)
  | AssertPosition (cell : Nat) (message : String)

mutual

/-- Lowering of one Item to a flat action list (Buildable for Item in
build.rs).  The four marker and assertion arms are modelled from the
spec (passed through as a single action each); everything else mirrors
build.rs: a Loop emits the optional indent hints around Start, the
lowered body and End, and Repeat emits n concatenated copies. -/
def Item.build : Item → List InterpreterAction
  | .Sequence items => Item.buildList items
  | .Direct i => [.Instruction i]
  | .Loop body change_indent =>
      (if change_indent then [InterpreterAction.Indent true] else []) ++
        ([InterpreterAction.Instruction .Start] ++ Item.buildList body ++
          [InterpreterAction.Instruction .End]) ++
        (if change_indent then [InterpreterAction.Indent false] else [])
  | .Repeat item n => (List.replicate n (Item.build item)).flatten
  | .Comment text level => [.Comment text level]
  | .EndComment => [.EndComment]
  | .AddMarker name => [.PlaceMarker name]
  | .RemoveMarker name => [.RemoveMarker name]
  | .AssertRelativePosition name offset comment =>
      [.AssertRelative name offset comment]
  | .AssertPosition cell message => [.AssertPosition cell message]

/-- Lowering of an item list (Buildable for Vec in build.rs:
flat_map of build). -/
def Item.buildList : List Item → List InterpreterAction
  | [] => []
  | item :: rest => Item.build item ++ Item.buildList rest

end

/-- Item::repeat from build.rs. -/
def Item.repeat (t : Item) (n : Nat) : Item := .Repeat t n

/-- Item::comment from build.rs: wrap in a sequence with a leading
Comment and a trailing EndComment. -/
def Item.comment (t : Item) (c : String) (level : Nat) : Item :=
  .Sequence [.Comment c level, t, .EndComment]

/-- One byte of Item::parse: from_byte into a Direct node, or the
unknown-byte error. -/
def parseChar (c : Char) : Except String Item :=
  match Instruction.from_byte c.toNat with
  | some i => .ok (.Direct i)
  | none => .error ("unknown byte " ++ toString c.toNat)

/-- Item::parse from build.rs: map every byte of the text through
from_byte into a Direct node, collect into a Sequence, failing on the
first unknown byte.  Characters stand in for the bytes; on the
eight-character ASCII alphabet the two coincide and every other
character is rejected either way. -/
def Item.parse (s : String) : Except String Item :=
  (s.data.mapM parseChar).map .Sequence

/-- offset_to_insns from build.rs: a nonnegative offset lowers to that
many Right moves, a negative one to that many Left moves. -/
def offset_to_insns (offset : Int) : Item :=
  if offset ≥ 0 then Item.repeat (.Direct .Right) offset.natAbs
  else Item.repeat (.Direct .Left) offset.natAbs

/-- offset_from from build.rs. -/
def offset_from (start target : Nat) : Int :=
  if target ≥ start then ((target - start : Nat) : Int)
  else -((start - target : Nat) : Int)

/-- zero_cell from build.rs: the loop that decrements the current cell
to zero. -/
def zero_cell : Item := .Loop [.Direct .Dec] false

/-- zero_cell_up from build.rs: the loop that increments the current
cell until it wraps to zero. -/
def zero_cell_up : Item := .Loop [.Direct .Inc] false

/-- drain from build.rs: one loop that decrements the current cell,
walks to each signed offset in turn (each move is relative to the cell
reached by the previous one), increments or decrements there, and ends
the body with a move by the negated accumulated displacement. -/
def drain (offsets : List Int) (add : Bool) : Item :=
  let folded : List Item × Int :=
    offsets.foldl
      (fun acc offset =>
        (acc.1 ++
          [Item.Repeat
              (.Direct (if offset ≥ 0 then Instruction.Right else Instruction.Left))
              offset.natAbs,
            .Direct (if add then Instruction.Inc else Instruction.Dec)],
          acc.2 + offset))
      ([Item.Direct .Dec], 0)
  .Loop
    (folded.1 ++
      [Item.Repeat
          (.Direct (if folded.2 ≥ 0 then Instruction.Left else Instruction.Right))
          folded.2.natAbs])
    false

/-- usize::MAX on the 64-bit targets the crate builds for; the depth
guard asserts this impossible head position to force a failure. -/
def USIZE_MAX : Nat := 2 ^ 64 - 1

/-- Decimal digit character, as format! renders it. -/
def digitCh (d : Nat) : Char :=
  if d = 0 then '0' else if d = 1 then '1' else if d = 2 then '2'
  else if d = 3 then '3' else if d = 4 then '4' else if d = 5 then '5'
  else if d = 6 then '6' else if d = 7 then '7' else if d = 8 then '8'
  else '9'

/-- Structural helper for the decimal digits: the fuel argument makes
the recursion structural so that the kernel can evaluate it; with fuel
above n it never runs out. -/
def natDigitsRevGo : Nat → Nat → List Char
  | 0, _ => []
  | f + 1, n =>
    if n < 10 then [digitCh n] else digitCh (n % 10) :: natDigitsRevGo f (n / 10)

/-- Decimal digits of n, least significant first. -/
def natDigitsRev (n : Nat) : List Char := natDigitsRevGo (n + 1) n

/-- Decimal rendering of a Nat, the string format! produces for a
usize argument. -/
def natStr (n : Nat) : String := String.mk (natDigitsRev n).reverse

/-- NumericOperation from num.rs, as a record of the associated items
and constants. -/
structure NumericOperation where
  NAME : String
  ZERO_CHECK_FIRST : Bool
  WIDTH : Nat
  operation : Item
  zero_reset : Item

/-- Marker name of one recursion level, format!("operation \x7b\x7d
level \x7b\x7d", NAME, WIDTH - space) in num.rs. -/
def levelMarkerName (N : NumericOperation) (space : Nat) : String :=
  "operation " ++ N.NAME ++ " level " ++ natStr (N.WIDTH - space)

/-- Comment text of one recursion level in operate_level. -/
def levelCommentText (N : NumericOperation) (space : Nat) : String :=
  N.NAME ++ " \x7bdepth=" ++ natStr (N.WIDTH - space) ++ "/" ++
    natStr N.WIDTH ++ "\x7d"

/-- operate_level from num.rs: one unrolled level of the carry or
borrow recursion.  prep writes a 1 into the scratch cell, zero_check is
the two-loop idiom whose else branch recurses at scratch_offset + 1 (or
emits the failing overflow assertion when space is exhausted), and the
order of operation versus zero_check follows ZERO_CHECK_FIRST. -/
def operate_level (N : NumericOperation) (space : Nat) (scratch_offset : Int) : Item :=
  let marker_name := levelMarkerName N space
  let prep := Item.Sequence [
    offset_to_insns scratch_offset,
    zero_cell,
    .Direct .Inc,
    offset_to_insns (-scratch_offset)]
  let zero_check := Item.Sequence [
    Item.Loop [
      offset_to_insns scratch_offset,
      .Direct .Dec,
      offset_to_insns (-scratch_offset),
      .Direct .Right] true,
    offset_to_insns scratch_offset,
    Item.Loop
      (match space with
        | Nat.succ space' => [
            offset_to_insns (-scratch_offset),
            .Direct .Left,
            Item.AssertRelativePosition marker_name (-1) ("before recursion"),
            operate_level N space' (scratch_offset + 1),
            Item.AssertRelativePosition marker_name (-1) ("after recursion"),
            .Direct .Right,
            N.zero_reset,
            .Direct .Right,
            offset_to_insns scratch_offset]
        | Nat.zero => [Item.AssertPosition USIZE_MAX ("arithmetic overflow")])
      true,
    offset_to_insns (-scratch_offset - 1)]
  let comment := Item.Comment (levelCommentText N space) 10
  if N.ZERO_CHECK_FIRST then
    Item.Sequence [
      comment,
      Item.AddMarker marker_name,
      prep,
      Item.AssertRelativePosition marker_name 0 ("after prep"),
      zero_check,
      Item.AssertRelativePosition marker_name 0 ("after zero check"),
      N.operation,
      Item.AssertRelativePosition marker_name 0 ("after operation"),
      Item.AssertRelativePosition marker_name 0 ("after level"),
      Item.RemoveMarker marker_name]
  else
    Item.Sequence [
      comment,
      Item.AddMarker marker_name,
      prep,
      Item.AssertRelativePosition marker_name 0 ("after prep"),
      N.operation,
      Item.AssertRelativePosition marker_name 0 ("after operation"),
      zero_check,
      Item.AssertRelativePosition marker_name 0 ("after zero check"),
      Item.AssertRelativePosition marker_name 0 ("after level"),
      Item.RemoveMarker marker_name]

/-- Marker name of the operate wrapper. -/
def operateMarkerName (N : NumericOperation) : String :=
  "operation " ++ N.NAME

/-- operate from num.rs: place a marker, zero the two scratch cells at
scratch_offset, run the level recursion from space = WIDTH - 1, assert
the head is restored and drop the marker. -/
def operate (N : NumericOperation) (scratch_offset : Int) : Item :=
  let marker_name := operateMarkerName N
  Item.Sequence [
    Item.AddMarker marker_name,
    offset_to_insns scratch_offset,
    zero_cell,
    .Direct .Right,
    zero_cell,
    .Direct .Left,
    offset_to_insns (-scratch_offset),
    operate_level N (N.WIDTH - 1) scratch_offset,
    Item.AssertRelativePosition marker_name 0 ("after total operation"),
    Item.RemoveMarker marker_name]

/-- ByteAdd from num.rs. -/
def ByteAdd (W : Nat) : NumericOperation :=
  ⟨"add", false, W, .Direct .Inc, .Sequence []⟩

/-- ByteSub from num.rs. -/
def ByteSub (W : Nat) : NumericOperation :=
  ⟨"sub", true, W, .Direct .Dec, .Sequence []⟩

/-- DecimalAdd from num.rs: Inc with a zero reset of ten decrements. -/
def DecimalAdd (W : Nat) : NumericOperation :=
  ⟨"decimal add", false, W, .Direct .Inc,
    .Sequence (List.replicate 10 (.Direct .Dec))⟩

/-- DecimalSub from num.rs: Dec with a zero reset of ten increments. -/
def DecimalSub (W : Nat) : NumericOperation :=
  ⟨"decimal sub", true, W, .Direct .Dec,
    .Sequence (List.replicate 10 (.Direct .Inc))⟩

/-- One element of the modelled input source: a byte, or a non-EOF I/O
error at that read (EOF is the end of the list). -/
abbrev InputItem := Option Nat

/-- Interpreter state (lib.rs Interpreter, minus the program and the
instruction pointer, which live in Config): the growable byte tape, the
tape pointer, the marker map as an association list, the remaining
input and the bytes written so far.  The print level only affects
diagnostic printing and is not modelled. -/
structure St where
  tape : List Nat
  ptr : Nat
  markers : List (String × Nat)
  input : List InputItem
  output : List Nat
deriving DecidableEq, Repr

/-- Fatal outcomes of one interpreter step: the unwrap panic on a left
move at cell zero, a missing bracket pair (unreachable for linked
programs), the assert_eq panics of the position assertions and of the
marker bookkeeping, and a propagated non-EOF input error. -/
inductive Err where
  | leftUnderflow
  | pairMissing (ip : Nat)
  | assertPos (expected actual : Nat) (why : String)
  | markerExists (name : String)
  | markerMissing (name : String)
  | assertRel (name : String) (offset : Int) (comment : String)
      (expected : Int) (actual : Nat)
  | inputError
deriving DecidableEq, Repr

/-- The byte under the head.  The interpreter only reads in bounds (the
tape-pointer invariant proved below), so the default is never taken on
a reachable state. -/
def St.cell (s : St) : Nat := s.tape.getD s.ptr 0

/-- Write the byte under the head. -/
def St.setCell (s : St) (v : Nat) : St :=
  { s with tape := s.tape.set s.ptr v }

/-- Effect of every action except the two brackets, mirroring the match
arms of Interpreter::run in lib.rs.  Comment, EndComment, Indent and
PrintTape only print and leave the state unchanged. -/
def actionStep (a : InterpreterAction) (s : St) : Except Err St :=
  match a with
  | .Instruction .Left =>
      match s.ptr with
      | 0 => .error .leftUnderflow
      | p + 1 => .ok { s with ptr := p }
  | .Instruction .Right =>
      let p := s.ptr + 1
      let grown := if s.tape.length ≤ p
        then s.tape ++ List.replicate (p + 1 - s.tape.length) 0
        else s.tape
      .ok { s with ptr := p, tape := grown }
  | .Instruction .Inc => .ok (s.setCell ((s.cell + 1) % 256))
  | .Instruction .Dec => .ok (s.setCell ((s.cell + 255) % 256))
  | .Instruction .Input =>
      match s.input with
      | [] => .ok (s.setCell 0)
      | some b :: rest =>
          let s' := s.setCell (b % 256)
          .ok { s' with input := rest }
      | none :: _ => .error .inputError
  | .Instruction .Output => .ok { s with output := s.output ++ [s.cell] }
  | .Instruction .Start => .ok s
  | .Instruction .End => .ok s
  | .Comment _ _ => .ok s
  | .EndComment => .ok s
  | .Indent _ => .ok s
  | .PrintTape => .ok s
  | .AssertPosition desired why =>
      if s.ptr = desired then .ok s
      else .error (.assertPos desired s.ptr why)
  | .PlaceMarker name =>
      match s.markers.lookup name with
      | some _ => .error (.markerExists name)
      | none => .ok { s with markers := (name, s.ptr) :: s.markers }
  | .RemoveMarker name =>
      match s.markers.lookup name with
      | none => .error (.markerMissing name)
      | some _ => .ok { s with markers := s.markers.eraseP (fun kv => kv.1 == name) }
  | .AssertRelative name offset comment =>
      match s.markers.lookup name with
      | none => .error (.markerMissing name)
      | some base =>
          if (s.ptr : Int) = (base : Int) + offset then .ok s
          else .error (.assertRel name offset comment ((base : Int) + offset) s.ptr)

/-- Program from lib.rs: the flat action list plus the bracket pair
map, an association list standing in for the HashMap. -/
structure Program where
  instructions : List InterpreterAction
  pairs : List (Nat × Nat)
deriving DecidableEq, Repr

/-- The bracket scan of Program::build: fold over the actions with the
next index, the stack of open brackets and the pairs recorded so far.
On Start push the index; on End pop (failing on an empty stack with
the unopened-close error) and record the pair in both directions. -/
def linkScan : List InterpreterAction → Nat → List Nat → List (Nat × Nat) →
    Except String (List Nat × List (Nat × Nat))
  | [], _, stack, pairs => .ok (stack, pairs)
  | .Instruction .Start :: rest, i, stack, pairs =>
      linkScan rest (i + 1) (i :: stack) pairs
  | .Instruction .End :: rest, i, stack, pairs =>
      match stack with
      | [] => .error ("unopened close")
      | matching :: stack' =>
          linkScan rest (i + 1) stack' ((matching, i) :: (i, matching) :: pairs)
  | _ :: rest, i, stack, pairs => linkScan rest (i + 1) stack pairs

/-- Program::build from lib.rs: run the bracket scan and fail with the
unclosed-open error when open brackets remain. -/
def Program.build (instructions : List InterpreterAction) : Except String Program :=
  match linkScan instructions 0 [] [] with
  | .error e => .error e
  | .ok (stack, pairs) =>
      if stack.isEmpty then .ok ⟨instructions, pairs⟩
      else .error ("unclosed open[s]")

/-- Program::as_text_clean from lib.rs: just the characters of the
primitive instructions. -/
def Program.as_text_clean (p : Program) : String :=
  String.mk ((p.instructions.filterMap InterpreterAction.as_instruction).map
    Instruction.as_char)

/-- A machine configuration: the instruction pointer plus the state. -/
structure Config where
  ip : Nat
  st : St
deriving DecidableEq, Repr

/-- Result of dispatching one action of Interpreter::run: the loop
breaks once the instruction pointer passes the end, a fatal check stops
the run, and otherwise execution continues at the next configuration
(both bracket jumps land one past the recorded pair index because the
pointer increment runs after the dispatch). -/
inductive StepOut where
  | next (c : Config)
  | done (s : St)
  | fail (e : Err)
deriving DecidableEq, Repr

/-- One iteration of the run loop of lib.rs. -/
def step (P : Program) (c : Config) : StepOut :=
  match P.instructions[c.ip]? with
  | none => .done c.st
  | some (.Instruction .Start) =>
      if c.st.cell = 0 then
        match P.pairs.lookup c.ip with
        | none => .fail (.pairMissing c.ip)
        | some matching => .next ⟨matching + 1, c.st⟩
      else .next ⟨c.ip + 1, c.st⟩
  | some (.Instruction .End) =>
      if c.st.cell ≠ 0 then
        match P.pairs.lookup c.ip with
        | none => .fail (.pairMissing c.ip)
        | some matching => .next ⟨matching + 1, c.st⟩
      else .next ⟨c.ip + 1, c.st⟩
  | some a =>
      match actionStep a c.st with
      | .ok s' => .next ⟨c.ip + 1, s'⟩
      | .error e => .fail e

/-- Fuelled unfolding of Interpreter::run: none means the fuel ran out
before the run finished. -/
def runFuel (P : Program) : Nat → Config → Option (Except Err St)
  | 0, _ => none
  | fuel + 1, c =>
      match step P c with
      | .done s => some (.ok s)
      | .fail e => some (.error e)
      | .next c' => runFuel P fuel c'

/-- Reachability in zero or more successful steps. -/
def StepsTo (P : Program) : Config → Config → Prop :=
  Relation.ReflTransGen (fun a b => step P a = .next b)

/-- The run from c dies with error e after zero or more steps. -/
def FailsWith (P : Program) (c : Config) (e : Err) : Prop :=
  ∃ c', StepsTo P c c' ∧ step P c' = .fail e

/-- The fresh interpreter state of Interpreter::new: tape [0], both
pointers 0, no markers, the given input, nothing written yet. -/
def initSt (inp : List InputItem) : St := ⟨[0], 0, [], inp, []⟩

theorem runFuel_mono {P : Program} {f f' : Nat} {c : Config}
    {r : Except Err St} (h : runFuel P f c = some r) (hle : f ≤ f') :
    runFuel P f' c = some r := by
  induction f generalizing f' c with
  | zero => simp [runFuel] at h
  | succ f ih =>
    obtain ⟨f'', rfl⟩ : ∃ f'', f' = f'' + 1 := ⟨f' - 1, by omega⟩
    rw [runFuel] at h ⊢
    cases hs : step P c with
    | next c2 => rw [hs] at h; exact ih h (by omega)
    | done s => rw [hs] at h; exact h
    | fail e => rw [hs] at h; exact h

theorem runFuel_unique {P : Program} {f f' : Nat} {c : Config}
    {r r' : Except Err St} (h : runFuel P f c = some r)
    (h' : runFuel P f' c = some r') : r = r' := by
  rcases Nat.le_total f f' with hle | hle
  · have h2 := runFuel_mono h hle; rw [h2] at h'; exact Option.some.inj h'
  · have h2 := runFuel_mono h' hle; rw [h2] at h; exact (Option.some.inj h).symm

theorem stepsTo_runFuel_ok {P : Program} {c c' : Config} {s : St}
    (h : StepsTo P c c') (hd : step P c' = .done s) :
    ∃ f, runFuel P f c = some (.ok s) := by
  induction h using Relation.ReflTransGen.head_induction_on with
  | refl => exact ⟨1, by rw [runFuel, hd]⟩
  | head hstep _ ih =>
    obtain ⟨f, hf⟩ := ih
    exact ⟨f + 1, by rw [runFuel, hstep]; exact hf⟩

theorem failsWith_runFuel {P : Program} {c : Config} {e : Err}
    (h : FailsWith P c e) : ∃ f, runFuel P f c = some (.error e) := by
  obtain ⟨c', hsteps, hfail⟩ := h
  induction hsteps using Relation.ReflTransGen.head_induction_on with
  | refl => exact ⟨1, by rw [runFuel, hfail]⟩
  | head hstep _ ih =>
    obtain ⟨f, hf⟩ := ih
    exact ⟨f + 1, by rw [runFuel, hstep]; exact hf⟩

/-- C5: lowering is a deterministic homomorphism.  Building a
two-element Sequence concatenates the builds of the elements, and
building Repeat concatenates n copies of the build of the item. -/
theorem build_seq_pair_and_repeat (a b x : Item) (n : Nat) :
    Item.build (.Sequence [a, b]) = a.build ++ b.build ∧
    Item.build (.Repeat x n) = (List.replicate n x.build).flatten := by
  constructor
  · simp [Item.build, Item.buildList]
  · rfl

/-- C7: bracket dispatch.  With the pair of the current index recorded
as j, a Start on a zero cell resumes at j + 1 (the pair index plus the
post-dispatch increment) and falls through to the next action
otherwise; an End on a nonzero cell resumes at j + 1 and falls through
on zero. -/
theorem step_bracket_dispatch (P : Program) (c : Config) (j : Nat)
    (hpair : P.pairs.lookup c.ip = some j) :
    (P.instructions[c.ip]? = some (.Instruction .Start) →
      (c.st.cell = 0 → step P c = .next ⟨j + 1, c.st⟩) ∧
      (c.st.cell ≠ 0 → step P c = .next ⟨c.ip + 1, c.st⟩)) ∧
    (P.instructions[c.ip]? = some (.Instruction .End) →
      (c.st.cell ≠ 0 → step P c = .next ⟨j + 1, c.st⟩) ∧
      (c.st.cell = 0 → step P c = .next ⟨c.ip + 1, c.st⟩)) := by
  constructor
  · intro hins
    constructor
    · intro hz; rw [step, hins]; simp [hz, hpair]
    · intro hz; rw [step, hins]; simp [hz]
  · intro hins
    constructor
    · intro hz; rw [step, hins]; simp [hz, hpair]
    · intro hz; rw [step, hins]; simp [hz]

/-- C8: the Input action.  A byte is consumed and stored in the current
cell; at EOF the cell is set to 0 and the run continues; a non-EOF
input error stops the run and becomes its result. -/
theorem step_input (P : Program) (c : Config)
    (hins : P.instructions[c.ip]? = some (.Instruction .Input)) :
    (∀ b rest, c.st.input = some b :: rest →
      step P c = .next ⟨c.ip + 1,
        { c.st.setCell (b % 256) with input := rest }⟩) ∧
    (c.st.input = [] → step P c = .next ⟨c.ip + 1, c.st.setCell 0⟩) ∧
    (∀ rest, c.st.input = none :: rest →
      step P c = .fail .inputError ∧
      ∀ fuel, runFuel P (fuel + 1) c = some (.error .inputError)) := by
  refine ⟨?_, ?_, ?_⟩
  · intro b rest hin; rw [step, hins]; simp [actionStep, hin]
  · intro hin; rw [step, hins]; simp [actionStep, hin]
  · intro rest hin
    have hst : step P c = .fail .inputError := by
      rw [step, hins]; simp [actionStep, hin]
    exact ⟨hst, fun fuel => by rw [runFuel, hst]⟩

/-- C9: the Left move.  At tape index 0 the unwrap on checked_sub is a
fatal runtime error that ends the run with that error; at a positive
index the pointer decreases by exactly one. -/
theorem step_left (P : Program) (c : Config)
    (hins : P.instructions[c.ip]? = some (.Instruction .Left)) :
    (c.st.ptr = 0 → step P c = .fail .leftUnderflow ∧
      ∀ fuel, runFuel P (fuel + 1) c = some (.error .leftUnderflow)) ∧
    (∀ p, c.st.ptr = p + 1 →
      step P c = .next ⟨c.ip + 1, { c.st with ptr := p }⟩) := by
  constructor
  · intro hz
    have hst : step P c = .fail .leftUnderflow := by
      rw [step, hins]; simp [actionStep, hz]
    exact ⟨hst, fun fuel => by rw [runFuel, hst]⟩
  · intro p hp; rw [step, hins]; simp [actionStep, hp]

theorem actionStep_inbounds {a : InterpreterAction} {s s' : St}
    (h : actionStep a s = .ok s') (hinv : s.ptr < s.tape.length) :
    s'.ptr < s'.tape.length := by
  cases a with
  | Instruction i =>
    cases i with
    | Left =>
      simp only [actionStep] at h
      rcases hp : s.ptr with _ | p <;> rw [hp] at h
      · cases h
      · injection h with h; subst h; simp; omega
    | Right =>
      simp only [actionStep] at h
      injection h with h; subst h
      by_cases hl : s.tape.length ≤ s.ptr + 1 <;> simp [hl] <;> omega
    | Inc =>
      simp only [actionStep] at h
      injection h with h; subst h; simpa [St.setCell] using hinv
    | Dec =>
      simp only [actionStep] at h
      injection h with h; subst h; simpa [St.setCell] using hinv
    | Input =>
      simp only [actionStep] at h
      rcases hin : s.input with _ | ⟨_ | b, rest⟩ <;> rw [hin] at h
      · injection h with h; subst h; simpa [St.setCell] using hinv
      · cases h
      · injection h with h; subst h; simpa [St.setCell] using hinv
    | Output =>
      simp only [actionStep] at h
      injection h with h; subst h; simpa using hinv
    | Start => simp only [actionStep] at h; injection h with h; subst h; exact hinv
    | End => simp only [actionStep] at h; injection h with h; subst h; exact hinv
  | Comment t l => simp only [actionStep] at h; injection h with h; subst h; exact hinv
  | EndComment => simp only [actionStep] at h; injection h with h; subst h; exact hinv
  | Indent b => simp only [actionStep] at h; injection h with h; subst h; exact hinv
  | PrintTape => simp only [actionStep] at h; injection h with h; subst h; exact hinv
  | AssertPosition d w =>
    simp only [actionStep] at h; split at h
    · injection h with h; subst h; exact hinv
    · cases h
  | PlaceMarker n =>
    simp only [actionStep] at h; split at h
    · cases h
    · injection h with h; subst h; exact hinv
  | RemoveMarker n =>
    simp only [actionStep] at h; split at h
    · cases h
    · injection h with h; subst h; exact hinv
  | AssertRelative n o cm =>
    simp only [actionStep] at h; split at h
    · cases h
    · split at h
      · injection h with h; subst h; exact hinv
      · cases h

theorem step_preserves_inbounds {P : Program} {c c' : Config}
    (hinv : c.st.ptr < c.st.tape.length) (hs : step P c = .next c') :
    c'.st.ptr < c'.st.tape.length := by
  rw [step] at hs
  split at hs
  · cases hs
  · split at hs
    · split at hs
      · cases hs
      · cases hs; exact hinv
    · cases hs; exact hinv
  · split at hs
    · split at hs
      · cases hs
      · cases hs; exact hinv
    · cases hs; exact hinv
  · split at hs
    · cases hs; exact actionStep_inbounds (by assumption) hinv
    · cases hs

/-- C10: from the initial interpreter state every reachable
configuration keeps the tape pointer strictly inside the tape, so each
read and write of tape[tape_pointer] performed by run is in bounds for
every program and every input. -/
theorem run_tape_pointer_inbounds (P : Program) (inp : List InputItem)
    (c : Config) (h : StepsTo P ⟨0, initSt inp⟩ c) :
    c.st.ptr < c.st.tape.length := by
  have : ∀ c₀ c₁ : Config, StepsTo P c₀ c₁ →
      c₀.st.ptr < c₀.st.tape.length → c₁.st.ptr < c₁.st.tape.length := by
    intro c₀ c₁ hsteps
    induction hsteps with
    | refl => exact id
    | tail _ hstep ih => exact fun h0 => step_preserves_inbounds (ih h0) hstep
  exact this _ _ h (by simp [initSt])

/-- The Start action, abbreviated. -/
def startA : InterpreterAction := .Instruction .Start

/-- The End action, abbreviated. -/
def endA : InterpreterAction := .Instruction .End

theorem lookup_cons_nat {k v : Nat} {m : List (Nat × Nat)} (a : Nat) :
    List.lookup a ((k, v) :: m) = if a = k then some v else List.lookup a m := by
  by_cases h : a = k
  · simp [List.lookup, h]
  · have hb : (a == k) = false := by simpa using h
    simp [List.lookup, hb, h]

theorem linkScan_start (rest : List InterpreterAction) (i : Nat)
    (st : List Nat) (m : List (Nat × Nat)) :
    linkScan (startA :: rest) i st m = linkScan rest (i + 1) (i :: st) m := rfl

theorem linkScan_end_cons (rest : List InterpreterAction) (i x : Nat)
    (st : List Nat) (m : List (Nat × Nat)) :
    linkScan (endA :: rest) i (x :: st) m =
      linkScan rest (i + 1) st ((x, i) :: (i, x) :: m) := rfl

theorem linkScan_end_nil (rest : List InterpreterAction) (i : Nat)
    (m : List (Nat × Nat)) :
    linkScan (endA :: rest) i [] m = .error ("unopened close") := rfl

theorem linkScan_other {a : InterpreterAction} (h1 : a ≠ startA)
    (h2 : a ≠ endA) (rest : List InterpreterAction) (i : Nat)
    (st : List Nat) (m : List (Nat × Nat)) :
    linkScan (a :: rest) i st m = linkScan rest (i + 1) st m := by
  rcases a with i' | _ | _ | _ | _ | _ | _ | _ | _ <;> try rfl
  rcases i' with _ | _ | _ | _ | _ | _ | _ | _ <;> try rfl
  · exact absurd rfl h1
  · exact absurd rfl h2

/-- Invariant of the bracket scan after processing the first i actions
of L with open-bracket stack st and recorded pairs m. -/
def ScanInv (L : List InterpreterAction) (i : Nat) (st : List Nat)
    (m : List (Nat × Nat)) : Prop :=
  st.Nodup ∧
  (∀ x ∈ st, x < i ∧ L[x]? = some startA ∧ m.lookup x = none) ∧
  (∀ k j, m.lookup k = some j → k < i ∧ j < i ∧ m.lookup j = some k ∧
    ((L[k]? = some startA ∧ L[j]? = some endA ∧ k < j) ∨
     (L[k]? = some endA ∧ L[j]? = some startA ∧ j < k))) ∧
  (∀ x, x < i → L[x]? = some startA → x ∈ st ∨ ∃ j, m.lookup x = some j) ∧
  (∀ y, y < i → L[y]? = some endA → ∃ x, m.lookup y = some x)

theorem lookup_none_of_scanInv {L : List InterpreterAction} {i : Nat}
    {st : List Nat} {m : List (Nat × Nat)} (h : ScanInv L i st m)
    {k : Nat} (hk : i ≤ k) : m.lookup k = none := by
  rcases hm : m.lookup k with _ | j
  · rfl
  · exact absurd (h.2.2.1 k j hm).1 (by omega)

theorem scanInv_step_start {L : List InterpreterAction} {i : Nat}
    {st : List Nat} {m : List (Nat × Nat)} (h : ScanInv L i st m)
    (hL : L[i]? = some startA) : ScanInv L (i + 1) (i :: st) m := by
  obtain ⟨hnd, hst, hm, hs, he⟩ := h
  refine ⟨?_, ?_, ?_, ?_, ?_⟩
  · exact List.nodup_cons.mpr ⟨fun hmem => absurd (hst i hmem).1 (by omega), hnd⟩
  · intro x hx
    rcases List.mem_cons.mp hx with rfl | hx'
    · exact ⟨by omega, hL, lookup_none_of_scanInv ⟨hnd, hst, hm, hs, he⟩ le_rfl⟩
    · obtain ⟨h1, h2, h3⟩ := hst x hx'; exact ⟨by omega, h2, h3⟩
  · intro k j hkj
    obtain ⟨h1, h2, h3, h4⟩ := hm k j hkj
    exact ⟨by omega, by omega, h3, h4⟩
  · intro x hx hxs
    by_cases hxi : x = i
    · exact Or.inl (hxi ▸ List.mem_cons_self i st)
    · rcases hs x (by omega) hxs with h' | h'
      · exact Or.inl (List.mem_cons_of_mem _ h')
      · exact Or.inr h'
  · intro y hy hys
    by_cases hyi : y = i
    · rw [hyi, hL] at hys
      simp [startA, endA] at hys
    · exact he y (by omega) hys

theorem scanInv_step_other {L : List InterpreterAction} {i : Nat}
    {st : List Nat} {m : List (Nat × Nat)} (h : ScanInv L i st m)
    {a : InterpreterAction} (hL : L[i]? = some a) (h1 : a ≠ startA)
    (h2 : a ≠ endA) : ScanInv L (i + 1) st m := by
  obtain ⟨hnd, hst, hm, hs, he⟩ := h
  refine ⟨hnd, ?_, ?_, ?_, ?_⟩
  · intro x hx; obtain ⟨u, v, w⟩ := hst x hx; exact ⟨by omega, v, w⟩
  · intro k j hkj
    obtain ⟨u, v, w, z⟩ := hm k j hkj
    exact ⟨by omega, by omega, w, z⟩
  · intro x hx hxs
    by_cases hxi : x = i
    · rw [hxi, hL] at hxs
      exact absurd (Option.some.inj hxs) h1
    · exact hs x (by omega) hxs
  · intro y hy hys
    by_cases hyi : y = i
    · rw [hyi, hL] at hys
      exact absurd (Option.some.inj hys) h2
    · exact he y (by omega) hys

theorem scanInv_step_end {L : List InterpreterAction} {i : Nat}
    {x : Nat} {st : List Nat} {m : List (Nat × Nat)}
    (h : ScanInv L i (x :: st) m) (hL : L[i]? = some endA) :
    ScanInv L (i + 1) st ((x, i) :: (i, x) :: m) := by
  obtain ⟨hnd, hst, hm, hs, he⟩ := h
  obtain ⟨hxlt, hxstart, hxnone⟩ := hst x (List.mem_cons_self x st)
  have hne : x ≠ i := by omega
  have hlook : ∀ k, List.lookup k ((x, i) :: (i, x) :: m) =
      if k = x then some i else if k = i then some x else m.lookup k := by
    intro k
    rw [lookup_cons_nat, lookup_cons_nat]
  refine ⟨List.Nodup.of_cons hnd, ?_, ?_, ?_, ?_⟩
  · intro y hy
    obtain ⟨h1, h2, h3⟩ := hst y (List.mem_cons_of_mem x hy)
    have hyx : y ≠ x := by
      intro hcon; exact (List.nodup_cons.mp hnd).1 (hcon ▸ hy)
    have hyi : y ≠ i := by omega
    refine ⟨by omega, h2, ?_⟩
    rw [hlook y, if_neg hyx, if_neg hyi]; exact h3
  · intro k j hkj
    rw [hlook k] at hkj
    by_cases hkx : k = x
    · rw [if_pos hkx] at hkj
      have hj : j = i := (Option.some.inj hkj).symm
      refine ⟨by omega, by omega, ?_, ?_⟩
      · rw [hj, hlook i, if_neg (Ne.symm hne), if_pos rfl, hkx]
      · exact Or.inl (by rw [hkx, hj]; exact ⟨hxstart, hL, by omega⟩)
    · rw [if_neg hkx] at hkj
      by_cases hki : k = i
      · rw [if_pos hki] at hkj
        have hj : j = x := (Option.some.inj hkj).symm
        refine ⟨by omega, by omega, ?_, ?_⟩
        · rw [hj, hlook x, if_pos rfl, hki]
        · exact Or.inr (by rw [hki, hj]; exact ⟨hL, hxstart, by omega⟩)
      · rw [if_neg hki] at hkj
        obtain ⟨h1, h2, h3, h4⟩ := hm k j hkj
        have hjx : j ≠ x := by
          intro hcon; rw [hcon, hxnone] at h3; cases h3
        have hji : j ≠ i := by omega
        refine ⟨by omega, by omega, ?_, h4⟩
        rw [hlook j, if_neg hjx, if_neg hji]; exact h3
  · intro z hz hzs
    by_cases hzx : z = x
    · refine Or.inr ⟨i, ?_⟩
      rw [hlook z, if_pos hzx]
    · by_cases hzi : z = i
      · rw [hzi, hL] at hzs
        simp [startA, endA] at hzs
      · rcases hs z (by omega) hzs with hmem | ⟨j, hj⟩
        · rcases List.mem_cons.mp hmem with rfl | hmem'
          · exact absurd rfl hzx
          · exact Or.inl hmem'
        · refine Or.inr ⟨j, ?_⟩
          rw [hlook z, if_neg hzx, if_neg hzi]; exact hj
  · intro y hy hys
    by_cases hyi : y = i
    · subst hyi
      refine ⟨x, ?_⟩
      rw [hlook y, if_neg (Ne.symm hne), if_pos rfl]
    · have hyx : y ≠ x := by
        intro hcon; rw [hcon, hxstart] at hys
        simp [startA, endA] at hys
      obtain ⟨z, hz⟩ := he y (by omega) hys
      refine ⟨z, ?_⟩
      rw [hlook y, if_neg hyx, if_neg hyi]; exact hz

theorem linkScan_inv {L : List InterpreterAction} :
    ∀ (rest : List InterpreterAction) (i : Nat) (st : List Nat)
      (m : List (Nat × Nat)) (st' : List Nat) (m' : List (Nat × Nat)),
      (∀ t, rest[t]? = L[i + t]?) →
      linkScan rest i st m = .ok (st', m') →
      ScanInv L i st m →
      ScanInv L (i + rest.length) st' m' := by
  intro rest
  induction rest with
  | nil =>
    intro i st m st' m' _ hscan hinv
    simp only [linkScan] at hscan
    obtain ⟨rfl, rfl⟩ : st = st' ∧ m = m' := by
      have := Except.ok.inj hscan
      exact ⟨congrArg Prod.fst this, congrArg Prod.snd this⟩
    simpa using hinv
  | cons a rest ih =>
    intro i st m st' m' hidx hscan hinv
    have hL : L[i]? = some a := by
      have := hidx 0
      simpa using this.symm
    have hidx' : ∀ t, rest[t]? = L[i + 1 + t]? := by
      intro t
      have := hidx (t + 1)
      simpa [Nat.add_assoc, Nat.add_comm 1 t] using this
    have hlen : i + (a :: rest).length = (i + 1) + rest.length := by
      simp; omega
    rw [hlen]
    by_cases ha : a = startA
    · subst ha
      rw [linkScan_start] at hscan
      exact ih (i + 1) _ _ _ _ hidx' hscan (scanInv_step_start hinv hL)
    · by_cases ha' : a = endA
      · subst ha'
        rcases st with _ | ⟨x, st0⟩
        · rw [linkScan_end_nil] at hscan; cases hscan
        · rw [linkScan_end_cons] at hscan
          exact ih (i + 1) _ _ _ _ hidx' hscan (scanInv_step_end hinv hL)
      · rw [linkScan_other ha ha'] at hscan
        exact ih (i + 1) _ _ _ _ hidx' hscan (scanInv_step_other hinv hL ha ha')

/-- C6: in every linked program, the pair map sends the index of every
Start to the index of a matching End strictly to its right and back
again, and symmetrically for every End. -/
theorem build_pairs_matched (L : List InterpreterAction) (prog : Program)
    (hbuild : Program.build L = .ok prog) :
    (∀ i, prog.instructions[i]? = some (.Instruction .Start) →
      ∃ j, prog.pairs.lookup i = some j ∧ i < j ∧
        prog.instructions[j]? = some (.Instruction .End) ∧
        prog.pairs.lookup j = some i) ∧
    (∀ j, prog.instructions[j]? = some (.Instruction .End) →
      ∃ i, prog.pairs.lookup j = some i ∧ i < j ∧
        prog.instructions[i]? = some (.Instruction .Start) ∧
        prog.pairs.lookup i = some j) := by
  rw [Program.build] at hbuild
  rcases hscan : linkScan L 0 [] [] with e | ⟨st, m⟩
  · rw [hscan] at hbuild; cases hbuild
  rw [hscan] at hbuild
  rcases hst : st with _ | _
  · rw [hst] at hbuild
    simp only [List.isEmpty_nil, if_true] at hbuild
    obtain rfl := Except.ok.inj hbuild
    subst hst
    have hinv0 : ScanInv L 0 [] [] := by
      refine ⟨List.nodup_nil, ?_, ?_, ?_, ?_⟩
      · intro x hx; cases hx
      · intro k j hkj; simp [List.lookup] at hkj
      · intro x hx; omega
      · intro y hy; omega
    have hinv := linkScan_inv L 0 [] [] [] m (by intro t; simp) hscan hinv0
    obtain ⟨_, _, hm, hs, he⟩ := hinv
    constructor
    · intro i hi
      have hilt : i < L.length := by
        rcases List.getElem?_eq_some_iff.mp hi with ⟨hlt, _⟩
        exact hlt
      rcases hs i (by omega) hi with hmem | ⟨j, hj⟩
      · cases hmem
      · obtain ⟨_, _, hmut, hcase⟩ := hm i j hj
        rcases hcase with ⟨_, hjend, hij⟩ | ⟨hiend, _, _⟩
        · exact ⟨j, hj, hij, hjend, hmut⟩
        · rw [hi] at hiend
          simp [startA, endA] at hiend
    · intro j hj
      have hjlt : j < L.length := by
        rcases List.getElem?_eq_some_iff.mp hj with ⟨hlt, _⟩
        exact hlt
      obtain ⟨x, hx⟩ := he j (by omega) hj
      obtain ⟨_, _, hmut, hcase⟩ := hm j x hx
      rcases hcase with ⟨hjstart, _, _⟩ | ⟨_, hxstart, hxj⟩
      · rw [hj] at hjstart
        simp [startA, endA] at hjstart
      · exact ⟨x, hx, hxj, hxstart, hmut⟩
  · rw [hst] at hbuild
    simp only [List.isEmpty_cons, if_false] at hbuild
    cases hbuild

/-- The eight-character program alphabet of spec section 6. -/
def alphabet : List Char := ['<', '>', '+', '-', ',', '.', '[', ']']

/-- Balancedness of the brackets of a string, the spec-side notion of
P1: no prefix closes more brackets than it opens, and the whole string
closes exactly as many as it opens. -/
def BalancedText (s : String) : Prop :=
  (∀ n, (s.data.take n).count (']') ≤ (s.data.take n).count ('[')) ∧
  s.data.count (']') = s.data.count ('[')

/-- The instruction of an alphabet character. -/
def instOf (c : Char) : Instruction := (Instruction.from_byte c.toNat).getD .Left

theorem from_byte_of_alpha {c : Char} (h : c ∈ alphabet) :
    Instruction.from_byte c.toNat = some (instOf c) := by
  fin_cases h <;> rfl

theorem as_char_instOf {c : Char} (h : c ∈ alphabet) :
    (instOf c).as_char = c := by
  fin_cases h <;> rfl

theorem from_byte_of_not_alpha {c : Char} (h : c ∉ alphabet) :
    Instruction.from_byte c.toNat = none := by
  rw [Instruction.from_byte]
  have hval : ∀ d : Char, c.toNat = d.toNat → c = d := by
    intro d hd
    exact Char.ext (UInt32.ext hd)
  split
  · rename_i hc; exact absurd (hval _ hc ▸ (by decide : '<' ∈ alphabet)) h
  split
  · rename_i hc; exact absurd (hval _ hc ▸ (by decide : '>' ∈ alphabet)) h
  split
  · rename_i hc; exact absurd (hval _ hc ▸ (by decide : '+' ∈ alphabet)) h
  split
  · rename_i hc; exact absurd (hval _ hc ▸ (by decide : '-' ∈ alphabet)) h
  split
  · rename_i hc; exact absurd (hval _ hc ▸ (by decide : ',' ∈ alphabet)) h
  split
  · rename_i hc; exact absurd (hval _ hc ▸ (by decide : '.' ∈ alphabet)) h
  split
  · rename_i hc; exact absurd (hval _ hc ▸ (by decide : '[' ∈ alphabet)) h
  split
  · rename_i hc; exact absurd (hval _ hc ▸ (by decide : ']' ∈ alphabet)) h
  rfl

theorem mapM_parseChar_of_alpha (l : List Char) (h : ∀ c ∈ l, c ∈ alphabet) :
    l.mapM parseChar = .ok (l.map (fun c => Item.Direct (instOf c))) := by
  induction l with
  | nil => rfl
  | cons c rest ih =>
    rw [List.mapM_cons]
    have hc := from_byte_of_alpha (h c (List.mem_cons_self c rest))
    have hrest := ih (fun d hd => h d (List.mem_cons_of_mem c hd))
    rw [show parseChar c = .ok (.Direct (instOf c)) by rw [parseChar, hc]]
    rw [hrest]
    rfl

theorem parse_of_alpha (s : String) (h : ∀ c ∈ s.data, c ∈ alphabet) :
    Item.parse s = .ok (.Sequence (s.data.map (fun c => Item.Direct (instOf c)))) := by
  rw [Item.parse, mapM_parseChar_of_alpha s.data h]
  rfl

theorem mapM_parseChar_err (l : List Char) (h : ∃ c ∈ l, c ∉ alphabet) :
    ∃ e, l.mapM parseChar = .error e := by
  induction l with
  | nil => obtain ⟨c, hc, _⟩ := h; cases hc
  | cons c rest ih =>
    rw [List.mapM_cons]
    by_cases hca : c ∈ alphabet
    · have hc := from_byte_of_alpha hca
      rw [show parseChar c = .ok (.Direct (instOf c)) by rw [parseChar, hc]]
      obtain ⟨d, hd, hda⟩ := h
      rcases List.mem_cons.mp hd with rfl | hd'
      · exact absurd hca hda
      · obtain ⟨e, he⟩ := ih ⟨d, hd', hda⟩
        rw [he]; exact ⟨e, rfl⟩
    · refine ⟨"unknown byte " ++ toString c.toNat, ?_⟩
      rw [show parseChar c = .error ("unknown byte " ++ toString c.toNat) by
        rw [parseChar, from_byte_of_not_alpha hca]]
      rfl

theorem parse_err_of_bad (s : String) (h : ∃ c ∈ s.data, c ∉ alphabet) :
    ∃ e, Item.parse s = .error e := by
  obtain ⟨e, he⟩ := mapM_parseChar_err s.data h
  exact ⟨e, by rw [Item.parse, he]; rfl⟩

theorem buildList_map_direct (l : List Char) :
    Item.buildList (l.map (fun c => Item.Direct (instOf c))) =
      l.map (fun c => InterpreterAction.Instruction (instOf c)) := by
  induction l with
  | nil => rfl
  | cons c rest ih => simp [Item.buildList, Item.build, ih]

theorem linkScan_counts :
    ∀ (rest : List InterpreterAction) (i : Nat) (st : List Nat)
      (m : List (Nat × Nat)) (st' : List Nat) (m' : List (Nat × Nat)),
      linkScan rest i st m = .ok (st', m') →
      st'.length + rest.countP (fun a => a == endA) =
        st.length + rest.countP (fun a => a == startA) ∧
      ∀ n, (rest.take n).countP (fun a => a == endA) ≤
        st.length + (rest.take n).countP (fun a => a == startA) := by
  intro rest
  induction rest with
  | nil =>
    intro i st m st' m' h
    simp only [linkScan] at h
    obtain rfl : st = st' := congrArg Prod.fst (Except.ok.inj h)
    refine ⟨by simp, ?_⟩
    intro n; simp
  | cons a rest ih =>
    intro i st m st' m' h
    by_cases ha : a = startA
    · subst ha
      rw [linkScan_start] at h
      obtain ⟨h1, h2⟩ := ih (i + 1) (i :: st) m st' m' h
      constructor
      · simp only [List.countP_cons] at h1 ⊢
        simp only [List.length_cons] at h1
        have e1 : (startA == endA) = false := by decide
        have e2 : (startA == startA) = true := by decide
        rw [e1, e2]; simp; omega
      · intro n
        rcases n with _ | n
        · simp
        · rw [List.take_succ_cons]
          have := h2 n
          simp only [List.countP_cons, List.length_cons] at this ⊢
          have e1 : (startA == endA) = false := by decide
          have e2 : (startA == startA) = true := by decide
          rw [e1, e2]; simp; omega
    · by_cases ha' : a = endA
      · subst ha'
        rcases st with _ | ⟨x, st0⟩
        · rw [linkScan_end_nil] at h; cases h
        · rw [linkScan_end_cons] at h
          obtain ⟨h1, h2⟩ := ih (i + 1) st0 _ st' m' h
          constructor
          · simp only [List.countP_cons, List.length_cons] at h1 ⊢
            have e1 : (endA == endA) = true := by decide
            have e2 : (endA == startA) = false := by decide
            rw [e1, e2]; simp; omega
          · intro n
            rcases n with _ | n
            · simp
            · rw [List.take_succ_cons]
              have := h2 n
              simp only [List.countP_cons, List.length_cons] at this ⊢
              have e1 : (endA == endA) = true := by decide
              have e2 : (endA == startA) = false := by decide
              rw [e1, e2]; simp; omega
      · rw [linkScan_other ha ha'] at h
        obtain ⟨h1, h2⟩ := ih (i + 1) st m st' m' h
        have e1 : (a == endA) = false := by simpa using ha'
        have e2 : (a == startA) = false := by simpa using ha
        constructor
        · simp only [List.countP_cons]
          rw [e1, e2]; simp; omega
        · intro n
          rcases n with _ | n
          · simp
          · rw [List.take_succ_cons]
            have := h2 n
            simp only [List.countP_cons] at this ⊢
            rw [e1, e2]; simp; omega

theorem linkScan_ok_of_counts :
    ∀ (rest : List InterpreterAction) (i : Nat) (st : List Nat)
      (m : List (Nat × Nat)),
      (∀ n, (rest.take n).countP (fun a => a == endA) ≤
        st.length + (rest.take n).countP (fun a => a == startA)) →
      ∃ st' m', linkScan rest i st m = .ok (st', m') := by
  intro rest
  induction rest with
  | nil => intro i st m _; exact ⟨st, m, rfl⟩
  | cons a rest ih =>
    intro i st m h
    by_cases ha : a = startA
    · subst ha
      rw [linkScan_start]
      refine ih (i + 1) (i :: st) m ?_
      intro n
      have := h (n + 1)
      rw [List.take_succ_cons] at this
      simp only [List.countP_cons, List.length_cons] at this ⊢
      have e1 : (startA == endA) = false := by decide
      have e2 : (startA == startA) = true := by decide
      rw [e1, e2] at this; simp at this; omega
    · by_cases ha' : a = endA
      · subst ha'
        rcases st with _ | ⟨x, st0⟩
        · exfalso
          have := h 1
          simp only [List.take_succ_cons, List.take_zero] at this
          have e1 : (endA == endA) = true := by decide
          have e2 : (endA == startA) = false := by decide
          simp [List.countP_cons, e1, e2] at this
        · rw [linkScan_end_cons]
          refine ih (i + 1) st0 _ ?_
          intro n
          have := h (n + 1)
          rw [List.take_succ_cons] at this
          simp only [List.countP_cons, List.length_cons] at this ⊢
          have e1 : (endA == endA) = true := by decide
          have e2 : (endA == startA) = false := by decide
          rw [e1, e2] at this; simp at this; omega
      · rw [linkScan_other ha ha']
        refine ih (i + 1) st m ?_
        intro n
        have := h (n + 1)
        rw [List.take_succ_cons] at this
        have e1 : (a == endA) = false := by simpa using ha'
        have e2 : (a == startA) = false := by simpa using ha
        simp only [List.countP_cons] at this
        rw [e1, e2] at this; simp at this; omega

theorem build_ok_iff_counts (L : List InterpreterAction) :
    (∃ p, Program.build L = .ok p) ↔
      ((∀ n, (L.take n).countP (fun a => a == endA) ≤
          (L.take n).countP (fun a => a == startA)) ∧
        L.countP (fun a => a == endA) = L.countP (fun a => a == startA)) := by
  constructor
  · rintro ⟨p, hp⟩
    rw [Program.build] at hp
    rcases hscan : linkScan L 0 [] [] with e | ⟨st, m⟩ <;> rw [hscan] at hp
    · cases hp
    · obtain ⟨h1, h2⟩ := linkScan_counts L 0 [] [] st m hscan
      rcases hst : st with _ | _
      · subst hst
        simp only [List.length_nil] at h1 h2
        exact ⟨fun n => by simpa using h2 n, by omega⟩
      · rw [hst] at hp; simp at hp
  · rintro ⟨h1, h2⟩
    obtain ⟨st', m', hscan⟩ := linkScan_ok_of_counts L 0 [] []
      (fun n => by simpa using h1 n)
    obtain ⟨hc, _⟩ := linkScan_counts L 0 [] [] st' m' hscan
    have hlen : st'.length = 0 := by simp at hc; omega
    refine ⟨⟨L, m'⟩, ?_⟩
    rw [Program.build, hscan]
    rw [List.length_eq_zero] at hlen
    subst hlen
    rfl

theorem build_ok_instructions {L : List InterpreterAction} {p : Program}
    (h : Program.build L = .ok p) : p.instructions = L := by
  rw [Program.build] at h
  rcases hscan : linkScan L 0 [] [] with e | ⟨st, m⟩ <;> rw [hscan] at h
  · cases h
  · rcases st with _ | _
    · simp only [List.isEmpty_nil, if_true] at h
      exact congrArg Program.instructions (Except.ok.inj h).symm
    · simp at h

theorem instOf_eq_end {c : Char} (h : c ∈ alphabet) :
    ((InterpreterAction.Instruction (instOf c)) == endA) = (c == ']') := by
  fin_cases h <;> rfl

theorem instOf_eq_start {c : Char} (h : c ∈ alphabet) :
    ((InterpreterAction.Instruction (instOf c)) == startA) = (c == '[') := by
  fin_cases h <;> rfl

theorem map_as_char_instOf (l : List Char) (h : ∀ c ∈ l, c ∈ alphabet) :
    l.map (fun c => (instOf c).as_char) = l := by
  induction l with
  | nil => rfl
  | cons c rest ih =>
    rw [List.map_cons, as_char_instOf (h c (List.mem_cons_self c rest)),
      ih (fun d hd => h d (List.mem_cons_of_mem c hd))]

/-- C4: the parse round trip.  For a string over the eight-character
alphabet, parse succeeds, linking the lowered actions succeeds exactly
when the brackets are balanced, and a successfully linked program
prints back as the original string through as_text_clean; a string
with any character outside the alphabet is a parse error. -/
theorem parse_build_roundtrip (s : String) :
    ((∀ c ∈ s.data, c ∈ alphabet) →
      ∃ t, Item.parse s = .ok t ∧
        ((∃ p, Program.build t.build = .ok p) ↔ BalancedText s) ∧
        (∀ p, Program.build t.build = .ok p → p.as_text_clean = s)) ∧
    ((∃ c ∈ s.data, c ∉ alphabet) → ∃ e, Item.parse s = .error e) := by
  constructor
  · intro halpha
    refine ⟨.Sequence (s.data.map (fun c => Item.Direct (instOf c))),
      parse_of_alpha s halpha, ?_, ?_⟩
    all_goals
      have hbuild : Item.build (.Sequence (s.data.map (fun c => Item.Direct (instOf c)))) =
          s.data.map (fun c => InterpreterAction.Instruction (instOf c)) := by
        rw [Item.build]
        exact buildList_map_direct s.data
    · rw [hbuild, build_ok_iff_counts]
      have hend : ∀ n, ((s.data.map (fun c => InterpreterAction.Instruction (instOf c))).take n).countP
          (fun a => a == endA) = (s.data.take n).count (']') := by
        intro n
        rw [← List.map_take, List.countP_map, List.count_eq_countP]
        refine List.countP_congr ?_
        intro c hc
        simp only [Function.comp_apply]
        rw [instOf_eq_end (halpha c (List.mem_of_mem_take hc))]
      have hstart : ∀ n, ((s.data.map (fun c => InterpreterAction.Instruction (instOf c))).take n).countP
          (fun a => a == startA) = (s.data.take n).count ('[') := by
        intro n
        rw [← List.map_take, List.countP_map, List.count_eq_countP]
        refine List.countP_congr ?_
        intro c hc
        simp only [Function.comp_apply]
        rw [instOf_eq_start (halpha c (List.mem_of_mem_take hc))]
      have hendT : (s.data.map (fun c => InterpreterAction.Instruction (instOf c))).countP
          (fun a => a == endA) = s.data.count (']') := by
        rw [List.countP_map, List.count_eq_countP]
        refine List.countP_congr ?_
        intro c hc
        simp only [Function.comp_apply]
        rw [instOf_eq_end (halpha c hc)]
      have hstartT : (s.data.map (fun c => InterpreterAction.Instruction (instOf c))).countP
          (fun a => a == startA) = s.data.count ('[') := by
        rw [List.countP_map, List.count_eq_countP]
        refine List.countP_congr ?_
        intro c hc
        simp only [Function.comp_apply]
        rw [instOf_eq_start (halpha c hc)]
      unfold BalancedText
      constructor
      · rintro ⟨h1, h2⟩
        exact ⟨fun n => by rw [← hend n, ← hstart n]; exact h1 n,
          by rw [← hendT, ← hstartT]; exact h2⟩
      · rintro ⟨h1, h2⟩
        exact ⟨fun n => by rw [hend n, hstart n]; exact h1 n,
          by rw [hendT, hstartT]; exact h2⟩
    · intro p hp
      have hins := build_ok_instructions hp
      rw [Program.as_text_clean, hins, hbuild]
      rw [List.filterMap_map]
      have hfm : (List.filterMap
          ((fun a => InterpreterAction.as_instruction a) ∘
            (fun c => InterpreterAction.Instruction (instOf c))) s.data) =
          s.data.map instOf := by
        rw [show ((fun a => InterpreterAction.as_instruction a) ∘
            (fun c => InterpreterAction.Instruction (instOf c))) =
            (some ∘ instOf) from rfl]
        rw [List.filterMap_eq_map]
      rw [hfm, List.map_map]
      rw [show ((fun i => Instruction.as_char i) ∘ instOf) =
        (fun c => (instOf c).as_char) from rfl]
      rw [map_as_char_instOf s.data halpha]
  · exact parse_err_of_bad s

/-- Witness of the round trip at the concrete strings "[.]" and "x". -/
theorem parse_build_roundtrip_witness :
    (∃ t, Item.parse ("[.]") = .ok t ∧
      ((∃ p, Program.build t.build = .ok p) ↔ BalancedText ("[.]")) ∧
      (∀ p, Program.build t.build = .ok p → p.as_text_clean = ("[.]"))) ∧
    (∃ e, Item.parse ("x") = .error e) := by
  constructor
  · exact (parse_build_roundtrip ("[.]")).1 (by decide)
  · exact (parse_build_roundtrip ("x")).2 ⟨'x', by decide, by decide⟩

/-- Witness of the pair-map property on the linked program of "[]". -/
theorem build_pairs_matched_witness :
    ∃ j, (Program.mk [startA, endA] [(0, 1), (1, 0)]).pairs.lookup 0 = some j ∧
      0 < j ∧
      (Program.mk [startA, endA] [(0, 1), (1, 0)]).instructions[j]? =
        some (.Instruction .End) ∧
      (Program.mk [startA, endA] [(0, 1), (1, 0)]).pairs.lookup j = some 0 :=
  (build_pairs_matched [startA, endA] ⟨[startA, endA], [(0, 1), (1, 0)]⟩
    (by rfl)).1 0 (by decide)

/-- Witness of bracket dispatch on "[]" from a fresh zero tape: the
Start jumps one past its matching End. -/
theorem step_bracket_dispatch_witness :
    step ⟨[startA, endA], [(0, 1), (1, 0)]⟩ ⟨0, initSt []⟩ =
      .next ⟨2, initSt []⟩ :=
  ((step_bracket_dispatch ⟨[startA, endA], [(0, 1), (1, 0)]⟩ ⟨0, initSt []⟩ 1
    (by decide)).1 (by decide)).1 (by decide)

/-- Witness of the Input action consuming the byte 65. -/
theorem step_input_witness :
    step ⟨[.Instruction .Input], []⟩ ⟨0, initSt [some 65]⟩ =
      .next ⟨1, { (initSt [some 65]).setCell (65 % 256) with input := [] }⟩ :=
  (step_input ⟨[.Instruction .Input], []⟩ ⟨0, initSt [some 65]⟩ (by decide)).1
    65 [] (by decide)

/-- Witness of the fatal left move at tape index zero. -/
theorem step_left_witness :
    step ⟨[.Instruction .Left], []⟩ ⟨0, initSt []⟩ = .fail .leftUnderflow :=
  (((step_left ⟨[.Instruction .Left], []⟩ ⟨0, initSt []⟩ (by decide)).1)
    (by decide)).1

/-- Witness of the in-bounds invariant at the initial configuration. -/
theorem run_tape_pointer_inbounds_witness :
    (Config.mk 0 (initSt [])).st.ptr < (Config.mk 0 (initSt [])).st.tape.length :=
  run_tape_pointer_inbounds ⟨[], []⟩ [] ⟨0, initSt []⟩ Relation.ReflTransGen.refl

/-- The action of an Item that lowers to exactly one action. -/
def Item.atomic? : Item → Option InterpreterAction
  | .Direct i => some (.Instruction i)
  | .Comment t l => some (.Comment t l)
  | .EndComment => some .EndComment
  | .AddMarker n => some (.PlaceMarker n)
  | .RemoveMarker n => some (.RemoveMarker n)
  | .AssertRelativePosition n o c => some (.AssertRelative n o c)
  | .AssertPosition p m => some (.AssertPosition p m)
  | _ => none

theorem build_of_atomic {t : Item} {a : InterpreterAction}
    (h : t.atomic? = some a) : t.build = [a] := by
  cases t <;> simp [Item.atomic?] at h <;> simp [Item.build, h]

/-- A reasoning frame: a single item, an item list run in order, or
the body of a loop (viewed from its brackets). -/
inductive Frame where
  | item (t : Item)
  | seq (l : List Item)
  | loop (b : List Item)

/-- Big-step structured execution over the IR, mirroring what the flat
interpreter does to the lowered form: atomic items act through
actionStep, a Sequence runs its parts in order, Repeat runs n copies,
and a Loop repeats its body while the current cell is nonzero.  Errors
propagate outward. -/
inductive Ex : Frame → St → Except Err St → Prop where
  | atomic {t : Item} {a : InterpreterAction} {s : St} :
      t.atomic? = some a → a ≠ startA → a ≠ endA →
      Ex (.item t) s (actionStep a s)
  | seqI {l : List Item} {s : St} {out : Except Err St} :
      Ex (.seq l) s out → Ex (.item (.Sequence l)) s out
  | repI {t : Item} {n : Nat} {s : St} {out : Except Err St} :
      Ex (.seq (List.replicate n t)) s out → Ex (.item (.Repeat t n)) s out
  | loopI {b : List Item} {ci : Bool} {s : St} {out : Except Err St} :
      Ex (.loop b) s out → Ex (.item (.Loop b ci)) s out
  | nilS {s : St} : Ex (.seq []) s (.ok s)
  | consOk {t : Item} {ts : List Item} {s s1 : St} {out : Except Err St} :
      Ex (.item t) s (.ok s1) → Ex (.seq ts) s1 out → Ex (.seq (t :: ts)) s out
  | consErr {t : Item} {ts : List Item} {s : St} {e : Err} :
      Ex (.item t) s (.error e) → Ex (.seq (t :: ts)) s (.error e)
  | loopZero {b : List Item} {s : St} : s.cell = 0 → Ex (.loop b) s (.ok s)
  | loopIter {b : List Item} {s s1 : St} {out : Except Err St} :
      s.cell ≠ 0 → Ex (.seq b) s (.ok s1) → Ex (.loop b) s1 out →
      Ex (.loop b) s out
  | loopErr {b : List Item} {s : St} {e : Err} :
      s.cell ≠ 0 → Ex (.seq b) s (.error e) → Ex (.loop b) s (.error e)

mutual

/-- An item is structured when no Direct node carries a bare bracket:
all loop structure comes from Loop nodes. -/
def Item.structuredB : Item → Bool
  | .Sequence l => Item.structuredListB l
  | .Direct .Start => false
  | .Direct .End => false
  | .Direct _ => true
  | .Loop b _ => Item.structuredListB b
  | .Repeat t _ => t.structuredB
  | .Comment _ _ => true
  | .EndComment => true
  | .AddMarker _ => true
  | .RemoveMarker _ => true
  | .AssertRelativePosition _ _ _ => true
  | .AssertPosition _ _ => true

def Item.structuredListB : List Item → Bool
  | [] => true
  | t :: ts => t.structuredB && Item.structuredListB ts

end

/-- Balanced action lists: the matched-bracket strings. -/
inductive BalB : List InterpreterAction → Prop where
  | nil : BalB []
  | other {a : InterpreterAction} {l : List InterpreterAction} :
      a ≠ startA → a ≠ endA → BalB l → BalB (a :: l)
  | wrap {inner rest : List InterpreterAction} :
      BalB inner → BalB rest → BalB (startA :: inner ++ endA :: rest)

theorem BalB.append {l1 l2 : List InterpreterAction} (h1 : BalB l1)
    (h2 : BalB l2) : BalB (l1 ++ l2) := by
  induction h1 with
  | nil => exact h2
  | other ha hb _ ih => exact BalB.other ha hb ih
  | @wrap inner rest hi hr ihi ihr =>
    have hw : BalB (startA :: inner ++ endA :: (rest ++ l2)) :=
      BalB.wrap hi ihr
    simpa using hw

mutual

theorem structured_balB : ∀ t : Item, t.structuredB = true → BalB t.build
  | .Sequence l, h => by
    rw [Item.build]
    exact structuredL_balB l (by rwa [Item.structuredB] at h)
  | .Direct i, h => by
    rw [Item.build]
    cases i <;> simp [Item.structuredB] at h <;>
      exact BalB.other (by simp [startA]) (by simp [endA]) BalB.nil
  | .Loop b ci, h => by
    rw [Item.build]
    have hb : BalB (Item.buildList b) :=
      structuredL_balB b (by rwa [Item.structuredB] at h)
    have hcore : BalB (startA :: Item.buildList b ++ endA :: []) :=
      BalB.wrap hb BalB.nil
    cases ci
    · simpa using hcore
    · simp only [if_true]
      have : BalB (startA :: Item.buildList b ++ endA ::
          [InterpreterAction.Indent false]) :=
        BalB.wrap hb (BalB.other (by simp [startA]) (by simp [endA]) BalB.nil)
      refine BalB.other (by simp [startA]) (by simp [endA]) ?_
      simpa using this
  | .Repeat t n, h => by
    rw [Item.build]
    have ht : BalB t.build := structured_balB t (by rwa [Item.structuredB] at h)
    clear h
    induction n with
    | zero => exact BalB.nil
    | succ n ih => simpa [List.replicate_succ] using BalB.append ht ih
  | .Comment txt l, _ => by
    rw [Item.build]
    exact BalB.other (by simp [startA]) (by simp [endA]) BalB.nil
  | .EndComment, _ => by
    rw [Item.build]
    exact BalB.other (by simp [startA]) (by simp [endA]) BalB.nil
  | .AddMarker n, _ => by
    rw [Item.build]
    exact BalB.other (by simp [startA]) (by simp [endA]) BalB.nil
  | .RemoveMarker n, _ => by
    rw [Item.build]
    exact BalB.other (by simp [startA]) (by simp [endA]) BalB.nil
  | .AssertRelativePosition n o c, _ => by
    rw [Item.build]
    exact BalB.other (by simp [startA]) (by simp [endA]) BalB.nil
  | .AssertPosition p m, _ => by
    rw [Item.build]
    exact BalB.other (by simp [startA]) (by simp [endA]) BalB.nil

theorem structuredL_balB : ∀ l : List Item, Item.structuredListB l = true →
    BalB (Item.buildList l)
  | [], _ => BalB.nil
  | t :: ts, h => by
    rw [Item.buildList]
    rw [Item.structuredListB, Bool.and_eq_true] at h
    exact BalB.append (structured_balB t h.1) (structuredL_balB ts h.2)

end

theorem linkScan_append :
    ∀ (xs ys : List InterpreterAction) (i : Nat) (st : List Nat)
      (m : List (Nat × Nat)),
      linkScan (xs ++ ys) i st m =
        match linkScan xs i st m with
        | .ok (st', m') => linkScan ys (i + xs.length) st' m'
        | .error e => .error e := by
  intro xs
  induction xs with
  | nil => intro ys i st m; simp [linkScan]
  | cons a xs ih =>
    intro ys i st m
    by_cases ha : a = startA
    · subst ha
      rw [List.cons_append, linkScan_start, linkScan_start, ih]
      have : i + (startA :: xs).length = (i + 1) + xs.length := by simp; omega
      rw [this]
    · by_cases ha' : a = endA
      · subst ha'
        rcases st with _ | ⟨x, st0⟩
        · rw [List.cons_append, linkScan_end_nil, linkScan_end_nil]
        · rw [List.cons_append, linkScan_end_cons, linkScan_end_cons, ih]
          have : i + (endA :: xs).length = (i + 1) + xs.length := by simp; omega
          rw [this]
      · rw [List.cons_append, linkScan_other ha ha', linkScan_other ha ha', ih]
        have : i + (a :: xs).length = (i + 1) + xs.length := by simp; omega
        rw [this]

theorem linkScan_of_balB {b : List InterpreterAction} (hb : BalB b) :
    ∀ (i : Nat) (st : List Nat) (m : List (Nat × Nat)),
      ∃ Δ, linkScan b i st m = .ok (st, Δ ++ m) ∧
        ∀ kv ∈ Δ, i ≤ kv.1 ∧ kv.1 < i + b.length := by
  induction hb with
  | nil => intro i st m; exact ⟨[], rfl, by simp⟩
  | @other a l ha ha' hl ih =>
    intro i st m
    obtain ⟨Δ, hscan, hΔ⟩ := ih (i + 1) st m
    refine ⟨Δ, ?_, ?_⟩
    · rw [linkScan_other ha ha', hscan]
    · intro kv hkv
      have := hΔ kv hkv
      simp only [List.length_cons]
      omega
  | @wrap inner rest hi hr ihi ihr =>
    intro i st m
    obtain ⟨Δ1, hscan1, hΔ1⟩ := ihi (i + 1) (i :: st) m
    have hj : (i + 1) + inner.length = i + 1 + inner.length := rfl
    obtain ⟨Δ2, hscan2, hΔ2⟩ := ihr (i + 1 + inner.length + 1) st
      ((i, i + 1 + inner.length) :: (i + 1 + inner.length, i) :: (Δ1 ++ m))
    refine ⟨Δ2 ++ (i, i + 1 + inner.length) :: (i + 1 + inner.length, i) :: Δ1, ?_, ?_⟩
    · rw [List.cons_append, linkScan_start, linkScan_append, hscan1]
      show linkScan (endA :: rest) (i + 1 + inner.length) (i :: st) (Δ1 ++ m) = _
      rw [linkScan_end_cons, hscan2]
      simp
    · intro kv hkv
      simp only [List.mem_append, List.mem_cons] at hkv
      have hlen : (startA :: inner ++ endA :: rest).length =
          inner.length + rest.length + 2 := by simp; omega
      rcases hkv with h2 | rfl | rfl | h1
      · have := hΔ2 kv h2; rw [hlen]; omega
      · rw [hlen]; omega
      · rw [hlen]; constructor <;> omega
      · have := hΔ1 kv h1; rw [hlen]; omega

theorem linkScan_delta :
    ∀ (xs : List InterpreterAction) (i : Nat) (st : List Nat)
      (m : List (Nat × Nat)) (st' : List Nat) (m' : List (Nat × Nat)),
      linkScan xs i st m = .ok (st', m') →
      (∃ Δ, m' = Δ ++ m ∧ ∀ kv ∈ Δ, kv.1 ∈ st ∨ (i ≤ kv.1 ∧ kv.1 < i + xs.length)) ∧
      (∀ x ∈ st', x ∈ st ∨ (i ≤ x ∧ x < i + xs.length)) := by
  intro xs
  induction xs with
  | nil =>
    intro i st m st' m' h
    simp only [linkScan] at h
    obtain ⟨rfl, rfl⟩ : st = st' ∧ m = m' := by
      have := Except.ok.inj h
      exact ⟨congrArg Prod.fst this, congrArg Prod.snd this⟩
    exact ⟨⟨[], by simp⟩, fun x hx => Or.inl hx⟩
  | cons a xs ih =>
    intro i st m st' m' h
    by_cases ha : a = startA
    · subst ha
      rw [linkScan_start] at h
      obtain ⟨⟨Δ, rfl, hΔ⟩, hst⟩ := ih (i + 1) (i :: st) m st' m' h
      constructor
      · refine ⟨Δ, rfl, ?_⟩
        intro kv hkv
        rcases hΔ kv hkv with hmem | hrange
        · rcases List.mem_cons.mp hmem with rfl | hmem'
          · right; simp only [List.length_cons]; omega
          · exact Or.inl hmem'
        · right; simp only [List.length_cons]; omega
      · intro x hx
        rcases hst x hx with hmem | hrange
        · rcases List.mem_cons.mp hmem with rfl | hmem'
          · right; simp only [List.length_cons]; omega
          · exact Or.inl hmem'
        · right; simp only [List.length_cons]; omega
    · by_cases ha' : a = endA
      · subst ha'
        rcases st with _ | ⟨x0, st0⟩
        · rw [linkScan_end_nil] at h; cases h
        · rw [linkScan_end_cons] at h
          obtain ⟨⟨Δ, hm', hΔ⟩, hst⟩ := ih (i + 1) st0 _ st' m' h
          constructor
          · refine ⟨Δ ++ [(x0, i), (i, x0)], by simp [hm'], ?_⟩
            intro kv hkv
            simp only [List.mem_append, List.mem_cons] at hkv
            rcases hkv with h2 | rfl | rfl | hfalse
            · rcases hΔ kv h2 with hmem | hrange
              · exact Or.inl (List.mem_cons_of_mem x0 hmem)
              · right; simp only [List.length_cons]; omega
            · exact Or.inl (List.mem_cons_self x0 st0)
            · right; simp only [List.length_cons]; omega
            · cases hfalse
          · intro x hx
            rcases hst x hx with hmem | hrange
            · exact Or.inl (List.mem_cons_of_mem x0 hmem)
            · right; simp only [List.length_cons]; omega
      · rw [linkScan_other ha ha'] at h
        obtain ⟨⟨Δ, rfl, hΔ⟩, hst⟩ := ih (i + 1) st m st' m' h
        constructor
        · refine ⟨Δ, rfl, ?_⟩
          intro kv hkv
          rcases hΔ kv hkv with hmem | hrange
          · exact Or.inl hmem
          · right; simp only [List.length_cons]; omega
        · intro x hx
          rcases hst x hx with hmem | hrange
          · exact Or.inl hmem
          · right; simp only [List.length_cons]; omega

theorem lookup_append_of_none {Δ m : List (Nat × Nat)} {k : Nat}
    (h : ∀ kv ∈ Δ, kv.1 ≠ k) :
    List.lookup k (Δ ++ m) = List.lookup k m := by
  induction Δ with
  | nil => rfl
  | cons kv Δ ih =>
    rw [List.cons_append]
    rcases kv with ⟨k0, v0⟩
    rw [lookup_cons_nat, if_neg]
    · exact ih (fun kv' hkv' => h kv' (List.mem_cons_of_mem _ hkv'))
    · intro hc
      exact h (k0, v0) (List.mem_cons_self _ _) (by simpa using hc.symm)

/-- Pair-map correctness used by the simulation: around every balanced
segment between an explicit Start and End in the program, the pair map
records exactly those two positions as partners. -/
def PairsOK (P : Program) : Prop :=
  ∀ (p1 b q1 : List InterpreterAction),
    P.instructions = p1 ++ startA :: (b ++ endA :: q1) → BalB b →
    P.pairs.lookup p1.length = some (p1.length + b.length + 1) ∧
    P.pairs.lookup (p1.length + b.length + 1) = some p1.length

theorem build_pairsOK {L : List InterpreterAction} {prog : Program}
    (hbuild : Program.build L = .ok prog) : PairsOK prog := by
  intro p1 b q1 hdecomp hb
  rw [Program.build] at hbuild
  rcases hscan : linkScan L 0 [] [] with e | ⟨stF, mF⟩ <;> rw [hscan] at hbuild
  · cases hbuild
  rcases hstF : stF with _ | _
  swap
  · rw [hstF] at hbuild; simp at hbuild
  rw [hstF] at hbuild
  simp only [List.isEmpty_nil, if_true] at hbuild
  obtain rfl := (Except.ok.inj hbuild).symm
  subst hstF
  replace hdecomp : L = p1 ++ startA :: (b ++ endA :: q1) := hdecomp
  subst hdecomp
  rw [linkScan_append] at hscan
  rcases hscan1 : linkScan p1 0 [] [] with e | ⟨st0, m0⟩ <;> rw [hscan1] at hscan
  · cases hscan
  have hst0 : ∀ x ∈ st0, x < p1.length := by
    intro x hx
    rcases (linkScan_delta p1 0 [] [] st0 m0 hscan1).2 x hx with hmem | hrange
    · cases hmem
    · omega
  rw [show (0 : Nat) + p1.length = p1.length from by omega] at hscan
  replace hscan : linkScan (startA :: (b ++ endA :: q1)) p1.length st0 m0 =
      .ok ([], mF) := hscan
  rw [linkScan_start] at hscan
  rw [linkScan_append] at hscan
  obtain ⟨Δ1, hscanb, _⟩ := linkScan_of_balB hb (p1.length + 1) (p1.length :: st0) m0
  rw [hscanb] at hscan
  replace hscan : linkScan (endA :: q1) (p1.length + 1 + b.length)
      (p1.length :: st0) (Δ1 ++ m0) = .ok ([], mF) := hscan
  rw [linkScan_end_cons] at hscan
  rw [show p1.length + 1 + b.length = p1.length + b.length + 1 from by omega] at hscan
  obtain ⟨⟨Δ2, hmF, hΔ2⟩, _⟩ := linkScan_delta q1 (p1.length + b.length + 1 + 1) st0 _ [] mF hscan
  have hkey : ∀ kv ∈ Δ2, kv.1 ≠ p1.length ∧ kv.1 ≠ p1.length + b.length + 1 := by
    intro kv hkv
    rcases hΔ2 kv hkv with hmem | hrange
    · have := hst0 kv.1 hmem; omega
    · omega
  constructor
  · show List.lookup p1.length mF = _
    rw [hmF]
    rw [lookup_append_of_none (fun kv hkv => (hkey kv hkv).1)]
    rw [lookup_cons_nat, if_pos rfl]
  · show List.lookup (p1.length + b.length + 1) mF = _
    rw [hmF]
    rw [lookup_append_of_none (fun kv hkv => (hkey kv hkv).2)]
    rw [lookup_cons_nat, if_neg (by omega), lookup_cons_nat, if_pos rfl]

theorem instr_at {l r : List InterpreterAction} {a : InterpreterAction} :
    (l ++ a :: r)[l.length]? = some a := by
  rw [List.getElem?_append_right le_rfl]
  simp

theorem step_nonbracket {P : Program} {c : Config} {a : InterpreterAction}
    (hins : P.instructions[c.ip]? = some a) (h1 : a ≠ startA) (h2 : a ≠ endA) :
    step P c = match actionStep a c.st with
      | .ok s' => .next ⟨c.ip + 1, s'⟩
      | .error e => .fail e := by
  rw [step, hins]
  rcases a with i | _ | _ | _ | _ | _ | _ | _ | _ <;> try rfl
  rcases i with _ | _ | _ | _ | _ | _ | _ | _ <;> try rfl
  · exact absurd rfl h1
  · exact absurd rfl h2

theorem step_startA_zero {P : Program} {c : Config} {j : Nat}
    (hins : P.instructions[c.ip]? = some startA) (hz : c.st.cell = 0)
    (hpair : P.pairs.lookup c.ip = some j) :
    step P c = .next ⟨j + 1, c.st⟩ := by
  rw [step, hins]
  show (if c.st.cell = 0 then _ else _) = _
  rw [if_pos hz, hpair]

theorem step_startA_nonzero {P : Program} {c : Config}
    (hins : P.instructions[c.ip]? = some startA) (hz : c.st.cell ≠ 0) :
    step P c = .next ⟨c.ip + 1, c.st⟩ := by
  rw [step, hins]
  show (if c.st.cell = 0 then _ else _) = _
  rw [if_neg hz]

theorem step_endA_zero {P : Program} {c : Config}
    (hins : P.instructions[c.ip]? = some endA) (hz : c.st.cell = 0) :
    step P c = .next ⟨c.ip + 1, c.st⟩ := by
  rw [step, hins]
  show (if c.st.cell ≠ 0 then _ else _) = _
  rw [if_neg (by omega)]

theorem step_endA_nonzero {P : Program} {c : Config} {j : Nat}
    (hins : P.instructions[c.ip]? = some endA) (hz : c.st.cell ≠ 0)
    (hpair : P.pairs.lookup c.ip = some j) :
    step P c = .next ⟨j + 1, c.st⟩ := by
  rw [step, hins]
  show (if c.st.cell ≠ 0 then _ else _) = _
  rw [if_pos hz, hpair]

theorem stepsTo_single {P : Program} {c c' : Config}
    (h : step P c = .next c') : StepsTo P c c' :=
  Relation.ReflTransGen.single h

theorem stepsTo_trans {P : Program} {a b c : Config} (h1 : StepsTo P a b)
    (h2 : StepsTo P b c) : StepsTo P a c :=
  Relation.ReflTransGen.trans h1 h2

theorem failsWith_comp {P : Program} {a b : Config} {e : Err}
    (h1 : StepsTo P a b) (h2 : FailsWith P b e) : FailsWith P a e := by
  obtain ⟨c, hc, hfail⟩ := h2
  exact ⟨c, stepsTo_trans h1 hc, hfail⟩

theorem stepsTo_congr {P : Program} {i i' j j' : Nat} {s s' : St}
    (hi : i = i') (hj : j = j') (h : StepsTo P ⟨i, s⟩ ⟨j, s'⟩) :
    StepsTo P ⟨i', s⟩ ⟨j', s'⟩ := by
  subst hi; subst hj; exact h

theorem failsWith_congr {P : Program} {i i' : Nat} {s : St} {e : Err}
    (hi : i = i') (h : FailsWith P ⟨i, s⟩ e) : FailsWith P ⟨i', s⟩ e := by
  subst hi; exact h

theorem buildList_replicate (t : Item) (n : Nat) :
    Item.buildList (List.replicate n t) = Item.build (.Repeat t n) := by
  rw [Item.build]
  induction n with
  | zero => rfl
  | succ n ih => rw [List.replicate_succ, Item.buildList, ih, List.replicate_succ,
      List.flatten_cons]

theorem structuredListB_replicate {t : Item} (h : t.structuredB = true)
    (n : Nat) : Item.structuredListB (List.replicate n t) = true := by
  induction n with
  | zero => rfl
  | succ n ih => rw [List.replicate_succ, Item.structuredListB, h, ih]; rfl

/-- Simulation motive: structured items execute on the flat machine
from the start of their lowered code to just past it, with the same
state transformation as the structured semantics; for a loop frame the
motive also covers resumption at the closing bracket, matching the
back edge of the flat loop. -/
def SimMotive : Frame → St → Except Err St → Prop
  | .item t, s, out => t.structuredB = true →
      ∀ (P : Program) (p q : List InterpreterAction),
        P.instructions = p ++ t.build ++ q → PairsOK P →
        (∀ s', out = .ok s' →
          StepsTo P ⟨p.length, s⟩ ⟨p.length + t.build.length, s'⟩) ∧
        (∀ e, out = .error e → FailsWith P ⟨p.length, s⟩ e)
  | .seq l, s, out => Item.structuredListB l = true →
      ∀ (P : Program) (p q : List InterpreterAction),
        P.instructions = p ++ Item.buildList l ++ q → PairsOK P →
        (∀ s', out = .ok s' →
          StepsTo P ⟨p.length, s⟩ ⟨p.length + (Item.buildList l).length, s'⟩) ∧
        (∀ e, out = .error e → FailsWith P ⟨p.length, s⟩ e)
  | .loop b, s, out => Item.structuredListB b = true →
      ∀ (P : Program) (p q : List InterpreterAction),
        P.instructions = p ++ startA :: (Item.buildList b ++ endA :: q) →
        PairsOK P →
        (∀ s', out = .ok s' →
          StepsTo P ⟨p.length, s⟩
            ⟨p.length + (Item.buildList b).length + 2, s'⟩ ∧
          StepsTo P ⟨p.length + (Item.buildList b).length + 1, s⟩
            ⟨p.length + (Item.buildList b).length + 2, s'⟩) ∧
        (∀ e, out = .error e →
          FailsWith P ⟨p.length, s⟩ e ∧
          FailsWith P ⟨p.length + (Item.buildList b).length + 1, s⟩ e)

theorem sim {fr : Frame} {s : St} {out : Except Err St} (h : Ex fr s out) :
    SimMotive fr s out := by
  induction h with
  | @atomic t a s hat h1 h2 =>
    intro hstr P p q hP hpok
    have hbt : t.build = [a] := build_of_atomic hat
    rw [hbt] at hP
    have hP' : P.instructions = p ++ a :: q := by simpa using hP
    have hins : P.instructions[p.length]? = some a := by
      rw [hP']; exact instr_at
    have hstep := step_nonbracket (c := ⟨p.length, s⟩) hins h1 h2
    constructor
    · intro s' hout
      rw [hout] at hstep
      rw [hbt]
      exact stepsTo_single hstep
    · intro e hout
      rw [hout] at hstep
      exact ⟨⟨p.length, s⟩, Relation.ReflTransGen.refl, hstep⟩
  | @seqI l s out hl ihl =>
    intro hstr P p q hP hpok
    have hb : Item.build (.Sequence l) = Item.buildList l := by rw [Item.build]
    rw [hb] at hP ⊢
    exact ihl (by rwa [Item.structuredB] at hstr) P p q hP hpok
  | @repI t n s out hl ihl =>
    intro hstr P p q hP hpok
    have hb : Item.buildList (List.replicate n t) = Item.build (.Repeat t n) :=
      buildList_replicate t n
    rw [← hb] at hP ⊢
    exact ihl (structuredListB_replicate (by rwa [Item.structuredB] at hstr) n)
      P p q hP hpok
  | @loopI b ci s out hl ihl =>
    intro hstr P p q hP hpok
    have hstr' : Item.structuredListB b = true := by rwa [Item.structuredB] at hstr
    cases ci
    · have hb : Item.build (.Loop b false) =
          startA :: (Item.buildList b ++ [endA]) := by
        rw [Item.build]; simp [startA, endA]
      rw [hb] at hP
      have hP' : P.instructions =
          p ++ startA :: (Item.buildList b ++ endA :: q) := by
        rw [hP]; simp
      have := ihl hstr' P p q hP' hpok
      constructor
      · intro s' hout
        have hrun := (this.1 s' hout).1
        refine stepsTo_congr rfl ?_ hrun
        rw [hb]; simp; omega
      · intro e hout
        exact (this.2 e hout).1
    · have hb : Item.build (.Loop b true) =
          InterpreterAction.Indent true ::
            (startA :: (Item.buildList b ++ endA ::
              [InterpreterAction.Indent false])) := by
        rw [Item.build]; simp [startA, endA]
      rw [hb] at hP
      have hP' : P.instructions = (p ++ [InterpreterAction.Indent true]) ++
          startA :: (Item.buildList b ++ endA ::
            (InterpreterAction.Indent false :: q)) := by
        rw [hP]; simp
      have hmain := ihl hstr' P (p ++ [InterpreterAction.Indent true])
        (InterpreterAction.Indent false :: q) hP' hpok
      have hlen1 : (p ++ [InterpreterAction.Indent true]).length = p.length + 1 := by
        simp
      have hPflat : P.instructions = p ++ InterpreterAction.Indent true ::
          (startA :: (Item.buildList b ++ endA ::
            (InterpreterAction.Indent false :: q))) := by
        rw [hP]; simp
      have hins1 : P.instructions[p.length]? =
          some (InterpreterAction.Indent true) := by
        rw [hPflat]; exact instr_at
      have hstep1 : step P ⟨p.length, s⟩ = .next ⟨p.length + 1, s⟩ := by
        rw [step_nonbracket hins1 (by simp [startA]) (by simp [endA])]
        rfl
      constructor
      · intro s' hout
        obtain ⟨hrun, _⟩ := hmain.1 s' hout
        have hins2 : P.instructions[p.length + 1 + (Item.buildList b).length + 2]? =
            some (InterpreterAction.Indent false) := by
          have hP2 : P.instructions =
              (p ++ InterpreterAction.Indent true :: startA ::
                (Item.buildList b ++ [endA])) ++
              InterpreterAction.Indent false :: q := by
            rw [hP]; simp
          rw [hP2]
          have hl2 : (p ++ InterpreterAction.Indent true :: startA ::
              (Item.buildList b ++ [endA])).length =
              p.length + 1 + (Item.buildList b).length + 2 := by
            simp; omega
          rw [← hl2]
          exact instr_at
        have hstep2 : step P ⟨p.length + 1 + (Item.buildList b).length + 2, s'⟩ =
            .next ⟨p.length + 1 + (Item.buildList b).length + 3, s'⟩ := by
          rw [step_nonbracket hins2 (by simp [startA]) (by simp [endA])]
          rfl
        have hrun' := stepsTo_congr hlen1 (by rw [hlen1]) hrun
        refine stepsTo_trans (stepsTo_single hstep1) ?_
        refine stepsTo_trans hrun' ?_
        refine stepsTo_congr rfl ?_ (stepsTo_single hstep2)
        rw [hb]; simp; omega
      · intro e hout
        obtain ⟨hfail, _⟩ := hmain.2 e hout
        exact failsWith_comp (stepsTo_single hstep1)
          (failsWith_congr hlen1 hfail)
  | @nilS s =>
    intro hstr P p q hP hpok
    constructor
    · intro s' hout
      obtain rfl := Except.ok.inj hout
      have : (Item.buildList ([] : List Item)).length = 0 := rfl
      rw [this]
      exact Relation.ReflTransGen.refl
    · intro e hout; cases hout
  | @consOk t ts s s1 out h1 h2 ih1 ih2 =>
    intro hstr P p q hP hpok
    rw [Item.structuredListB, Bool.and_eq_true] at hstr
    have hbl : Item.buildList (t :: ts) = t.build ++ Item.buildList ts := by
      rw [Item.buildList]
    rw [hbl] at hP
    have hP1 : P.instructions = p ++ t.build ++ (Item.buildList ts ++ q) := by
      rw [hP]; simp
    have hP2 : P.instructions = (p ++ t.build) ++ Item.buildList ts ++ q := by
      rw [hP]; simp
    have path1 := (ih1 hstr.1 P p (Item.buildList ts ++ q) hP1 hpok).1 s1 rfl
    have main2 := ih2 hstr.2 P (p ++ t.build) q hP2 hpok
    have hlen : (p ++ t.build).length = p.length + t.build.length := by simp
    constructor
    · intro s' hout
      have path2 := (main2.1 s' hout)
      refine stepsTo_trans path1 (stepsTo_congr hlen ?_ path2)
      rw [hbl]; simp; omega
    · intro e hout
      have fail2 := main2.2 e hout
      exact failsWith_comp path1 (failsWith_congr hlen fail2)
  | @consErr t ts s e h1 ih1 =>
    intro hstr P p q hP hpok
    rw [Item.structuredListB, Bool.and_eq_true] at hstr
    have hbl : Item.buildList (t :: ts) = t.build ++ Item.buildList ts := by
      rw [Item.buildList]
    rw [hbl] at hP
    have hP1 : P.instructions = p ++ t.build ++ (Item.buildList ts ++ q) := by
      rw [hP]; simp
    constructor
    · intro s' hout; cases hout
    · intro e' hout
      have he : e' = e := (Except.error.inj hout).symm
      rw [he]
      exact (ih1 hstr.1 P p (Item.buildList ts ++ q) hP1 hpok).2 e rfl
  | @loopZero b s hz =>
    intro hstr P p q hP hpok
    obtain ⟨hx, hy⟩ := hpok p (Item.buildList b) q hP (structuredL_balB b hstr)
    have hinsS : P.instructions[p.length]? = some startA := by
      rw [hP]; exact instr_at
    have hinsE : P.instructions[p.length + (Item.buildList b).length + 1]? =
        some endA := by
      have hP2 : P.instructions = (p ++ startA :: Item.buildList b) ++ endA :: q := by
        rw [hP]; simp
      rw [hP2]
      have hl2 : (p ++ startA :: Item.buildList b).length =
          p.length + (Item.buildList b).length + 1 := by simp; omega
      rw [← hl2]
      exact instr_at
    constructor
    · intro s' hout
      have hs : s' = s := (Except.ok.inj hout).symm
      subst hs
      constructor
      · refine stepsTo_single ?_
        have hst := step_startA_zero (c := ⟨p.length, s'⟩) hinsS hz hx
        convert hst using 2
      · refine stepsTo_single ?_
        exact step_endA_zero (c := ⟨p.length + (Item.buildList b).length + 1, s'⟩)
          hinsE hz
    · intro e hout; cases hout
  | @loopIter b s s1 out hcell hseq hloop ihseq ihloop =>
    intro hstr P p q hP hpok
    obtain ⟨hx, hy⟩ := hpok p (Item.buildList b) q hP (structuredL_balB b hstr)
    have hinsS : P.instructions[p.length]? = some startA := by
      rw [hP]; exact instr_at
    have hinsE : P.instructions[p.length + (Item.buildList b).length + 1]? =
        some endA := by
      have hP2 : P.instructions = (p ++ startA :: Item.buildList b) ++ endA :: q := by
        rw [hP]; simp
      rw [hP2]
      have hl2 : (p ++ startA :: Item.buildList b).length =
          p.length + (Item.buildList b).length + 1 := by simp; omega
      rw [← hl2]
      exact instr_at
    have hPseq : P.instructions = (p ++ [startA]) ++ Item.buildList b ++
        (endA :: q) := by
      rw [hP]; simp
    have hlenS : (p ++ [startA]).length = p.length + 1 := by simp
    have pathBody : StepsTo P ⟨p.length + 1, s⟩
        ⟨p.length + 1 + (Item.buildList b).length, s1⟩ := by
      have := (ihseq hstr P (p ++ [startA]) (endA :: q) hPseq hpok).1 s1 rfl
      exact stepsTo_congr hlenS (by rw [hlenS]) this
    have hstepS : step P ⟨p.length, s⟩ = .next ⟨p.length + 1, s⟩ :=
      step_startA_nonzero hinsS hcell
    have hstepE : step P ⟨p.length + (Item.buildList b).length + 1, s⟩ =
        .next ⟨p.length + 1, s⟩ := by
      rw [step_endA_nonzero hinsE hcell hy]
    have hloopMain := ihloop hstr P p q hP hpok
    constructor
    · intro s' hout
      obtain ⟨_, hback⟩ := hloopMain.1 s' hout
      have hback' : StepsTo P ⟨p.length + 1 + (Item.buildList b).length, s1⟩
          ⟨p.length + (Item.buildList b).length + 2, s'⟩ :=
        stepsTo_congr (by omega) rfl hback
      constructor
      · exact stepsTo_trans (stepsTo_single hstepS)
          (stepsTo_trans pathBody hback')
      · exact stepsTo_trans (stepsTo_single hstepE)
          (stepsTo_trans pathBody hback')
    · intro e hout
      obtain ⟨_, hback⟩ := hloopMain.2 e hout
      have hback' : FailsWith P ⟨p.length + 1 + (Item.buildList b).length, s1⟩ e :=
        failsWith_congr (by omega) hback
      constructor
      · exact failsWith_comp (stepsTo_single hstepS)
          (failsWith_comp pathBody hback')
      · exact failsWith_comp (stepsTo_single hstepE)
          (failsWith_comp pathBody hback')
  | @loopErr b s e hcell hseq ihseq =>
    intro hstr P p q hP hpok
    obtain ⟨hx, hy⟩ := hpok p (Item.buildList b) q hP (structuredL_balB b hstr)
    have hinsS : P.instructions[p.length]? = some startA := by
      rw [hP]; exact instr_at
    have hinsE : P.instructions[p.length + (Item.buildList b).length + 1]? =
        some endA := by
      have hP2 : P.instructions = (p ++ startA :: Item.buildList b) ++ endA :: q := by
        rw [hP]; simp
      rw [hP2]
      have hl2 : (p ++ startA :: Item.buildList b).length =
          p.length + (Item.buildList b).length + 1 := by simp; omega
      rw [← hl2]
      exact instr_at
    have hPseq : P.instructions = (p ++ [startA]) ++ Item.buildList b ++
        (endA :: q) := by
      rw [hP]; simp
    have hlenS : (p ++ [startA]).length = p.length + 1 := by simp
    have failBody : FailsWith P ⟨p.length + 1, s⟩ e := by
      have := (ihseq hstr P (p ++ [startA]) (endA :: q) hPseq hpok).2 e rfl
      exact failsWith_congr hlenS this
    constructor
    · intro s' hout; cases hout
    · intro e' hout
      have he : e' = e := (Except.error.inj hout).symm
      rw [he]
      constructor
      · exact failsWith_comp (stepsTo_single (step_startA_nonzero hinsS hcell))
          failBody
      · exact failsWith_comp
          (stepsTo_single (step_endA_nonzero hinsE hcell hy)) failBody

/-- The byte at an arbitrary tape position (0 beyond the end). -/
def St.cellAt (s : St) (i : Nat) : Nat := s.tape.getD i 0

theorem cell_eq_cellAt (s : St) : s.cell = s.cellAt s.ptr := rfl

theorem getD_set_eq (l : List Nat) (i v : Nat) (h : i < l.length) :
    (l.set i v).getD i 0 = v := by
  rw [List.getD_eq_getElem?_getD, List.getElem?_set_self (by omega)]
  rfl

theorem getD_set_ne (l : List Nat) {i j : Nat} (v : Nat) (h : i ≠ j) :
    (l.set i v).getD j 0 = l.getD j 0 := by
  rw [List.getD_eq_getElem?_getD, List.getElem?_set_ne h,
    ← List.getD_eq_getElem?_getD]

theorem set_getD_zero (l : List Nat) (i : Nat) (h : l.getD i 0 = 0) :
    l.set i 0 = l := by
  induction l generalizing i with
  | nil => rfl
  | cons x xs ih =>
    rcases i with _ | i
    · simp [List.getD] at h
      rw [h]; rfl
    · simp only [List.set]
      rw [ih i (by simpa [List.getD] using h)]

theorem ex_atomic_ok {t : Item} {a : InterpreterAction} {s s1 : St}
    (hat : t.atomic? = some a) (h1 : a ≠ startA) (h2 : a ≠ endA)
    (hstep : actionStep a s = .ok s1) : Ex (.item t) s (.ok s1) :=
  hstep ▸ Ex.atomic hat h1 h2

theorem ex_atomic_err {t : Item} {a : InterpreterAction} {s : St} {e : Err}
    (hat : t.atomic? = some a) (h1 : a ≠ startA) (h2 : a ≠ endA)
    (hstep : actionStep a s = .error e) : Ex (.item t) s (.error e) :=
  hstep ▸ Ex.atomic hat h1 h2

theorem ex_seq_nil_inv {s : St} {out : Except Err St}
    (h : Ex (.seq []) s out) : out = .ok s := by
  cases h; rfl

theorem ex_seq_cons_inv {t : Item} {ts : List Item} {s : St}
    {out : Except Err St} (h : Ex (.seq (t :: ts)) s out) :
    (∃ s1, Ex (.item t) s (.ok s1) ∧ Ex (.seq ts) s1 out) ∨
    (∃ e, out = .error e ∧ Ex (.item t) s (.error e)) := by
  cases h with
  | consOk h1 h2 => exact Or.inl ⟨_, h1, h2⟩
  | consErr h1 => exact Or.inr ⟨_, rfl, h1⟩

theorem ex_seq_append_ok {l1 l2 : List Item} {s s1 : St} {out : Except Err St}
    (h1 : Ex (.seq l1) s (.ok s1)) (h2 : Ex (.seq l2) s1 out) :
    Ex (.seq (l1 ++ l2)) s out := by
  induction l1 generalizing s with
  | nil =>
    obtain rfl := Except.ok.inj (ex_seq_nil_inv h1)
    exact h2
  | cons t ts ih =>
    rcases ex_seq_cons_inv h1 with ⟨sm, hm, hrest⟩ | ⟨e, habs, _⟩
    · exact Ex.consOk hm (ih hrest)
    · cases habs
  
theorem ex_seq_append_err {l1 l2 : List Item} {s : St} {e : Err}
    (h1 : Ex (.seq l1) s (.error e)) : Ex (.seq (l1 ++ l2)) s (.error e) := by
  induction l1 generalizing s with
  | nil => cases ex_seq_nil_inv h1
  | cons t ts ih =>
    rcases ex_seq_cons_inv h1 with ⟨sm, hm, hrest⟩ | ⟨e', he', hitem⟩
    · exact Ex.consOk hm (ih hrest)
    · obtain rfl := Except.error.inj he'
      exact Ex.consErr hitem

theorem ex_seq_single {t : Item} {s : St} {out : Except Err St}
    (h : Ex (.item t) s out) : Ex (.seq [t]) s out := by
  rcases out with e | s'
  · exact Ex.consErr h
  · exact Ex.consOk h Ex.nilS

/-- One Right move without growing the tape. -/
theorem ex_right {s : St} (h : s.ptr + 1 < s.tape.length) :
    Ex (.item (.Direct .Right)) s (.ok { s with ptr := s.ptr + 1 }) := by
  refine ex_atomic_ok rfl (by simp [startA]) (by simp [endA]) ?_
  simp only [actionStep]
  rw [if_neg (by omega)]

/-- One Left move. -/
theorem ex_left {s : St} {p : Nat} (h : s.ptr = p + 1) :
    Ex (.item (.Direct .Left)) s (.ok { s with ptr := p }) := by
  refine ex_atomic_ok rfl (by simp [startA]) (by simp [endA]) ?_
  simp only [actionStep]
  rw [h]

theorem ex_rights {n : Nat} {s : St} (h : s.ptr + n < s.tape.length) :
    Ex (.seq (List.replicate n (Item.Direct .Right))) s
      (.ok { s with ptr := s.ptr + n }) := by
  induction n generalizing s with
  | zero => exact Ex.nilS
  | succ n ih =>
    rw [List.replicate_succ]
    refine Ex.consOk (ex_right (by omega)) ?_
    have h2 := ih (s := { s with ptr := s.ptr + 1 }) (by simp; omega)
    have heq : s.ptr + (n + 1) = s.ptr + 1 + n := by omega
    rw [heq]
    exact h2

theorem ex_lefts {n : Nat} {s : St} (h : n ≤ s.ptr) :
    Ex (.seq (List.replicate n (Item.Direct .Left))) s
      (.ok { s with ptr := s.ptr - n }) := by
  induction n generalizing s with
  | zero =>
    have : s.ptr - 0 = s.ptr := by omega
    rw [this]
    exact Ex.nilS
  | succ n ih =>
    rw [List.replicate_succ]
    refine Ex.consOk (ex_left (p := s.ptr - 1) (by omega)) ?_
    have h2 := ih (s := { s with ptr := s.ptr - 1 }) (by simp; omega)
    have heq : s.ptr - (n + 1) = s.ptr - 1 - n := by omega
    rw [heq]
    exact h2

/-- offset_to_insns moves the head by the signed offset. -/
theorem ex_offset {k : Int} {s : St} {p' : Nat} (htgt : (p' : Int) = s.ptr + k)
    (hlen : p' < s.tape.length) :
    Ex (.item (offset_to_insns k)) s (.ok { s with ptr := p' }) := by
  rw [offset_to_insns]
  by_cases hk : k ≥ 0
  · rw [if_pos hk]
    refine Ex.repI ?_
    have hp : p' = s.ptr + k.natAbs := by omega
    have := ex_rights (n := k.natAbs) (s := s) (by omega)
    rw [hp]
    exact this
  · rw [if_neg hk]
    refine Ex.repI ?_
    have hp : p' = s.ptr - k.natAbs := by omega
    have := ex_lefts (n := k.natAbs) (s := s) (by omega)
    rw [hp]
    exact this

theorem lookup_cons_str {k : String} {v : Nat} {m : List (String × Nat)}
    (a : String) :
    List.lookup a ((k, v) :: m) = if a = k then some v else List.lookup a m := by
  by_cases h : a = k
  · simp [List.lookup, h]
  · have hb : (a == k) = false := by simpa using h
    simp [List.lookup, hb, h]

theorem ptr_lt_of_cell_ne {s : St} (h : s.cell ≠ 0) : s.ptr < s.tape.length := by
  by_contra hc
  exact h (List.getD_eq_default _ _ (by omega))

theorem ex_inc (s : St) :
    Ex (.item (.Direct .Inc)) s
      (.ok { s with tape := s.tape.set s.ptr ((s.cell + 1) % 256) }) :=
  ex_atomic_ok rfl (by simp [startA]) (by simp [endA]) rfl

theorem ex_dec (s : St) :
    Ex (.item (.Direct .Dec)) s
      (.ok { s with tape := s.tape.set s.ptr ((s.cell + 255) % 256) }) :=
  ex_atomic_ok rfl (by simp [startA]) (by simp [endA]) rfl

theorem ex_comment (t : String) (l : Nat) (s : St) :
    Ex (.item (.Comment t l)) s (.ok s) :=
  ex_atomic_ok rfl (by simp [startA]) (by simp [endA]) rfl

theorem ex_add_marker {s : St} {name : String}
    (h : s.markers.lookup name = none) :
    Ex (.item (.AddMarker name)) s
      (.ok { s with markers := (name, s.ptr) :: s.markers }) := by
  refine ex_atomic_ok rfl (by simp [startA]) (by simp [endA]) ?_
  simp only [actionStep]
  rw [h]

theorem ex_remove_marker {s : St} {name : String} {v : Nat}
    (h : s.markers.lookup name = some v) :
    Ex (.item (.RemoveMarker name)) s
      (.ok { s with markers := s.markers.eraseP (fun kv => kv.1 == name) }) := by
  refine ex_atomic_ok rfl (by simp [startA]) (by simp [endA]) ?_
  simp only [actionStep]
  rw [h]

theorem ex_assert_rel {s : St} {name : String} {off : Int} {cm : String}
    {base : Nat} (h : s.markers.lookup name = some base)
    (hpos : (s.ptr : Int) = (base : Int) + off) :
    Ex (.item (.AssertRelativePosition name off cm)) s (.ok s) := by
  refine ex_atomic_ok rfl (by simp [startA]) (by simp [endA]) ?_
  simp only [actionStep]
  rw [h]
  simp [hpos]

theorem ex_assert_pos_fail {s : St} {d : Nat} {w : String} (h : s.ptr ≠ d) :
    Ex (.item (.AssertPosition d w)) s (.error (.assertPos d s.ptr w)) := by
  refine ex_atomic_err rfl (by simp [startA]) (by simp [endA]) ?_
  simp only [actionStep]
  rw [if_neg h]

theorem ex_zero_cell_loop :
    ∀ (n : Nat) (s : St), s.cell = n → n < 256 →
      Ex (.loop [Item.Direct .Dec]) s
        (.ok { s with tape := s.tape.set s.ptr 0 }) := by
  intro n
  induction n using Nat.strong_induction_on with
  | _ n ih =>
    intro s hc hlt
    rcases Nat.eq_zero_or_pos n with rfl | hpos
    · have hset : s.tape.set s.ptr 0 = s.tape := set_getD_zero _ _ hc
      rw [hset]
      exact Ex.loopZero hc
    · have hptr : s.ptr < s.tape.length := ptr_lt_of_cell_ne (by omega)
      have hmod : (s.cell + 255) % 256 = n - 1 := by
        rw [hc]; omega
      have hbody : Ex (.seq [Item.Direct .Dec]) s
          (.ok { s with tape := s.tape.set s.ptr (n - 1) }) := by
        have := ex_seq_single (ex_dec s)
        rwa [hmod] at this
      have hcell1 : ({ s with tape := s.tape.set s.ptr (n - 1) } : St).cell = n - 1 := by
        show (s.tape.set s.ptr (n - 1)).getD s.ptr 0 = n - 1
        exact getD_set_eq _ _ _ (by simpa using hptr)
      have hrec := ih (n - 1) (by omega) _ hcell1 (by omega)
      have hfinal : ({ s with tape := s.tape.set s.ptr (n - 1) } : St).tape.set
          ({ s with tape := s.tape.set s.ptr (n - 1) } : St).ptr 0 =
          s.tape.set s.ptr 0 := by
        show (s.tape.set s.ptr (n - 1)).set s.ptr 0 = s.tape.set s.ptr 0
        exact List.set_set _ _ _ _
      rw [hfinal] at hrec
      exact Ex.loopIter (by omega) hbody hrec

/-- zero_cell zeroes the current cell. -/
theorem ex_zero_cell {s : St} (h : s.cell < 256) :
    Ex (.item zero_cell) s (.ok { s with tape := s.tape.set s.ptr 0 }) :=
  Ex.loopI (ex_zero_cell_loop s.cell s rfl h)

/-- The per-offset loop-body fragment drain emits. -/
def drainMoves (add : Bool) (off : Int) : List Item :=
  [Item.Repeat
      (.Direct (if off ≥ 0 then Instruction.Right else Instruction.Left))
      off.natAbs,
    .Direct (if add then Instruction.Inc else Instruction.Dec)]

theorem drain_foldl (offsets : List Int) (add : Bool) :
    ∀ (acc : List Item) (d : Int),
      offsets.foldl
        (fun acc offset =>
          (acc.1 ++
            [Item.Repeat
                (.Direct (if offset ≥ 0 then Instruction.Right else Instruction.Left))
                offset.natAbs,
              .Direct (if add then Instruction.Inc else Instruction.Dec)],
            acc.2 + offset))
        (acc, d) =
      (acc ++ offsets.flatMap (drainMoves add), d + offsets.sum) := by
  induction offsets with
  | nil => intro acc d; simp
  | cons o os ih =>
    intro acc d
    rw [List.foldl_cons, ih]
    simp [drainMoves, List.flatMap_cons]
    omega

/-- drain unfolded: one loop of Dec, the cumulative walk, and the move
back by the accumulated displacement. -/
theorem drain_eq (offsets : List Int) (add : Bool) :
    drain offsets add =
      .Loop
        (Item.Direct .Dec :: offsets.flatMap (drainMoves add) ++
          [Item.Repeat
              (.Direct (if offsets.sum ≥ 0 then Instruction.Left else Instruction.Right))
              offsets.sum.natAbs])
        false := by
  rw [drain]
  have hf := drain_foldl offsets add [Item.Direct .Dec] 0
  simp only [hf]
  rw [show (0 : Int) + offsets.sum = offsets.sum from by omega]
  simp

/-- State with replaced head position and tape. -/
def setPT (s : St) (p : Nat) (t : List Nat) : St := { s with ptr := p, tape := t }

/-- Cumulative target positions of the drain walk. -/
def cumPos (p : Nat) : List Int → List Nat
  | [] => []
  | o :: os => ((p : Int) + o).toNat :: cumPos ((p : Int) + o).toNat os

/-- Head position after the drain walk. -/
def endPos (p : Nat) : List Int → Nat
  | [] => p
  | o :: os => endPos ((p : Int) + o).toNat os

/-- The walk stays at nonnegative on-tape positions. -/
def cumOK (p : Nat) (len : Nat) : List Int → Prop
  | [] => True
  | o :: os => 0 ≤ (p : Int) + o ∧ ((p : Int) + o).toNat < len ∧
      cumOK ((p : Int) + o).toNat len os

/-- Cell delta of one visit. -/
def stepDir (add : Bool) : Nat := if add then 1 else 255

/-- Apply one visit to each target in order. -/
def applyOps (tgts : List Nat) (add : Bool) (tape : List Nat) : List Nat :=
  tgts.foldl (fun tp x => tp.set x ((tp.getD x 0 + stepDir add) % 256)) tape

theorem applyOps_length (tgts : List Nat) (add : Bool) (tape : List Nat) :
    (applyOps tgts add tape).length = tape.length := by
  induction tgts generalizing tape with
  | nil => rfl
  | cons t ts ih =>
    rw [applyOps, List.foldl_cons, ← applyOps, ih, List.length_set]

theorem endPos_eq_sum (offs : List Int) :
    ∀ (p : Nat) (len : Nat), cumOK p len offs →
      (endPos p offs : Int) = p + offs.sum := by
  induction offs with
  | nil => intro p len _; simp [endPos]
  | cons o os ih =>
    intro p len hok
    obtain ⟨h1, h2, h3⟩ := hok
    rw [endPos, List.sum_cons]
    have := ih ((p : Int) + o).toNat len h3
    rw [this]
    omega

theorem ex_drain_walk (add : Bool) (offs : List Int) :
    ∀ (s : St), cumOK s.ptr s.tape.length offs →
      Ex (.seq (offs.flatMap (drainMoves add))) s
        (.ok (setPT s (endPos s.ptr offs)
          (applyOps (cumPos s.ptr offs) add s.tape))) := by
  induction offs with
  | nil =>
    intro s _
    exact Ex.nilS
  | cons o os ih =>
    intro s hok
    obtain ⟨h1, h2, h3⟩ := hok
    rw [List.flatMap_cons]
    have hmove : Ex (.item (Item.Repeat
        (.Direct (if o ≥ 0 then Instruction.Right else Instruction.Left))
        o.natAbs)) s (.ok { s with ptr := ((s.ptr : Int) + o).toNat }) := by
      by_cases ho : o ≥ 0
      · rw [if_pos ho]
        refine Ex.repI ?_
        have := ex_rights (n := o.natAbs) (s := s) (by omega)
        have heq : ((s.ptr : Int) + o).toNat = s.ptr + o.natAbs := by omega
        rw [heq]
        exact this
      · rw [if_neg ho]
        refine Ex.repI ?_
        have := ex_lefts (n := o.natAbs) (s := s) (by omega)
        have heq : ((s.ptr : Int) + o).toNat = s.ptr - o.natAbs := by omega
        rw [heq]
        exact this
    have hop : Ex (.item (Item.Direct (if add then Instruction.Inc else Instruction.Dec)))
        ({ s with ptr := ((s.ptr : Int) + o).toNat })
        (.ok (setPT s (((s.ptr : Int) + o).toNat)
          (s.tape.set (((s.ptr : Int) + o).toNat)
            ((s.tape.getD (((s.ptr : Int) + o).toNat) 0 + stepDir add) % 256)))) := by
      by_cases ha : add
      · rw [if_pos ha]
        have := ex_inc { s with ptr := ((s.ptr : Int) + o).toNat }
        rw [show stepDir add = 1 by rw [stepDir, if_pos ha]]
        exact this
      · rw [if_neg ha]
        have := ex_dec { s with ptr := ((s.ptr : Int) + o).toNat }
        rw [show stepDir add = 255 by rw [stepDir, if_neg ha]]
        exact this
    have hrest := ih (s := setPT s (((s.ptr : Int) + o).toNat)
        (s.tape.set (((s.ptr : Int) + o).toNat)
          ((s.tape.getD (((s.ptr : Int) + o).toNat) 0 + stepDir add) % 256)))
      (by simpa [setPT] using h3)
    rw [show (drainMoves add o ++ os.flatMap (drainMoves add)) =
      ([Item.Repeat (.Direct (if o ≥ 0 then Instruction.Right else Instruction.Left)) o.natAbs] ++
        ([Item.Direct (if add then Instruction.Inc else Instruction.Dec)] ++
          os.flatMap (drainMoves add))) from by simp [drainMoves]]
    refine ex_seq_append_ok (ex_seq_single hmove) ?_
    refine ex_seq_append_ok (ex_seq_single hop) ?_
    have hgoal1 : endPos s.ptr (o :: os) = endPos (((s.ptr : Int) + o).toNat) os := by
      simp only [endPos]
    have hgoal2 : cumPos s.ptr (o :: os) =
        (((s.ptr : Int) + o).toNat) :: cumPos (((s.ptr : Int) + o).toNat) os := by
      simp only [cumPos]
    rw [hgoal1, hgoal2]
    rw [show applyOps ((((s.ptr : Int) + o).toNat) ::
          cumPos (((s.ptr : Int) + o).toNat) os) add s.tape =
        applyOps (cumPos (((s.ptr : Int) + o).toNat) os) add
          (s.tape.set (((s.ptr : Int) + o).toNat)
            ((s.tape.getD (((s.ptr : Int) + o).toNat) 0 + stepDir add) % 256))
      from rfl]
    exact hrest

/-- Running the linked program of a structured item from instruction 0
reaches the end of the program with the state the structured semantics
produces. -/
theorem exec_runFuel_ok {t : Item} {s s' : St} (hstr : t.structuredB = true)
    (hex : Ex (.item t) s (.ok s')) {prog : Program}
    (hbuild : Program.build t.build = .ok prog) :
    ∃ f, runFuel prog f ⟨0, s⟩ = some (.ok s') := by
  have hins := build_ok_instructions hbuild
  have hP : prog.instructions = [] ++ t.build ++ [] := by simpa using hins
  have hrun := (sim hex hstr prog [] [] hP (build_pairsOK hbuild)).1 s' rfl
  have hdone : step prog ⟨t.build.length, s'⟩ = .done s' := by
    rw [step, hins, List.getElem?_eq_none le_rfl]
  have hrun' : StepsTo prog ⟨0, s⟩ ⟨t.build.length, s'⟩ := by
    have h0 : ([] : List InterpreterAction).length = 0 := rfl
    simpa using hrun
  exact stepsTo_runFuel_ok hrun' hdone

/-- Same for an erroring structured item: the run stops with the
error. -/
theorem exec_runFuel_err {t : Item} {s : St} {e : Err}
    (hstr : t.structuredB = true) (hex : Ex (.item t) s (.error e))
    {prog : Program} (hbuild : Program.build t.build = .ok prog) :
    ∃ f, runFuel prog f ⟨0, s⟩ = some (.error e) := by
  have hins := build_ok_instructions hbuild
  have hP : prog.instructions = [] ++ t.build ++ [] := by simpa using hins
  have hrun := (sim hex hstr prog [] [] hP (build_pairsOK hbuild)).2 e rfl
  exact failsWith_runFuel (by simpa using hrun)

/-- A structured item always links. -/
theorem build_ok_of_structured {t : Item} (hstr : t.structuredB = true) :
    ∃ prog, Program.build t.build = .ok prog := by
  have hb : BalB t.build := structured_balB t hstr
  obtain ⟨Δ, hscan, _⟩ := linkScan_of_balB hb 0 [] []
  refine ⟨⟨t.build, Δ ++ []⟩, ?_⟩
  rw [Program.build, hscan]
  rfl

/-- All cells are bytes. -/
def TapeOK (t : List Nat) : Prop := ∀ v ∈ t, v < 256

theorem TapeOK.getD {t : List Nat} (h : TapeOK t) (i : Nat) : t.getD i 0 < 256 := by
  rcases Nat.lt_or_ge i t.length with hlt | hge
  · rw [List.getD_eq_getElem?_getD, List.getElem?_eq_getElem hlt]
    exact h _ (List.getElem_mem hlt)
  · rw [List.getD_eq_default _ _ hge]
    omega

theorem TapeOK.set_mod {t : List Nat} (h : TapeOK t) (i x : Nat) :
    TapeOK (t.set i (x % 256)) := by
  intro v hv
  rcases List.mem_or_eq_of_mem_set hv with hmem | rfl
  · exact h v hmem
  · omega

theorem applyOps_getD_not_mem {tgts : List Nat} {x : Nat} (h : x ∉ tgts)
    (add : Bool) (tape : List Nat) :
    (applyOps tgts add tape).getD x 0 = tape.getD x 0 := by
  induction tgts generalizing tape with
  | nil => rfl
  | cons t ts ih =>
    rw [applyOps, List.foldl_cons, ← applyOps]
    rw [ih (fun hc => h (List.mem_cons_of_mem t hc))]
    exact getD_set_ne _ _ (fun hc => h (hc ▸ List.mem_cons_self t ts))

theorem applyOps_tapeOK {tgts : List Nat} (add : Bool) {tape : List Nat}
    (h : TapeOK tape) : TapeOK (applyOps tgts add tape) := by
  induction tgts generalizing tape with
  | nil => exact h
  | cons t ts ih =>
    rw [applyOps, List.foldl_cons, ← applyOps]
    exact ih (h.set_mod t _)

theorem applyOps_getD {tgts : List Nat} (add : Bool) {tape : List Nat}
    (htape : TapeOK tape) (hlen : ∀ t ∈ tgts, t < tape.length) (x : Nat) :
    (applyOps tgts add tape).getD x 0 =
      (tape.getD x 0 + tgts.count x * stepDir add) % 256 := by
  induction tgts generalizing tape with
  | nil =>
    rw [applyOps]
    simp only [List.foldl_nil, List.count_nil, Nat.zero_mul, Nat.add_zero]
    exact (Nat.mod_eq_of_lt (htape.getD x)).symm
  | cons t ts ih =>
    rw [applyOps, List.foldl_cons, ← applyOps]
    have hlen' : ∀ u ∈ ts, u < (tape.set t ((tape.getD t 0 + stepDir add) % 256)).length := by
      intro u hu
      rw [List.length_set]
      exact hlen u (List.mem_cons_of_mem t hu)
    rw [ih (htape.set_mod t _) hlen']
    by_cases hxt : x = t
    · subst hxt
      rw [getD_set_eq _ _ _ (hlen x (List.mem_cons_self x ts))]
      rw [List.count_cons_self]
      rw [show (ts.count x + 1) * stepDir add =
        ts.count x * stepDir add + stepDir add from by ring]
      omega
    · rw [getD_set_ne _ _ (fun hc => hxt hc.symm)]
      rw [List.count_cons_of_ne (by simpa using hxt)]

theorem cumPos_lt {offs : List Int} :
    ∀ {p len : Nat}, cumOK p len offs → ∀ x ∈ cumPos p offs, x < len := by
  induction offs with
  | nil => intro p len _ x hx; cases hx
  | cons o os ih =>
    intro p len hok x hx
    obtain ⟨h1, h2, h3⟩ := hok
    rcases List.mem_cons.mp hx with rfl | hx'
    · exact h2
    · exact ih h3 x hx'

/-- The loop body drain emits, as an item list. -/
def drainBody (offsets : List Int) (add : Bool) : List Item :=
  Item.Direct .Dec :: offsets.flatMap (drainMoves add) ++
    [Item.Repeat
        (.Direct (if offsets.sum ≥ 0 then Instruction.Left else Instruction.Right))
        offsets.sum.natAbs]

theorem drain_eq' (offsets : List Int) (add : Bool) :
    drain offsets add = .Loop (drainBody offsets add) false := drain_eq offsets add

/-- One drain iteration: decrement the source, visit the cumulative
targets once each. -/
def drainStep (base : Nat) (offsets : List Int) (add : Bool)
    (tape : List Nat) : List Nat :=
  applyOps (cumPos base offsets) add
    (tape.set base ((tape.getD base 0 + 255) % 256))

def iterStep (f : List Nat → List Nat) : Nat → List Nat → List Nat
  | 0, t => t
  | c + 1, t => iterStep f c (f t)

theorem ex_drain_body (add : Bool) (offsets : List Int) {s : St}
    (hlen : s.ptr < s.tape.length)
    (hok : cumOK s.ptr s.tape.length offsets) :
    Ex (.seq (drainBody offsets add)) s
      (.ok (setPT s s.ptr (drainStep s.ptr offsets add s.tape))) := by
  rw [drainBody]
  have hdec : Ex (.item (Item.Direct .Dec)) s
      (.ok (setPT s s.ptr (s.tape.set s.ptr ((s.tape.getD s.ptr 0 + 255) % 256)))) :=
    ex_dec s
  have hok1 : cumOK (setPT s s.ptr
        (s.tape.set s.ptr ((s.tape.getD s.ptr 0 + 255) % 256))).ptr
      (setPT s s.ptr
        (s.tape.set s.ptr ((s.tape.getD s.ptr 0 + 255) % 256))).tape.length
      offsets := by
    show cumOK s.ptr (s.tape.set s.ptr ((s.tape.getD s.ptr 0 + 255) % 256)).length
      offsets
    rw [List.length_set]
    exact hok
  have hwalk : Ex (.seq (offsets.flatMap (drainMoves add)))
      (setPT s s.ptr (s.tape.set s.ptr ((s.tape.getD s.ptr 0 + 255) % 256)))
      (.ok (setPT s (endPos s.ptr offsets) (drainStep s.ptr offsets add s.tape))) :=
    ex_drain_walk add offsets _ hok1
  have hsum := endPos_eq_sum offsets s.ptr s.tape.length hok
  have hlen2 : (drainStep s.ptr offsets add s.tape).length = s.tape.length := by
    rw [drainStep, applyOps_length, List.length_set]
  refine ex_seq_append_ok (Ex.consOk hdec hwalk) (ex_seq_single ?_)
  by_cases hs : offsets.sum ≥ 0
  · rw [if_pos hs]
    refine Ex.repI ?_
    have hmv : Ex (.seq (List.replicate offsets.sum.natAbs (Item.Direct .Left)))
        (setPT s (endPos s.ptr offsets) (drainStep s.ptr offsets add s.tape))
        (.ok (setPT s (endPos s.ptr offsets - offsets.sum.natAbs)
          (drainStep s.ptr offsets add s.tape))) :=
      ex_lefts (show offsets.sum.natAbs ≤ endPos s.ptr offsets by omega)
    have heq : endPos s.ptr offsets - offsets.sum.natAbs = s.ptr := by omega
    rw [heq] at hmv
    exact hmv
  · rw [if_neg hs]
    refine Ex.repI ?_
    have hmv : Ex (.seq (List.replicate offsets.sum.natAbs (Item.Direct .Right)))
        (setPT s (endPos s.ptr offsets) (drainStep s.ptr offsets add s.tape))
        (.ok (setPT s (endPos s.ptr offsets + offsets.sum.natAbs)
          (drainStep s.ptr offsets add s.tape))) :=
      ex_rights (show endPos s.ptr offsets + offsets.sum.natAbs <
        (drainStep s.ptr offsets add s.tape).length by rw [hlen2]; omega)
    have heq : endPos s.ptr offsets + offsets.sum.natAbs = s.ptr := by omega
    rw [heq] at hmv
    exact hmv

theorem ex_drain_loop (add : Bool) (offsets : List Int) :
    ∀ (c : Nat) (s : St), s.cell = c → c < 256 →
      TapeOK s.tape → s.ptr < s.tape.length →
      cumOK s.ptr s.tape.length offsets →
      (∀ x ∈ cumPos s.ptr offsets, x ≠ s.ptr) →
      Ex (.loop (drainBody offsets add)) s
        (.ok (setPT s s.ptr (iterStep (drainStep s.ptr offsets add) c s.tape))) := by
  intro c
  induction c with
  | zero =>
    intro s hcell _ _ _ _ _
    exact Ex.loopZero hcell
  | succ c ih =>
    intro s hcell hlt htape hlen hok hnz
    have hbody := ex_drain_body add offsets hlen hok
    have hlen2 : (drainStep s.ptr offsets add s.tape).length = s.tape.length := by
      rw [drainStep, applyOps_length, List.length_set]
    have hrec := ih (setPT s s.ptr (drainStep s.ptr offsets add s.tape))
      (by
        show (applyOps (cumPos s.ptr offsets) add
          (s.tape.set s.ptr ((s.tape.getD s.ptr 0 + 255) % 256))).getD s.ptr 0 = c
        rw [applyOps_getD_not_mem (fun hc => hnz s.ptr hc rfl),
          getD_set_eq _ _ _ hlen]
        have hgc : s.tape.getD s.ptr 0 = c + 1 := hcell
        omega)
      (by omega)
      (by
        show TapeOK (applyOps (cumPos s.ptr offsets) add
          (s.tape.set s.ptr ((s.tape.getD s.ptr 0 + 255) % 256)))
        refine applyOps_tapeOK add ?_
        intro v hv
        rcases List.mem_or_eq_of_mem_set hv with hmem | rfl
        · exact htape v hmem
        · omega)
      (by
        show s.ptr < (drainStep s.ptr offsets add s.tape).length
        rw [hlen2]
        exact hlen)
      (by
        show cumOK s.ptr (drainStep s.ptr offsets add s.tape).length offsets
        rw [hlen2]
        exact hok)
      hnz
    refine Ex.loopIter (by rw [hcell]; omega) hbody ?_
    exact hrec

theorem structuredListB_append (l1 l2 : List Item) :
    Item.structuredListB (l1 ++ l2) =
      (Item.structuredListB l1 && Item.structuredListB l2) := by
  induction l1 with
  | nil => rfl
  | cons t ts ih =>
    rw [List.cons_append, Item.structuredListB, Item.structuredListB, ih,
      Bool.and_assoc]

theorem drain_structured (offsets : List Int) (add : Bool) :
    (drain offsets add).structuredB = true := by
  rw [drain_eq', drainBody, Item.structuredB, structuredListB_append,
    Bool.and_eq_true]
  refine ⟨?_, ?_⟩
  · rw [Item.structuredListB, Bool.and_eq_true]
    refine ⟨rfl, ?_⟩
    induction offsets with
    | nil => rfl
    | cons o os ih =>
      rw [List.flatMap_cons, structuredListB_append, Bool.and_eq_true]
      refine ⟨?_, ih⟩
      rw [drainMoves]
      rw [Item.structuredListB, Item.structuredListB, Item.structuredListB,
        Bool.and_eq_true, Bool.and_eq_true]
      refine ⟨?_, ?_, rfl⟩
      · rw [Item.structuredB]
        by_cases h : o ≥ 0
        · rw [if_pos h]; rfl
        · rw [if_neg h]; rfl
      · by_cases h : add
        · rw [if_pos h]; rfl
        · rw [if_neg h]; rfl
  · rw [Item.structuredListB, Item.structuredB, Bool.and_eq_true]
    refine ⟨?_, rfl⟩
    by_cases h : offsets.sum ≥ 0
    · rw [if_pos h]; rfl
    · rw [if_neg h]; rfl

theorem iter_drain_base (add : Bool) (offsets : List Int) (base : Nat)
    (hmem : base ∉ cumPos base offsets) :
    ∀ (c : Nat) (tape : List Nat), tape.getD base 0 = c → c < 256 →
      base < tape.length →
      (iterStep (drainStep base offsets add) c tape).getD base 0 = 0 := by
  intro c
  induction c with
  | zero =>
    intro tape hc _ _
    exact hc
  | succ c ih =>
    intro tape hc hlt hlen
    show (iterStep (drainStep base offsets add) c
      (drainStep base offsets add tape)).getD base 0 = 0
    refine ih (drainStep base offsets add tape) ?_ (by omega) ?_
    · show (applyOps (cumPos base offsets) add
        (tape.set base ((tape.getD base 0 + 255) % 256))).getD base 0 = c
      rw [applyOps_getD_not_mem hmem, getD_set_eq _ _ _ hlen]
      omega
    · show base < (applyOps (cumPos base offsets) add
        (tape.set base ((tape.getD base 0 + 255) % 256))).length
      rw [applyOps_length, List.length_set]
      exact hlen

theorem iter_drain_other (add : Bool) (offsets : List Int) (base x : Nat)
    (hx : x ≠ base) :
    ∀ (c : Nat) (tape : List Nat), TapeOK tape →
      (∀ t ∈ cumPos base offsets, t < tape.length) → base < tape.length →
      (iterStep (drainStep base offsets add) c tape).getD x 0 =
        (tape.getD x 0 +
          c * ((cumPos base offsets).count x * stepDir add)) % 256 := by
  intro c
  induction c with
  | zero =>
    intro tape htape _ _
    have h := htape.getD x
    show tape.getD x 0 =
      (tape.getD x 0 + 0 * ((cumPos base offsets).count x * stepDir add)) % 256
    omega
  | succ c ih =>
    intro tape htape htgt hlen
    have hset : TapeOK (tape.set base ((tape.getD base 0 + 255) % 256)) := by
      intro v hv
      rcases List.mem_or_eq_of_mem_set hv with hmemv | rfl
      · exact htape v hmemv
      · omega
    have hftape : TapeOK (drainStep base offsets add tape) :=
      applyOps_tapeOK add hset
    have hflen : (drainStep base offsets add tape).length = tape.length := by
      rw [drainStep, applyOps_length, List.length_set]
    have happ : (drainStep base offsets add tape).getD x 0 =
        (tape.getD x 0 + (cumPos base offsets).count x * stepDir add) % 256 := by
      show (applyOps (cumPos base offsets) add
        (tape.set base ((tape.getD base 0 + 255) % 256))).getD x 0 = _
      rw [applyOps_getD add hset (by rw [List.length_set]; exact htgt) x,
        getD_set_ne _ _ (fun hc => hx hc.symm)]
    show (iterStep (drainStep base offsets add) c
      (drainStep base offsets add tape)).getD x 0 = _
    rw [ih (drainStep base offsets add tape) hftape
      (by rw [hflen]; exact htgt) (by rw [hflen]; exact hlen), happ]
    rw [show (c + 1) * ((cumPos base offsets).count x * stepDir add) =
      c * ((cumPos base offsets).count x * stepDir add) +
        (cumPos base offsets).count x * stepDir add from by ring]
    omega

theorem ex_drain (add : Bool) (offsets : List Int) (s : St)
    (htape : TapeOK s.tape) (hlen : s.ptr < s.tape.length)
    (hok : cumOK s.ptr s.tape.length offsets)
    (hnz : ∀ x ∈ cumPos s.ptr offsets, x ≠ s.ptr) :
    Ex (.item (drain offsets add)) s
      (.ok (setPT s s.ptr
        (iterStep (drainStep s.ptr offsets add) s.cell s.tape))) := by
  rw [drain_eq']
  exact Ex.loopI
    (ex_drain_loop add offsets s.cell s rfl (htape.getD s.ptr) htape hlen hok hnz)

theorem iter_drain_length (f : List Nat → List Nat)
    (hf : ∀ t, (f t).length = t.length) :
    ∀ (c : Nat) (tape : List Nat), (iterStep f c tape).length = tape.length := by
  intro c
  induction c with
  | zero => intro tape; rfl
  | succ c ih =>
    intro tape
    show (iterStep f c (f tape)).length = tape.length
    rw [ih (f tape), hf]

/-- C3 (corrected): running the linked program of drain(offsets, add) from a
state whose head cell holds v terminates with the head back on the SOURCE
cell (not on the last visited offset), the source cell zeroed, and every
other cell x incremented (if add) or decremented by v for each time x
occurs among the CUMULATIVE positions of the walk (each offset is taken
relative to the previous stop, not to the base), modulo 256; the
hypotheses keep the walk on the tape and away from the source cell. -/
theorem drain_semantics (offsets : List Int) (add : Bool) (s : St)
    (prog : Program)
    (hbuild : Program.build (Item.build (drain offsets add)) = .ok prog)
    (htape : TapeOK s.tape) (hlen : s.ptr < s.tape.length)
    (hok : cumOK s.ptr s.tape.length offsets)
    (hnz : ∀ x ∈ cumPos s.ptr offsets, x ≠ s.ptr) :
    ∃ f tape', runFuel prog f ⟨0, s⟩ = some (.ok (setPT s s.ptr tape')) ∧
      tape'.length = s.tape.length ∧
      tape'.getD s.ptr 0 = 0 ∧
      ∀ x, x ≠ s.ptr → tape'.getD x 0 =
        (s.tape.getD x 0 +
          s.cell * ((cumPos s.ptr offsets).count x * stepDir add)) % 256 := by
  have hmem : s.ptr ∉ cumPos s.ptr offsets := fun hc => hnz s.ptr hc rfl
  have hex := ex_drain add offsets s htape hlen hok hnz
  obtain ⟨f, hrun⟩ :=
    exec_runFuel_ok (drain_structured offsets add) hex hbuild
  refine ⟨f, iterStep (drainStep s.ptr offsets add) s.cell s.tape, hrun, ?_, ?_, ?_⟩
  · exact iter_drain_length _
      (fun t => by rw [drainStep, applyOps_length, List.length_set]) s.cell s.tape
  · exact iter_drain_base add offsets s.ptr hmem s.cell s.tape rfl
      (htape.getD s.ptr) hlen
  · intro x hx
    exact iter_drain_other add offsets s.ptr x hx s.cell s.tape htape
      (cumPos_lt hok) hlen

theorem drain_semantics_witness :
    Program.build (Item.build (drain [1, 1] true)) =
      .ok ⟨[.Instruction .Start, .Instruction .Dec, .Instruction .Right,
        .Instruction .Inc, .Instruction .Right, .Instruction .Inc,
        .Instruction .Left, .Instruction .Left, .Instruction .End],
        [(0, 8), (8, 0)]⟩ ∧
    (∃ f tape',
      runFuel ⟨[.Instruction .Start, .Instruction .Dec, .Instruction .Right,
          .Instruction .Inc, .Instruction .Right, .Instruction .Inc,
          .Instruction .Left, .Instruction .Left, .Instruction .End],
          [(0, 8), (8, 0)]⟩ f ⟨0, ⟨[1, 0, 0], 0, [], [], []⟩⟩ =
        some (.ok (setPT ⟨[1, 0, 0], 0, [], [], []⟩ 0 tape')) ∧
      tape'.length = 3 ∧
      tape'.getD 0 0 = 0 ∧
      ∀ x, x ≠ 0 → tape'.getD x 0 =
        (([1, 0, 0] : List Nat).getD x 0 +
          1 * ((cumPos 0 [1, 1]).count x * stepDir true)) % 256) :=
  ⟨by rfl,
    drain_semantics [1, 1] true ⟨[1, 0, 0], 0, [], [], []⟩
      ⟨[.Instruction .Start, .Instruction .Dec, .Instruction .Right,
        .Instruction .Inc, .Instruction .Right, .Instruction .Inc,
        .Instruction .Left, .Instruction .Left, .Instruction .End],
        [(0, 8), (8, 0)]⟩
      (by rfl)
      (by show ∀ v ∈ ([1, 0, 0] : List Nat), v < 256; decide)
      (by decide)
      ⟨by decide, by decide, by decide, by decide, trivial⟩
      (by decide)⟩

/-- C3, the claim as stated is false: drain([1, 1], true) from value 1 at the
head does not add 1 to the cell at each listed relative offset (offset 1,
listed twice, would leave cell 1 holding 2 and only cell 1 changed), and the
head does not finish on the last visited offset (absolute cell 2): the run
deterministically ends with tape [0, 1, 1] — cell 2, whose offset is never
listed, received the value — and with the head back on the source cell 0. -/
theorem drain_semantics_cex :
    Program.build (Item.build (drain [1, 1] true)) =
      .ok ⟨[.Instruction .Start, .Instruction .Dec, .Instruction .Right,
        .Instruction .Inc, .Instruction .Right, .Instruction .Inc,
        .Instruction .Left, .Instruction .Left, .Instruction .End],
        [(0, 8), (8, 0)]⟩ ∧
    runFuel ⟨[.Instruction .Start, .Instruction .Dec, .Instruction .Right,
        .Instruction .Inc, .Instruction .Right, .Instruction .Inc,
        .Instruction .Left, .Instruction .Left, .Instruction .End],
        [(0, 8), (8, 0)]⟩ 30 ⟨0, ⟨[1, 0, 0], 0, [], [], []⟩⟩ =
      some (.ok ⟨[0, 1, 1], 0, [], [], []⟩) ∧
    (∀ f r, runFuel ⟨[.Instruction .Start, .Instruction .Dec, .Instruction .Right,
        .Instruction .Inc, .Instruction .Right, .Instruction .Inc,
        .Instruction .Left, .Instruction .Left, .Instruction .End],
        [(0, 8), (8, 0)]⟩ f ⟨0, ⟨[1, 0, 0], 0, [], [], []⟩⟩ = some r →
      r = .ok ⟨[0, 1, 1], 0, [], [], []⟩) ∧
    (⟨[0, 1, 1], 0, [], [], []⟩ : St).ptr ≠ 2 ∧
    (⟨[0, 1, 1], 0, [], [], []⟩ : St).tape.getD 2 0 ≠ 0 ∧
    (⟨[0, 1, 1], 0, [], [], []⟩ : St).tape.getD 1 0 ≠ 2 :=
  by
  have hr : runFuel
      (⟨[.Instruction .Start, .Instruction .Dec, .Instruction .Right,
        .Instruction .Inc, .Instruction .Right, .Instruction .Inc,
        .Instruction .Left, .Instruction .Left, .Instruction .End],
        [(0, 8), (8, 0)]⟩ : Program) 30
      ⟨0, ⟨[1, 0, 0], 0, [], [], []⟩⟩ =
      some (.ok ⟨[0, 1, 1], 0, [], [], []⟩) := by rfl
  exact ⟨by rfl, hr, fun f r h => runFuel_unique h hr,
    by decide, by decide, by decide⟩

theorem set_getD_self (l : List Nat) (i : Nat) (v : Nat) (h : l.getD i 0 = v) :
    l.set i v = l := by
  induction l generalizing i with
  | nil => rfl
  | cons x xs ih =>
    rcases i with _ | i
    · simp only [List.getD_cons_zero] at h
      rw [← h]; rfl
    · simp only [List.getD_cons_succ] at h
      simp only [List.set]
      rw [ih i h]

theorem lookup_cons_self (n : String) (v : Nat) (M : List (String × Nat)) :
    ((n, v) :: M).lookup n = some v := by
  simp [List.lookup]

theorem lookup_cons_ne {m n : String} (h : m ≠ n) (v : Nat)
    (M : List (String × Nat)) : ((n, v) :: M).lookup m = M.lookup m := by
  have hb : (m == n) = false := beq_eq_false_iff_ne.mpr h
  simp [List.lookup, hb]

theorem eraseP_cons_self (n : String) (v : Nat) (M : List (String × Nat)) :
    ((n, v) :: M).eraseP (fun kv => kv.1 == n) = M := by
  simp [List.eraseP_cons]

theorem ex_prep (so : Nat) (s : St)
    (hc : s.tape.getD (s.ptr + so) 0 < 256) (hlen : s.ptr + so < s.tape.length) :
    Ex (.item (Item.Sequence [offset_to_insns (so : Int), zero_cell,
      Item.Direct .Inc, offset_to_insns (-(so : Int))])) s
      (.ok (setPT s s.ptr (s.tape.set (s.ptr + so) 1))) := by
  have h1 : Ex (.item (offset_to_insns (so : Int))) s
      (.ok (setPT s (s.ptr + so) s.tape)) :=
    ex_offset (by push_cast; ring) hlen
  have h2 : Ex (.item zero_cell) (setPT s (s.ptr + so) s.tape)
      (.ok (setPT s (s.ptr + so) (s.tape.set (s.ptr + so) 0))) :=
    ex_zero_cell hc
  have h3 : Ex (.item (Item.Direct .Inc))
      (setPT s (s.ptr + so) (s.tape.set (s.ptr + so) 0))
      (.ok (setPT s (s.ptr + so) (s.tape.set (s.ptr + so) 1))) := by
    have h := ex_inc (setPT s (s.ptr + so) (s.tape.set (s.ptr + so) 0))
    replace h : Ex (.item (Item.Direct .Inc))
        (setPT s (s.ptr + so) (s.tape.set (s.ptr + so) 0))
        (.ok (setPT s (s.ptr + so) ((s.tape.set (s.ptr + so) 0).set (s.ptr + so)
          (((s.tape.set (s.ptr + so) 0).getD (s.ptr + so) 0 + 1) % 256)))) := h
    rw [getD_set_eq _ _ _ hlen, List.set_set] at h
    exact h
  have h4 : Ex (.item (offset_to_insns (-(so : Int))))
      (setPT s (s.ptr + so) (s.tape.set (s.ptr + so) 1))
      (.ok (setPT s s.ptr (s.tape.set (s.ptr + so) 1))) :=
    ex_offset
      (by
        show (s.ptr : Int) = ((s.ptr + so : Nat) : Int) + (-(so : Int))
        push_cast; ring)
      (by rw [show (setPT s (s.ptr + so) (s.tape.set (s.ptr + so) 1)).tape.length
        = (s.tape.set (s.ptr + so) 1).length from rfl, List.length_set]; omega)
  exact Ex.seqI (Ex.consOk h1 (Ex.consOk h2 (Ex.consOk h3
    (Ex.consOk h4 Ex.nilS))))

/-- The zero_check sequence of operate_level, with the else-branch loop
body abstracted. -/
def zcItem (so : Int) (lb : List Item) : Item :=
  Item.Sequence [
    Item.Loop [offset_to_insns so, .Direct .Dec, offset_to_insns (-so),
      .Direct .Right] true,
    offset_to_insns so,
    Item.Loop lb true,
    offset_to_insns (-so - 1)]

/-- The else-branch body of the zero_check loop: the carry recursion,
or the failing assertion once the digit space is exhausted. -/
def levelLoopB (N : NumericOperation) (space : Nat) (so : Int) : List Item :=
  match space with
  | Nat.succ space' => [
      offset_to_insns (-so),
      .Direct .Left,
      Item.AssertRelativePosition (levelMarkerName N space) (-1) ("before recursion"),
      operate_level N space' (so + 1),
      Item.AssertRelativePosition (levelMarkerName N space) (-1) ("after recursion"),
      .Direct .Right,
      N.zero_reset,
      .Direct .Right,
      offset_to_insns so]
  | Nat.zero => [Item.AssertPosition USIZE_MAX ("arithmetic overflow")]

theorem operate_level_add_eq (W space : Nat) (so : Int) :
    operate_level (DecimalAdd W) space so = Item.Sequence [
      Item.Comment (levelCommentText (DecimalAdd W) space) 10,
      Item.AddMarker (levelMarkerName (DecimalAdd W) space),
      Item.Sequence [offset_to_insns so, zero_cell, .Direct .Inc,
        offset_to_insns (-so)],
      Item.AssertRelativePosition (levelMarkerName (DecimalAdd W) space) 0 ("after prep"),
      .Direct .Inc,
      Item.AssertRelativePosition (levelMarkerName (DecimalAdd W) space) 0 ("after operation"),
      zcItem so (levelLoopB (DecimalAdd W) space so),
      Item.AssertRelativePosition (levelMarkerName (DecimalAdd W) space) 0 ("after zero check"),
      Item.AssertRelativePosition (levelMarkerName (DecimalAdd W) space) 0 ("after level"),
      Item.RemoveMarker (levelMarkerName (DecimalAdd W) space)] := by
  cases space <;> rfl

theorem operate_level_sub_eq (W space : Nat) (so : Int) :
    operate_level (DecimalSub W) space so = Item.Sequence [
      Item.Comment (levelCommentText (DecimalSub W) space) 10,
      Item.AddMarker (levelMarkerName (DecimalSub W) space),
      Item.Sequence [offset_to_insns so, zero_cell, .Direct .Inc,
        offset_to_insns (-so)],
      Item.AssertRelativePosition (levelMarkerName (DecimalSub W) space) 0 ("after prep"),
      zcItem so (levelLoopB (DecimalSub W) space so),
      Item.AssertRelativePosition (levelMarkerName (DecimalSub W) space) 0 ("after zero check"),
      .Direct .Dec,
      Item.AssertRelativePosition (levelMarkerName (DecimalSub W) space) 0 ("after operation"),
      Item.AssertRelativePosition (levelMarkerName (DecimalSub W) space) 0 ("after level"),
      Item.RemoveMarker (levelMarkerName (DecimalSub W) space)] := by
  cases space <;> rfl

theorem ex_zero_check (so : Nat) (lb : List Item) (s : St)
    (hcell : s.cell ≠ 0)
    (hs1 : s.tape.getD (s.ptr + so) 0 = 1)
    (hs2 : s.tape.getD (s.ptr + so + 1) 0 = 0)
    (hgap : s.tape.getD (s.ptr + 1) 0 = 0 ∨ so = 1)
    (hlen : s.ptr + so + 1 < s.tape.length) :
    Ex (.item (zcItem (so : Int) lb)) s
      (.ok (setPT s s.ptr (s.tape.set (s.ptr + so) 0))) := by
  have a1 : Ex (.item (offset_to_insns (so : Int))) s
      (.ok (setPT s (s.ptr + so) s.tape)) :=
    ex_offset (by push_cast; ring) (by omega)
  have a2 : Ex (.item (Item.Direct .Dec)) (setPT s (s.ptr + so) s.tape)
      (.ok (setPT s (s.ptr + so) (s.tape.set (s.ptr + so) 0))) := by
    have h := ex_dec (setPT s (s.ptr + so) s.tape)
    replace h : Ex (.item (Item.Direct .Dec)) (setPT s (s.ptr + so) s.tape)
        (.ok (setPT s (s.ptr + so) (s.tape.set (s.ptr + so)
          ((s.tape.getD (s.ptr + so) 0 + 255) % 256)))) := h
    rw [hs1] at h
    exact h
  have a3 : Ex (.item (offset_to_insns (-(so : Int))))
      (setPT s (s.ptr + so) (s.tape.set (s.ptr + so) 0))
      (.ok (setPT s s.ptr (s.tape.set (s.ptr + so) 0))) :=
    ex_offset
      (by
        show (s.ptr : Int) = ((s.ptr + so : Nat) : Int) + (-(so : Int))
        push_cast; ring)
      (by
        show s.ptr < (s.tape.set (s.ptr + so) 0).length
        rw [List.length_set]; omega)
  have a4 : Ex (.item (Item.Direct .Right))
      (setPT s s.ptr (s.tape.set (s.ptr + so) 0))
      (.ok (setPT s (s.ptr + 1) (s.tape.set (s.ptr + so) 0))) := by
    have h := ex_right (s := setPT s s.ptr (s.tape.set (s.ptr + so) 0))
      (by
        show s.ptr + 1 < (s.tape.set (s.ptr + so) 0).length
        rw [List.length_set]; omega)
    exact h
  have hz3 : (s.tape.set (s.ptr + so) 0).getD (s.ptr + 1) 0 = 0 := by
    by_cases h1 : so = 1
    · subst h1
      exact getD_set_eq _ _ _ (by omega)
    · rcases hgap with hg | hg
      · rw [getD_set_ne _ _ (by omega : s.ptr + so ≠ s.ptr + 1)]
        exact hg
      · exact absurd hg h1
  have hloopA : Ex (.loop [offset_to_insns (so : Int), .Direct .Dec,
      offset_to_insns (-(so : Int)), .Direct .Right]) s
      (.ok (setPT s (s.ptr + 1) (s.tape.set (s.ptr + so) 0))) := by
    refine Ex.loopIter hcell
      (Ex.consOk a1 (Ex.consOk a2 (Ex.consOk a3 (Ex.consOk a4 Ex.nilS)))) ?_
    exact Ex.loopZero
      (show (setPT s (s.ptr + 1) (s.tape.set (s.ptr + so) 0)).cell = 0 from hz3)
  have z2 : Ex (.item (offset_to_insns (so : Int)))
      (setPT s (s.ptr + 1) (s.tape.set (s.ptr + so) 0))
      (.ok (setPT s (s.ptr + so + 1) (s.tape.set (s.ptr + so) 0))) :=
    ex_offset
      (by
        show ((s.ptr + so + 1 : Nat) : Int) = ((s.ptr + 1 : Nat) : Int) + (so : Int)
        push_cast; ring)
      (by
        show s.ptr + so + 1 < (s.tape.set (s.ptr + so) 0).length
        rw [List.length_set]; omega)
  have z3 : Ex (.item (Item.Loop lb true))
      (setPT s (s.ptr + so + 1) (s.tape.set (s.ptr + so) 0))
      (.ok (setPT s (s.ptr + so + 1) (s.tape.set (s.ptr + so) 0))) := by
    refine Ex.loopI (Ex.loopZero ?_)
    show (s.tape.set (s.ptr + so) 0).getD (s.ptr + so + 1) 0 = 0
    rw [getD_set_ne _ _ (by omega : s.ptr + so ≠ s.ptr + so + 1)]
    exact hs2
  have z4 : Ex (.item (offset_to_insns (-(so : Int) - 1)))
      (setPT s (s.ptr + so + 1) (s.tape.set (s.ptr + so) 0))
      (.ok (setPT s s.ptr (s.tape.set (s.ptr + so) 0))) :=
    ex_offset
      (by
        show (s.ptr : Int) = ((s.ptr + so + 1 : Nat) : Int) + (-(so : Int) - 1)
        push_cast; ring)
      (by
        show s.ptr < (s.tape.set (s.ptr + so) 0).length
        rw [List.length_set]; omega)
  exact Ex.seqI (Ex.consOk (Ex.loopI hloopA)
    (Ex.consOk z2 (Ex.consOk z3 (Ex.consOk z4 Ex.nilS))))

theorem ex_level_add (W space so : Nat) (hso : 1 ≤ so) (s : St)
    (htape : TapeOK s.tape)
    (hlen : s.ptr + so + 1 < s.tape.length)
    (hcell : s.tape.getD s.ptr 0 ≤ 254)
    (hs2 : s.tape.getD (s.ptr + so + 1) 0 = 0)
    (hgap : s.tape.getD (s.ptr + 1) 0 = 0 ∨ so = 1)
    (hml : s.markers.lookup (levelMarkerName (DecimalAdd W) space) = none) :
    Ex (.item (operate_level (DecimalAdd W) space (so : Int))) s
      (.ok (setPT s s.ptr ((s.tape.set (s.ptr + so) 0).set s.ptr
        ((s.tape.getD s.ptr 0 + 1) % 256)))) := by
  rw [operate_level_add_eq]
  set lname := levelMarkerName (DecimalAdd W) space with hlname
  set sM : St := { s with markers := (lname, s.ptr) :: s.markers } with hsM
  have m1 : Ex (.item (Item.Comment (levelCommentText (DecimalAdd W) space) 10))
      s (.ok s) := ex_comment _ _ _
  have m2 : Ex (.item (Item.AddMarker lname)) s (.ok sM) := ex_add_marker hml
  have m3 : Ex (.item (Item.Sequence [offset_to_insns (so : Int), zero_cell,
      Item.Direct .Inc, offset_to_insns (-(so : Int))])) sM
      (.ok (setPT sM s.ptr (s.tape.set (s.ptr + so) 1))) :=
    ex_prep so sM (htape.getD _) (show s.ptr + so < s.tape.length by omega)
  have m4 : Ex (.item (Item.AssertRelativePosition lname 0 ("after prep")))
      (setPT sM s.ptr (s.tape.set (s.ptr + so) 1))
      (.ok (setPT sM s.ptr (s.tape.set (s.ptr + so) 1))) :=
    ex_assert_rel (lookup_cons_self lname s.ptr s.markers)
      (show (s.ptr : Int) = (s.ptr : Int) + 0 from by ring)
  have m5 : Ex (.item (Item.Direct .Inc))
      (setPT sM s.ptr (s.tape.set (s.ptr + so) 1))
      (.ok (setPT sM s.ptr ((s.tape.set (s.ptr + so) 1).set s.ptr
        ((s.tape.getD s.ptr 0 + 1) % 256)))) := by
    have h := ex_inc (setPT sM s.ptr (s.tape.set (s.ptr + so) 1))
    replace h : Ex (.item (Item.Direct .Inc))
        (setPT sM s.ptr (s.tape.set (s.ptr + so) 1))
        (.ok (setPT sM s.ptr ((s.tape.set (s.ptr + so) 1).set s.ptr
          (((s.tape.set (s.ptr + so) 1).getD s.ptr 0 + 1) % 256)))) := h
    rw [getD_set_ne _ _ (by omega : s.ptr + so ≠ s.ptr)] at h
    exact h
  have m6 : Ex (.item (Item.AssertRelativePosition lname 0 ("after operation")))
      (setPT sM s.ptr ((s.tape.set (s.ptr + so) 1).set s.ptr
        ((s.tape.getD s.ptr 0 + 1) % 256)))
      (.ok (setPT sM s.ptr ((s.tape.set (s.ptr + so) 1).set s.ptr
        ((s.tape.getD s.ptr 0 + 1) % 256)))) :=
    ex_assert_rel (lookup_cons_self lname s.ptr s.markers)
      (show (s.ptr : Int) = (s.ptr : Int) + 0 from by ring)
  have hlen1 : ((s.tape.set (s.ptr + so) 1).set s.ptr
      ((s.tape.getD s.ptr 0 + 1) % 256)).length = s.tape.length := by
    rw [List.length_set, List.length_set]
  have m7 : Ex (.item (zcItem (so : Int) (levelLoopB (DecimalAdd W) space (so : Int))))
      (setPT sM s.ptr ((s.tape.set (s.ptr + so) 1).set s.ptr
        ((s.tape.getD s.ptr 0 + 1) % 256)))
      (.ok (setPT sM s.ptr (((s.tape.set (s.ptr + so) 1).set s.ptr
        ((s.tape.getD s.ptr 0 + 1) % 256)).set (s.ptr + so) 0))) := by
    refine ex_zero_check so _ _ ?_ ?_ ?_ ?_ ?_
    · show ((s.tape.set (s.ptr + so) 1).set s.ptr
        ((s.tape.getD s.ptr 0 + 1) % 256)).getD s.ptr 0 ≠ 0
      rw [getD_set_eq _ _ _ (by rw [List.length_set]; omega)]
      omega
    · show ((s.tape.set (s.ptr + so) 1).set s.ptr
        ((s.tape.getD s.ptr 0 + 1) % 256)).getD (s.ptr + so) 0 = 1
      rw [getD_set_ne _ _ (by omega : s.ptr ≠ s.ptr + so),
        getD_set_eq _ _ _ (by omega)]
    · show ((s.tape.set (s.ptr + so) 1).set s.ptr
        ((s.tape.getD s.ptr 0 + 1) % 256)).getD (s.ptr + so + 1) 0 = 0
      rw [getD_set_ne _ _ (by omega : s.ptr ≠ s.ptr + so + 1),
        getD_set_ne _ _ (by omega : s.ptr + so ≠ s.ptr + so + 1)]
      exact hs2
    · by_cases h1 : so = 1
      · exact Or.inr h1
      · rcases hgap with hg | hg
        · refine Or.inl ?_
          show ((s.tape.set (s.ptr + so) 1).set s.ptr
            ((s.tape.getD s.ptr 0 + 1) % 256)).getD (s.ptr + 1) 0 = 0
          rw [getD_set_ne _ _ (by omega : s.ptr ≠ s.ptr + 1),
            getD_set_ne _ _ (by omega : s.ptr + so ≠ s.ptr + 1)]
          exact hg
        · exact absurd hg h1
    · show s.ptr + so + 1 < ((s.tape.set (s.ptr + so) 1).set s.ptr
        ((s.tape.getD s.ptr 0 + 1) % 256)).length
      rw [hlen1]
      exact hlen
  have m8 : Ex (.item (Item.AssertRelativePosition lname 0 ("after zero check")))
      (setPT sM s.ptr (((s.tape.set (s.ptr + so) 1).set s.ptr
        ((s.tape.getD s.ptr 0 + 1) % 256)).set (s.ptr + so) 0))
      (.ok (setPT sM s.ptr (((s.tape.set (s.ptr + so) 1).set s.ptr
        ((s.tape.getD s.ptr 0 + 1) % 256)).set (s.ptr + so) 0))) :=
    ex_assert_rel (lookup_cons_self lname s.ptr s.markers)
      (show (s.ptr : Int) = (s.ptr : Int) + 0 from by ring)
  have m9 : Ex (.item (Item.AssertRelativePosition lname 0 ("after level")))
      (setPT sM s.ptr (((s.tape.set (s.ptr + so) 1).set s.ptr
        ((s.tape.getD s.ptr 0 + 1) % 256)).set (s.ptr + so) 0))
      (.ok (setPT sM s.ptr (((s.tape.set (s.ptr + so) 1).set s.ptr
        ((s.tape.getD s.ptr 0 + 1) % 256)).set (s.ptr + so) 0))) :=
    ex_assert_rel (lookup_cons_self lname s.ptr s.markers)
      (show (s.ptr : Int) = (s.ptr : Int) + 0 from by ring)
  have m10 : Ex (.item (Item.RemoveMarker lname))
      (setPT sM s.ptr (((s.tape.set (s.ptr + so) 1).set s.ptr
        ((s.tape.getD s.ptr 0 + 1) % 256)).set (s.ptr + so) 0))
      (.ok (setPT s s.ptr (((s.tape.set (s.ptr + so) 1).set s.ptr
        ((s.tape.getD s.ptr 0 + 1) % 256)).set (s.ptr + so) 0))) := by
    have h := ex_remove_marker (s := setPT sM s.ptr (((s.tape.set (s.ptr + so) 1).set
      s.ptr ((s.tape.getD s.ptr 0 + 1) % 256)).set (s.ptr + so) 0))
      (lookup_cons_self lname s.ptr s.markers)
    replace h : Ex (.item (Item.RemoveMarker lname))
        (setPT sM s.ptr (((s.tape.set (s.ptr + so) 1).set s.ptr
          ((s.tape.getD s.ptr 0 + 1) % 256)).set (s.ptr + so) 0))
        (.ok { setPT sM s.ptr (((s.tape.set (s.ptr + so) 1).set s.ptr
          ((s.tape.getD s.ptr 0 + 1) % 256)).set (s.ptr + so) 0) with
          markers := ((lname, s.ptr) :: s.markers).eraseP (fun kv => kv.1 == lname) }) := h
    rw [eraseP_cons_self] at h
    exact h
  have hfull : Ex (.item (Item.Sequence [
      Item.Comment (levelCommentText (DecimalAdd W) space) 10,
      Item.AddMarker lname,
      Item.Sequence [offset_to_insns (so : Int), zero_cell, .Direct .Inc,
        offset_to_insns (-(so : Int))],
      Item.AssertRelativePosition lname 0 ("after prep"),
      .Direct .Inc,
      Item.AssertRelativePosition lname 0 ("after operation"),
      zcItem (so : Int) (levelLoopB (DecimalAdd W) space (so : Int)),
      Item.AssertRelativePosition lname 0 ("after zero check"),
      Item.AssertRelativePosition lname 0 ("after level"),
      Item.RemoveMarker lname])) s
      (.ok (setPT s s.ptr (((s.tape.set (s.ptr + so) 1).set s.ptr
        ((s.tape.getD s.ptr 0 + 1) % 256)).set (s.ptr + so) 0))) :=
    Ex.seqI (Ex.consOk m1 (Ex.consOk m2 (Ex.consOk m3 (Ex.consOk m4
      (Ex.consOk m5 (Ex.consOk m6 (Ex.consOk m7 (Ex.consOk m8
      (Ex.consOk m9 (Ex.consOk m10 Ex.nilS))))))))))
  have heq : ((s.tape.set (s.ptr + so) 1).set s.ptr
      ((s.tape.getD s.ptr 0 + 1) % 256)).set (s.ptr + so) 0 =
      (s.tape.set (s.ptr + so) 0).set s.ptr ((s.tape.getD s.ptr 0 + 1) % 256) := by
    rw [List.set_comm _ _ _ (by omega : s.ptr ≠ s.ptr + so), List.set_set]
  rw [heq] at hfull
  exact hfull

theorem ex_level_sub (W space so : Nat) (hso : 1 ≤ so) (s : St)
    (htape : TapeOK s.tape)
    (hlen : s.ptr + so + 1 < s.tape.length)
    (hcell0 : s.tape.getD s.ptr 0 ≠ 0)
    (hs2 : s.tape.getD (s.ptr + so + 1) 0 = 0)
    (hgap : s.tape.getD (s.ptr + 1) 0 = 0 ∨ so = 1)
    (hml : s.markers.lookup (levelMarkerName (DecimalSub W) space) = none) :
    Ex (.item (operate_level (DecimalSub W) space (so : Int))) s
      (.ok (setPT s s.ptr ((s.tape.set (s.ptr + so) 0).set s.ptr
        ((s.tape.getD s.ptr 0 + 255) % 256)))) := by
  rw [operate_level_sub_eq]
  set lname := levelMarkerName (DecimalSub W) space with hlname
  set sM : St := { s with markers := (lname, s.ptr) :: s.markers } with hsM
  have m1 : Ex (.item (Item.Comment (levelCommentText (DecimalSub W) space) 10))
      s (.ok s) := ex_comment _ _ _
  have m2 : Ex (.item (Item.AddMarker lname)) s (.ok sM) := ex_add_marker hml
  have m3 : Ex (.item (Item.Sequence [offset_to_insns (so : Int), zero_cell,
      Item.Direct .Inc, offset_to_insns (-(so : Int))])) sM
      (.ok (setPT sM s.ptr (s.tape.set (s.ptr + so) 1))) :=
    ex_prep so sM (htape.getD _) (show s.ptr + so < s.tape.length by omega)
  have m4 : Ex (.item (Item.AssertRelativePosition lname 0 ("after prep")))
      (setPT sM s.ptr (s.tape.set (s.ptr + so) 1))
      (.ok (setPT sM s.ptr (s.tape.set (s.ptr + so) 1))) :=
    ex_assert_rel (lookup_cons_self lname s.ptr s.markers)
      (show (s.ptr : Int) = (s.ptr : Int) + 0 from by ring)
  have m5 : Ex (.item (zcItem (so : Int) (levelLoopB (DecimalSub W) space (so : Int))))
      (setPT sM s.ptr (s.tape.set (s.ptr + so) 1))
      (.ok (setPT sM s.ptr ((s.tape.set (s.ptr + so) 1).set (s.ptr + so) 0))) := by
    refine ex_zero_check so _ _ ?_ ?_ ?_ ?_ ?_
    · show (s.tape.set (s.ptr + so) 1).getD s.ptr 0 ≠ 0
      rw [getD_set_ne _ _ (by omega : s.ptr + so ≠ s.ptr)]
      exact hcell0
    · show (s.tape.set (s.ptr + so) 1).getD (s.ptr + so) 0 = 1
      exact getD_set_eq _ _ _ (by omega)
    · show (s.tape.set (s.ptr + so) 1).getD (s.ptr + so + 1) 0 = 0
      rw [getD_set_ne _ _ (by omega : s.ptr + so ≠ s.ptr + so + 1)]
      exact hs2
    · by_cases h1 : so = 1
      · exact Or.inr h1
      · rcases hgap with hg | hg
        · refine Or.inl ?_
          show (s.tape.set (s.ptr + so) 1).getD (s.ptr + 1) 0 = 0
          rw [getD_set_ne _ _ (by omega : s.ptr + so ≠ s.ptr + 1)]
          exact hg
        · exact absurd hg h1
    · show s.ptr + so + 1 < (s.tape.set (s.ptr + so) 1).length
      rw [List.length_set]
      exact hlen
  have hcollapse : (s.tape.set (s.ptr + so) 1).set (s.ptr + so) 0 =
      s.tape.set (s.ptr + so) 0 := List.set_set _ _ _ _
  rw [hcollapse] at m5
  have m6 : Ex (.item (Item.AssertRelativePosition lname 0 ("after zero check")))
      (setPT sM s.ptr (s.tape.set (s.ptr + so) 0))
      (.ok (setPT sM s.ptr (s.tape.set (s.ptr + so) 0))) :=
    ex_assert_rel (lookup_cons_self lname s.ptr s.markers)
      (show (s.ptr : Int) = (s.ptr : Int) + 0 from by ring)
  have m7 : Ex (.item (Item.Direct .Dec))
      (setPT sM s.ptr (s.tape.set (s.ptr + so) 0))
      (.ok (setPT sM s.ptr ((s.tape.set (s.ptr + so) 0).set s.ptr
        ((s.tape.getD s.ptr 0 + 255) % 256)))) := by
    have h := ex_dec (setPT sM s.ptr (s.tape.set (s.ptr + so) 0))
    replace h : Ex (.item (Item.Direct .Dec))
        (setPT sM s.ptr (s.tape.set (s.ptr + so) 0))
        (.ok (setPT sM s.ptr ((s.tape.set (s.ptr + so) 0).set s.ptr
          (((s.tape.set (s.ptr + so) 0).getD s.ptr 0 + 255) % 256)))) := h
    rw [getD_set_ne _ _ (by omega : s.ptr + so ≠ s.ptr)] at h
    exact h
  have m8 : Ex (.item (Item.AssertRelativePosition lname 0 ("after operation")))
      (setPT sM s.ptr ((s.tape.set (s.ptr + so) 0).set s.ptr
        ((s.tape.getD s.ptr 0 + 255) % 256)))
      (.ok (setPT sM s.ptr ((s.tape.set (s.ptr + so) 0).set s.ptr
        ((s.tape.getD s.ptr 0 + 255) % 256)))) :=
    ex_assert_rel (lookup_cons_self lname s.ptr s.markers)
      (show (s.ptr : Int) = (s.ptr : Int) + 0 from by ring)
  have m9 : Ex (.item (Item.AssertRelativePosition lname 0 ("after level")))
      (setPT sM s.ptr ((s.tape.set (s.ptr + so) 0).set s.ptr
        ((s.tape.getD s.ptr 0 + 255) % 256)))
      (.ok (setPT sM s.ptr ((s.tape.set (s.ptr + so) 0).set s.ptr
        ((s.tape.getD s.ptr 0 + 255) % 256)))) :=
    ex_assert_rel (lookup_cons_self lname s.ptr s.markers)
      (show (s.ptr : Int) = (s.ptr : Int) + 0 from by ring)
  have m10 : Ex (.item (Item.RemoveMarker lname))
      (setPT sM s.ptr ((s.tape.set (s.ptr + so) 0).set s.ptr
        ((s.tape.getD s.ptr 0 + 255) % 256)))
      (.ok (setPT s s.ptr ((s.tape.set (s.ptr + so) 0).set s.ptr
        ((s.tape.getD s.ptr 0 + 255) % 256)))) := by
    have h := ex_remove_marker (s := setPT sM s.ptr ((s.tape.set (s.ptr + so) 0).set
      s.ptr ((s.tape.getD s.ptr 0 + 255) % 256)))
      (lookup_cons_self lname s.ptr s.markers)
    replace h : Ex (.item (Item.RemoveMarker lname))
        (setPT sM s.ptr ((s.tape.set (s.ptr + so) 0).set s.ptr
          ((s.tape.getD s.ptr 0 + 255) % 256)))
        (.ok { setPT sM s.ptr ((s.tape.set (s.ptr + so) 0).set s.ptr
          ((s.tape.getD s.ptr 0 + 255) % 256)) with
          markers := ((lname, s.ptr) :: s.markers).eraseP (fun kv => kv.1 == lname) }) := h
    rw [eraseP_cons_self] at h
    exact h
  exact Ex.seqI (Ex.consOk m1 (Ex.consOk m2 (Ex.consOk m3 (Ex.consOk m4
    (Ex.consOk m5 (Ex.consOk m6 (Ex.consOk m7 (Ex.consOk m8
    (Ex.consOk m9 (Ex.consOk m10 Ex.nilS))))))))))

theorem TapeOK.set_lt {t : List Nat} (h : TapeOK t) {x : Nat} (hx : x < 256)
    (i : Nat) : TapeOK (t.set i x) := by
  intro v hv
  rcases List.mem_or_eq_of_mem_set hv with hmem | rfl
  · exact h v hmem
  · exact hx

theorem natDigitsRev_length_pos (n : Nat) : 0 < (natDigitsRev n).length := by
  rw [natDigitsRev]
  simp only [natDigitsRevGo]
  split
  · simp
  · simp

theorem natStr_length_pos (n : Nat) : 0 < (natStr n).length := by
  rw [natStr]
  show 0 < ((natDigitsRev n).reverse).length
  rw [List.length_reverse]
  exact natDigitsRev_length_pos n

theorem level_ne_op (N : NumericOperation) (space : Nat) :
    levelMarkerName N space ≠ operateMarkerName N := by
  intro h
  have hl := congrArg String.length h
  rw [levelMarkerName, operateMarkerName] at hl
  simp only [String.length_append] at hl
  have hpos := natStr_length_pos (N.WIDTH - space)
  rw [show (" level " : String).length = 7 from rfl] at hl
  omega

theorem operate_eq (N : NumericOperation) (so : Int) :
    operate N so = Item.Sequence [
      Item.AddMarker (operateMarkerName N),
      offset_to_insns so, zero_cell, .Direct .Right, zero_cell, .Direct .Left,
      offset_to_insns (-so),
      operate_level N (N.WIDTH - 1) so,
      Item.AssertRelativePosition (operateMarkerName N) 0 ("after total operation"),
      Item.RemoveMarker (operateMarkerName N)] := rfl

theorem ex_operate_prefix (opname : String) (so : Nat) (s : St)
    (htape : TapeOK s.tape) (hlen : s.ptr + so + 1 < s.tape.length)
    (hmo : s.markers.lookup opname = none) :
    Ex (.seq [Item.AddMarker opname, offset_to_insns (so : Int), zero_cell,
      Item.Direct .Right, zero_cell, Item.Direct .Left,
      offset_to_insns (-(so : Int))])
      s (.ok (setPT { s with markers := (opname, s.ptr) :: s.markers } s.ptr
        ((s.tape.set (s.ptr + so) 0).set (s.ptr + so + 1) 0))) := by
  set sO : St := { s with markers := (opname, s.ptr) :: s.markers } with hsO
  have o1 : Ex (.item (Item.AddMarker opname)) s (.ok sO) := ex_add_marker hmo
  have o2 : Ex (.item (offset_to_insns (so : Int))) sO
      (.ok (setPT sO (s.ptr + so) s.tape)) :=
    ex_offset (show ((s.ptr + so : Nat) : Int) = (s.ptr : Int) + (so : Int)
      from by push_cast; ring) (show s.ptr + so < s.tape.length by omega)
  have o3 : Ex (.item zero_cell) (setPT sO (s.ptr + so) s.tape)
      (.ok (setPT sO (s.ptr + so) (s.tape.set (s.ptr + so) 0))) :=
    ex_zero_cell (htape.getD _)
  have o4 : Ex (.item (Item.Direct .Right))
      (setPT sO (s.ptr + so) (s.tape.set (s.ptr + so) 0))
      (.ok (setPT sO (s.ptr + so + 1) (s.tape.set (s.ptr + so) 0))) :=
    ex_right (show s.ptr + so + 1 < (s.tape.set (s.ptr + so) 0).length
      from by rw [List.length_set]; omega)
  have o5 : Ex (.item zero_cell)
      (setPT sO (s.ptr + so + 1) (s.tape.set (s.ptr + so) 0))
      (.ok (setPT sO (s.ptr + so + 1)
        ((s.tape.set (s.ptr + so) 0).set (s.ptr + so + 1) 0))) :=
    ex_zero_cell (show (s.tape.set (s.ptr + so) 0).getD (s.ptr + so + 1) 0 < 256
      from by rw [getD_set_ne _ _ (by omega : s.ptr + so ≠ s.ptr + so + 1)]
              exact htape.getD _)
  have o6 : Ex (.item (Item.Direct .Left))
      (setPT sO (s.ptr + so + 1) ((s.tape.set (s.ptr + so) 0).set (s.ptr + so + 1) 0))
      (.ok (setPT sO (s.ptr + so)
        ((s.tape.set (s.ptr + so) 0).set (s.ptr + so + 1) 0))) :=
    ex_left rfl
  have o7 : Ex (.item (offset_to_insns (-(so : Int))))
      (setPT sO (s.ptr + so) ((s.tape.set (s.ptr + so) 0).set (s.ptr + so + 1) 0))
      (.ok (setPT sO s.ptr ((s.tape.set (s.ptr + so) 0).set (s.ptr + so + 1) 0))) :=
    ex_offset (show (s.ptr : Int) = ((s.ptr + so : Nat) : Int) + (-(so : Int))
      from by push_cast; ring)
      (show s.ptr < ((s.tape.set (s.ptr + so) 0).set (s.ptr + so + 1) 0).length
        from by rw [List.length_set, List.length_set]; omega)
  exact Ex.consOk o1 (Ex.consOk o2 (Ex.consOk o3 (Ex.consOk o4
    (Ex.consOk o5 (Ex.consOk o6 (Ex.consOk o7 Ex.nilS))))))

theorem ex_operate_add (W so : Nat) (hso : 1 ≤ so) (s : St)
    (htape : TapeOK s.tape)
    (hlen : s.ptr + so + 1 < s.tape.length)
    (hcell : s.tape.getD s.ptr 0 ≤ 254)
    (hgap : s.tape.getD (s.ptr + 1) 0 = 0 ∨ so = 1)
    (hmo : s.markers.lookup (operateMarkerName (DecimalAdd W)) = none)
    (hml : s.markers.lookup (levelMarkerName (DecimalAdd W) (W - 1)) = none) :
    Ex (.item (operate (DecimalAdd W) (so : Int))) s
      (.ok (setPT s s.ptr (((s.tape.set (s.ptr + so) 0).set (s.ptr + so + 1) 0).set
        s.ptr ((s.tape.getD s.ptr 0 + 1) % 256)))) := by
  rw [operate_eq]
  set opname := operateMarkerName (DecimalAdd W) with hopname
  set sO : St := { s with markers := (opname, s.ptr) :: s.markers } with hsO
  have hpre := ex_operate_prefix opname so s htape hlen hmo
  set tL : List Nat := (s.tape.set (s.ptr + so) 0).set (s.ptr + so + 1) 0 with htL
  have htL_ok : TapeOK tL := (htape.set_lt (by omega) _).set_lt (by omega) _
  have htL_len : tL.length = s.tape.length := by
    rw [htL, List.length_set, List.length_set]
  have htL_head : tL.getD s.ptr 0 = s.tape.getD s.ptr 0 := by
    rw [htL, getD_set_ne _ _ (by omega : s.ptr + so + 1 ≠ s.ptr),
      getD_set_ne _ _ (by omega : s.ptr + so ≠ s.ptr)]
  have h8 := ex_level_add W (W - 1) so hso (setPT sO s.ptr tL)
    htL_ok
    (show s.ptr + so + 1 < tL.length from by rw [htL_len]; exact hlen)
    (show tL.getD s.ptr 0 ≤ 254 from by rw [htL_head]; exact hcell)
    (show tL.getD (s.ptr + so + 1) 0 = 0 from by
      rw [htL]
      exact getD_set_eq _ _ _ (by rw [List.length_set]; omega))
    (by
      by_cases h1 : so = 1
      · exact Or.inr h1
      · rcases hgap with hg | hg
        · refine Or.inl ?_
          show tL.getD (s.ptr + 1) 0 = 0
          rw [htL, getD_set_ne _ _ (by omega : s.ptr + so + 1 ≠ s.ptr + 1),
            getD_set_ne _ _ (by omega : s.ptr + so ≠ s.ptr + 1)]
          exact hg
        · exact absurd hg h1)
    (show ((opname, s.ptr) :: s.markers).lookup
        (levelMarkerName (DecimalAdd W) (W - 1)) = none from by
      rw [lookup_cons_ne (level_ne_op (DecimalAdd W) (W - 1))]
      exact hml)
  replace h8 : Ex (.item (operate_level (DecimalAdd W) (W - 1) (so : Int)))
      (setPT sO s.ptr tL)
      (.ok (setPT sO s.ptr ((tL.set (s.ptr + so) 0).set s.ptr
        ((tL.getD s.ptr 0 + 1) % 256)))) := h8
  have htL_re : tL.set (s.ptr + so) 0 = tL := by
    rw [htL, List.set_comm _ _ _ (by omega : s.ptr + so + 1 ≠ s.ptr + so),
      List.set_set]
  rw [htL_re, htL_head] at h8
  have h9 : Ex (.item (Item.AssertRelativePosition opname 0 ("after total operation")))
      (setPT sO s.ptr (tL.set s.ptr ((s.tape.getD s.ptr 0 + 1) % 256)))
      (.ok (setPT sO s.ptr (tL.set s.ptr ((s.tape.getD s.ptr 0 + 1) % 256)))) :=
    ex_assert_rel (lookup_cons_self opname s.ptr s.markers)
      (show (s.ptr : Int) = (s.ptr : Int) + 0 from by ring)
  have h10 : Ex (.item (Item.RemoveMarker opname))
      (setPT sO s.ptr (tL.set s.ptr ((s.tape.getD s.ptr 0 + 1) % 256)))
      (.ok (setPT s s.ptr (tL.set s.ptr ((s.tape.getD s.ptr 0 + 1) % 256)))) := by
    have h := ex_remove_marker
      (s := setPT sO s.ptr (tL.set s.ptr ((s.tape.getD s.ptr 0 + 1) % 256)))
      (lookup_cons_self opname s.ptr s.markers)
    replace h : Ex (.item (Item.RemoveMarker opname))
        (setPT sO s.ptr (tL.set s.ptr ((s.tape.getD s.ptr 0 + 1) % 256)))
        (.ok { setPT sO s.ptr (tL.set s.ptr ((s.tape.getD s.ptr 0 + 1) % 256)) with
          markers := ((opname, s.ptr) :: s.markers).eraseP
            (fun kv => kv.1 == opname) }) := h
    rw [eraseP_cons_self] at h
    exact h
  exact Ex.seqI (ex_seq_append_ok hpre (Ex.consOk h8 (Ex.consOk h9
    (Ex.consOk h10 Ex.nilS))))

theorem ex_operate_sub (W so : Nat) (hso : 1 ≤ so) (s : St)
    (htape : TapeOK s.tape)
    (hlen : s.ptr + so + 1 < s.tape.length)
    (hcell0 : s.tape.getD s.ptr 0 ≠ 0)
    (hgap : s.tape.getD (s.ptr + 1) 0 = 0 ∨ so = 1)
    (hmo : s.markers.lookup (operateMarkerName (DecimalSub W)) = none)
    (hml : s.markers.lookup (levelMarkerName (DecimalSub W) (W - 1)) = none) :
    Ex (.item (operate (DecimalSub W) (so : Int))) s
      (.ok (setPT s s.ptr (((s.tape.set (s.ptr + so) 0).set (s.ptr + so + 1) 0).set
        s.ptr ((s.tape.getD s.ptr 0 + 255) % 256)))) := by
  rw [operate_eq]
  set opname := operateMarkerName (DecimalSub W) with hopname
  set sO : St := { s with markers := (opname, s.ptr) :: s.markers } with hsO
  have hpre := ex_operate_prefix opname so s htape hlen hmo
  set tL : List Nat := (s.tape.set (s.ptr + so) 0).set (s.ptr + so + 1) 0 with htL
  have htL_ok : TapeOK tL := (htape.set_lt (by omega) _).set_lt (by omega) _
  have htL_len : tL.length = s.tape.length := by
    rw [htL, List.length_set, List.length_set]
  have htL_head : tL.getD s.ptr 0 = s.tape.getD s.ptr 0 := by
    rw [htL, getD_set_ne _ _ (by omega : s.ptr + so + 1 ≠ s.ptr),
      getD_set_ne _ _ (by omega : s.ptr + so ≠ s.ptr)]
  have h8 := ex_level_sub W (W - 1) so hso (setPT sO s.ptr tL)
    htL_ok
    (show s.ptr + so + 1 < tL.length from by rw [htL_len]; exact hlen)
    (show tL.getD s.ptr 0 ≠ 0 from by rw [htL_head]; exact hcell0)
    (show tL.getD (s.ptr + so + 1) 0 = 0 from by
      rw [htL]
      exact getD_set_eq _ _ _ (by rw [List.length_set]; omega))
    (by
      by_cases h1 : so = 1
      · exact Or.inr h1
      · rcases hgap with hg | hg
        · refine Or.inl ?_
          show tL.getD (s.ptr + 1) 0 = 0
          rw [htL, getD_set_ne _ _ (by omega : s.ptr + so + 1 ≠ s.ptr + 1),
            getD_set_ne _ _ (by omega : s.ptr + so ≠ s.ptr + 1)]
          exact hg
        · exact absurd hg h1)
    (show ((opname, s.ptr) :: s.markers).lookup
        (levelMarkerName (DecimalSub W) (W - 1)) = none from by
      rw [lookup_cons_ne (level_ne_op (DecimalSub W) (W - 1))]
      exact hml)
  replace h8 : Ex (.item (operate_level (DecimalSub W) (W - 1) (so : Int)))
      (setPT sO s.ptr tL)
      (.ok (setPT sO s.ptr ((tL.set (s.ptr + so) 0).set s.ptr
        ((tL.getD s.ptr 0 + 255) % 256)))) := h8
  have htL_re : tL.set (s.ptr + so) 0 = tL := by
    rw [htL, List.set_comm _ _ _ (by omega : s.ptr + so + 1 ≠ s.ptr + so),
      List.set_set]
  rw [htL_re, htL_head] at h8
  have h9 : Ex (.item (Item.AssertRelativePosition opname 0 ("after total operation")))
      (setPT sO s.ptr (tL.set s.ptr ((s.tape.getD s.ptr 0 + 255) % 256)))
      (.ok (setPT sO s.ptr (tL.set s.ptr ((s.tape.getD s.ptr 0 + 255) % 256)))) :=
    ex_assert_rel (lookup_cons_self opname s.ptr s.markers)
      (show (s.ptr : Int) = (s.ptr : Int) + 0 from by ring)
  have h10 : Ex (.item (Item.RemoveMarker opname))
      (setPT sO s.ptr (tL.set s.ptr ((s.tape.getD s.ptr 0 + 255) % 256)))
      (.ok (setPT s s.ptr (tL.set s.ptr ((s.tape.getD s.ptr 0 + 255) % 256)))) := by
    have h := ex_remove_marker
      (s := setPT sO s.ptr (tL.set s.ptr ((s.tape.getD s.ptr 0 + 255) % 256)))
      (lookup_cons_self opname s.ptr s.markers)
    replace h : Ex (.item (Item.RemoveMarker opname))
        (setPT sO s.ptr (tL.set s.ptr ((s.tape.getD s.ptr 0 + 255) % 256)))
        (.ok { setPT sO s.ptr (tL.set s.ptr ((s.tape.getD s.ptr 0 + 255) % 256)) with
          markers := ((opname, s.ptr) :: s.markers).eraseP
            (fun kv => kv.1 == opname) }) := h
    rw [eraseP_cons_self] at h
    exact h
  exact Ex.seqI (ex_seq_append_ok hpre (Ex.consOk h8 (Ex.consOk h9
    (Ex.consOk h10 Ex.nilS))))

theorem offset_structured (k : Int) : (offset_to_insns k).structuredB = true := by
  rw [offset_to_insns]
  by_cases h : k ≥ 0
  · rw [if_pos h]; rfl
  · rw [if_neg h]; rfl

theorem operate_level_add_structured (W : Nat) : ∀ (space : Nat) (so : Int),
    (operate_level (DecimalAdd W) space so).structuredB = true := by
  intro space
  induction space with
  | zero =>
    intro so
    rw [operate_level_add_eq]
    simp [Item.structuredB, Item.structuredListB, zcItem, levelLoopB,
      offset_structured, zero_cell]
  | succ sp ih =>
    intro so
    rw [operate_level_add_eq]
    have hzr : (DecimalAdd W).zero_reset.structuredB = true := rfl
    simp [Item.structuredB, Item.structuredListB, zcItem, levelLoopB,
      offset_structured, zero_cell, ih, hzr]

theorem operate_level_sub_structured (W : Nat) : ∀ (space : Nat) (so : Int),
    (operate_level (DecimalSub W) space so).structuredB = true := by
  intro space
  induction space with
  | zero =>
    intro so
    rw [operate_level_sub_eq]
    simp [Item.structuredB, Item.structuredListB, zcItem, levelLoopB,
      offset_structured, zero_cell]
  | succ sp ih =>
    intro so
    rw [operate_level_sub_eq]
    have hzr : (DecimalSub W).zero_reset.structuredB = true := rfl
    simp [Item.structuredB, Item.structuredListB, zcItem, levelLoopB,
      offset_structured, zero_cell, ih, hzr]

theorem operate_add_structured (W : Nat) (so : Int) :
    (operate (DecimalAdd W) so).structuredB = true := by
  rw [operate_eq]
  simp [Item.structuredB, Item.structuredListB, offset_structured, zero_cell,
    operate_level_add_structured]

theorem operate_sub_structured (W : Nat) (so : Int) :
    (operate (DecimalSub W) so).structuredB = true := by
  rw [operate_eq]
  simp [Item.structuredB, Item.structuredListB, offset_structured, zero_cell,
    operate_level_sub_structured]

/-- C2 (corrected, first direction): from any state whose head cell holds a
byte below 255, with the two scratch cells at scratch_offset zeroed, the
gap cell clear (or scratch_offset = 1) and the four marker names free,
running the built program of DecimalAdd followed by DecimalSub restores
the ENTIRE initial state: tape, pointer and marker map.  On plain decimal
digit cells neither operation ever carries or borrows across digits here,
because the add direction leaves the digit cell at value + 1 (10 included)
and the following sub sees a nonzero cell; the opposite composition is
NOT an inverse on plain digits (see the counterexample). -/
theorem decimal_add_sub_inverse (W so : Nat) (s : St)
    (hso : 1 ≤ so)
    (htape : TapeOK s.tape)
    (hlen : s.ptr + so + 1 < s.tape.length)
    (hcell : s.tape.getD s.ptr 0 ≤ 254)
    (hs1 : s.tape.getD (s.ptr + so) 0 = 0)
    (hs2 : s.tape.getD (s.ptr + so + 1) 0 = 0)
    (hgap : s.tape.getD (s.ptr + 1) 0 = 0 ∨ so = 1)
    (hmA : s.markers.lookup (operateMarkerName (DecimalAdd W)) = none)
    (hmAl : s.markers.lookup (levelMarkerName (DecimalAdd W) (W - 1)) = none)
    (hmS : s.markers.lookup (operateMarkerName (DecimalSub W)) = none)
    (hmSl : s.markers.lookup (levelMarkerName (DecimalSub W) (W - 1)) = none) :
    ∃ prog f,
      Program.build (Item.build (Item.Sequence
        [operate (DecimalAdd W) (so : Int), operate (DecimalSub W) (so : Int)])) =
        .ok prog ∧
      runFuel prog f ⟨0, s⟩ = some (.ok s) := by
  have hstr : (Item.Sequence
      [operate (DecimalAdd W) (so : Int),
        operate (DecimalSub W) (so : Int)]).structuredB = true := by
    simp [Item.structuredB, Item.structuredListB, operate_add_structured,
      operate_sub_structured]
    refine ⟨⟨offset_structured _, operate_level_add_structured W _ _⟩,
      offset_structured _, operate_level_sub_structured W _ _⟩
  obtain ⟨prog, hbuild⟩ := build_ok_of_structured hstr
  have hadd := ex_operate_add W so hso s htape hlen hcell hgap hmA hmAl
  have ht1 : ((s.tape.set (s.ptr + so) 0).set (s.ptr + so + 1) 0).set
      s.ptr ((s.tape.getD s.ptr 0 + 1) % 256) =
      s.tape.set s.ptr (s.tape.getD s.ptr 0 + 1) := by
    rw [set_getD_zero _ _ hs1, set_getD_zero _ _ hs2,
      Nat.mod_eq_of_lt (by omega)]
  rw [ht1] at hadd
  have hsub := ex_operate_sub W so hso
    (setPT s s.ptr (s.tape.set s.ptr (s.tape.getD s.ptr 0 + 1)))
    (htape.set_lt (by omega) _)
    (show s.ptr + so + 1 < (s.tape.set s.ptr (s.tape.getD s.ptr 0 + 1)).length
      from by rw [List.length_set]; omega)
    (show (s.tape.set s.ptr (s.tape.getD s.ptr 0 + 1)).getD s.ptr 0 ≠ 0
      from by rw [getD_set_eq _ _ _ (by omega)]; omega)
    (by
      rcases hgap with hg | hg
      · refine Or.inl ?_
        show (s.tape.set s.ptr (s.tape.getD s.ptr 0 + 1)).getD (s.ptr + 1) 0 = 0
        rw [getD_set_ne _ _ (by omega : s.ptr ≠ s.ptr + 1)]
        exact hg
      · exact Or.inr hg)
    (show s.markers.lookup (operateMarkerName (DecimalSub W)) = none from hmS)
    (show s.markers.lookup (levelMarkerName (DecimalSub W) (W - 1)) = none from hmSl)
  replace hsub : Ex (.item (operate (DecimalSub W) (so : Int)))
      (setPT s s.ptr (s.tape.set s.ptr (s.tape.getD s.ptr 0 + 1)))
      (.ok (setPT s s.ptr
        ((((s.tape.set s.ptr (s.tape.getD s.ptr 0 + 1)).set (s.ptr + so) 0).set
          (s.ptr + so + 1) 0).set s.ptr
          (((s.tape.set s.ptr (s.tape.getD s.ptr 0 + 1)).getD s.ptr 0 + 255)
            % 256)))) := hsub
  rw [getD_set_eq _ _ _ (by omega : s.ptr < s.tape.length)] at hsub
  rw [show (s.tape.getD s.ptr 0 + 1 + 255) % 256 = s.tape.getD s.ptr 0
    from by omega] at hsub
  rw [set_getD_zero _ _ (show (s.tape.set s.ptr
    (s.tape.getD s.ptr 0 + 1)).getD (s.ptr + so) 0 = 0 from by
      rw [getD_set_ne _ _ (by omega : s.ptr ≠ s.ptr + so)]; exact hs1)] at hsub
  rw [set_getD_zero _ _ (show (s.tape.set s.ptr
    (s.tape.getD s.ptr 0 + 1)).getD (s.ptr + so + 1) 0 = 0 from by
      rw [getD_set_ne _ _ (by omega : s.ptr ≠ s.ptr + so + 1)]; exact hs2)] at hsub
  rw [List.set_set, set_getD_self _ _ _ rfl] at hsub
  replace hsub : Ex (.item (operate (DecimalSub W) (so : Int)))
      (setPT s s.ptr (s.tape.set s.ptr (s.tape.getD s.ptr 0 + 1)))
      (.ok s) := hsub
  have hex : Ex (.item (Item.Sequence
      [operate (DecimalAdd W) (so : Int), operate (DecimalSub W) (so : Int)]))
      s (.ok s) :=
    Ex.seqI (Ex.consOk hadd (Ex.consOk hsub Ex.nilS))
  obtain ⟨f, hrun⟩ := exec_runFuel_ok hstr hex hbuild
  exact ⟨prog, f, hbuild, hrun⟩

theorem decimal_add_sub_inverse_witness :
    ∃ prog f,
      Program.build (Item.build (Item.Sequence
        [operate (DecimalAdd 1) ((1 : Nat) : Int),
          operate (DecimalSub 1) ((1 : Nat) : Int)])) = .ok prog ∧
      runFuel prog f ⟨0, ⟨[5, 0, 0], 0, [], [], []⟩⟩ =
        some (.ok ⟨[5, 0, 0], 0, [], [], []⟩) :=
  decimal_add_sub_inverse 1 1 ⟨[5, 0, 0], 0, [], [], []⟩ (by decide)
    (by show ∀ v ∈ ([5, 0, 0] : List Nat), v < 256; decide)
    (by decide) (by decide) (by decide) (by decide) (Or.inr rfl)
    rfl rfl rfl rfl

set_option maxRecDepth 10000 in
/-- C2, second direction of the claim refuted: on plain decimal digit cells
DecimalSub followed by DecimalAdd is NOT the identity on the nonzero values
the claim includes.  From v = 10 stored as digits [1, 0] (head on the low
digit, scratch_offset 1), sub borrows correctly and yields [0, 9], but the
following add merely increments the low digit cell to 10 without carrying,
ending deterministically at tape [0, 10, 0, 0] instead of the original
[1, 0, 0, 0]. -/
theorem decimal_add_sub_inverse_cex :
    ∃ prog,
      Program.build (Item.build (Item.Sequence
        [operate (DecimalSub 2) 1, operate (DecimalAdd 2) 1])) = .ok prog ∧
      (∃ f, runFuel prog f ⟨0, ⟨[1, 0, 0, 0], 1, [], [], []⟩⟩ =
        some (.ok ⟨[0, 10, 0, 0], 1, [], [], []⟩)) ∧
      (∀ f r, runFuel prog f ⟨0, ⟨[1, 0, 0, 0], 1, [], [], []⟩⟩ = some r →
        r = .ok ⟨[0, 10, 0, 0], 1, [], [], []⟩) ∧
      (⟨[0, 10, 0, 0], 1, [], [], []⟩ : St) ≠ ⟨[1, 0, 0, 0], 1, [], [], []⟩ := by
  have hr : runFuel ((Program.build (Item.build (Item.Sequence
      [operate (DecimalSub 2) 1, operate (DecimalAdd 2) 1]))).toOption.getD
        ⟨[], []⟩)
      600 ⟨0, ⟨[1, 0, 0, 0], 1, [], [], []⟩⟩ =
      some (.ok ⟨[0, 10, 0, 0], 1, [], [], []⟩) := by rfl
  exact ⟨(Program.build (Item.build (Item.Sequence
      [operate (DecimalSub 2) 1, operate (DecimalAdd 2) 1]))).toOption.getD
        ⟨[], []⟩,
    by rfl, ⟨600, hr⟩, fun f r h => runFuel_unique h hr, by decide⟩

/-- C1 (corrected): on the claim's plain digit cells (values 0-9, scratch
cells zeroed, gap cell clear or scratch_offset = 1, marker names free) the
program of operate::<DecimalAdd<W>>(scratch_offset) terminates with the
head back on its cell and the ONLY change being that the head cell holds
its old value plus one — including value 10 when the low digit was 9.  No
carry into higher digits ever happens and the "arithmetic overflow"
assertion is never reached on this domain, because the carry check fires
only when the incremented byte wraps 255 to 0 (the 246-biased digit
encoding that setup_state in main.rs actually uses), never at a plain
digit 9. -/
theorem decimal_add_semantics (W so : Nat) (s : St)
    (hso : 1 ≤ so)
    (htape : TapeOK s.tape)
    (hlen : s.ptr + so + 1 < s.tape.length)
    (hcell : s.tape.getD s.ptr 0 ≤ 254)
    (hs1 : s.tape.getD (s.ptr + so) 0 = 0)
    (hs2 : s.tape.getD (s.ptr + so + 1) 0 = 0)
    (hgap : s.tape.getD (s.ptr + 1) 0 = 0 ∨ so = 1)
    (hmA : s.markers.lookup (operateMarkerName (DecimalAdd W)) = none)
    (hmAl : s.markers.lookup (levelMarkerName (DecimalAdd W) (W - 1)) = none) :
    ∃ prog f,
      Program.build (Item.build (operate (DecimalAdd W) (so : Int))) = .ok prog ∧
      runFuel prog f ⟨0, s⟩ =
        some (.ok (setPT s s.ptr (s.tape.set s.ptr (s.tape.getD s.ptr 0 + 1)))) := by
  have hstr := operate_add_structured W (so : Int)
  obtain ⟨prog, hbuild⟩ := build_ok_of_structured hstr
  have hadd := ex_operate_add W so hso s htape hlen hcell hgap hmA hmAl
  have ht1 : ((s.tape.set (s.ptr + so) 0).set (s.ptr + so + 1) 0).set
      s.ptr ((s.tape.getD s.ptr 0 + 1) % 256) =
      s.tape.set s.ptr (s.tape.getD s.ptr 0 + 1) := by
    rw [set_getD_zero _ _ hs1, set_getD_zero _ _ hs2,
      Nat.mod_eq_of_lt (by omega)]
  rw [ht1] at hadd
  obtain ⟨f, hrun⟩ := exec_runFuel_ok hstr hadd hbuild
  exact ⟨prog, f, hbuild, hrun⟩

theorem decimal_add_semantics_witness :
    ∃ prog f,
      Program.build (Item.build (operate (DecimalAdd 2) ((1 : Nat) : Int))) =
        .ok prog ∧
      runFuel prog f ⟨0, ⟨[3, 7, 0, 0], 1, [], [], []⟩⟩ =
        some (.ok ⟨[3, 8, 0, 0], 1, [], [], []⟩) :=
  decimal_add_semantics 2 1 ⟨[3, 7, 0, 0], 1, [], [], []⟩ (by decide)
    (by show ∀ v ∈ ([3, 7, 0, 0] : List Nat), v < 256; decide)
    (by decide) (by decide) (by decide) (by decide) (Or.inr rfl) rfl rfl

set_option maxRecDepth 10000 in
/-- C1, the claim as stated refuted at W = 1: from the plain digit 9 at
the head (tape [9, 0, 0], scratch cells 1 and 2, the stored number being
10^1 - 1) the run does not fail with the "arithmetic overflow" assertion;
it deterministically succeeds leaving 10 in the digit cell — neither the
claimed failure nor the claimed (number + 1) mod 10 = 0 digit value. -/
theorem decimal_add_semantics_cex :
    ∃ prog,
      Program.build (Item.build (operate (DecimalAdd 1) 1)) = .ok prog ∧
      (∃ f, runFuel prog f ⟨0, ⟨[9, 0, 0], 0, [], [], []⟩⟩ =
        some (.ok ⟨[10, 0, 0], 0, [], [], []⟩)) ∧
      (∀ f r, runFuel prog f ⟨0, ⟨[9, 0, 0], 0, [], [], []⟩⟩ = some r →
        r = .ok ⟨[10, 0, 0], 0, [], [], []⟩) ∧
      (∀ f e, runFuel prog f ⟨0, ⟨[9, 0, 0], 0, [], [], []⟩⟩ ≠
        some (.error e)) ∧
      (⟨[10, 0, 0], 0, [], [], []⟩ : St).tape.getD 0 0 ≠ 0 := by
  have hr : runFuel ((Program.build (Item.build
      (operate (DecimalAdd 1) 1))).toOption.getD ⟨[], []⟩)
      300 ⟨0, ⟨[9, 0, 0], 0, [], [], []⟩⟩ =
      some (.ok ⟨[10, 0, 0], 0, [], [], []⟩) := by rfl
  refine ⟨(Program.build (Item.build
      (operate (DecimalAdd 1) 1))).toOption.getD ⟨[], []⟩,
    by rfl, ⟨300, hr⟩, fun f r h => runFuel_unique h hr, ?_, by decide⟩
  intro f e h
  exact Except.noConfusion (runFuel_unique h hr)
